import Mathlib

/-!
PatternMatch (DSGRN): a shallow embedding of the matching engine

The definitions follow `software/PatternMatch/source/dev/PatternMatch.cpp`
function by function.  Loops that may run forever take a fuel argument and
return `none` when the fuel is used up; faults (`throw`, reads outside a
container) are explicit results.

Conventions.
* `uint64_t` wall indices and pattern lengths are `Nat`; the `uint64_t`
  accumulators `numpaths` and `count` wrap modulo `2 ^ 64`.
* A memo entry is an `int64_t`, embedded as its integer value; a `uint64_t`
  sum assigned to an entry is converted by `toInt64`, so that `2 ^ 64 - 1`
  is stored as `-1`, the value of the placeholder.
* A word (`std::string`) is a `List Char`; a `std::set<char>` is a `List Char`
  used through membership only.
* `std::stack` is a list whose head is the top of the stack.
-/

namespace PatternMatch

/-- The faults a run can end in: the two `std::logic_error`s of the source, and
a read outside a container (`wallgraph[wall]`, `headpattern[i]`,
`allpatterns.front()` on an empty list), which C++ leaves undefined. -/
inductive Fault where
  | invalidFindoption
  | leavesNotAssigned
  | outOfRange
  deriving DecidableEq, Repr

/-- Result of a computation that may raise a fault. -/
inductive Outcome (α : Type) where
  | value (a : α)
  | fault (f : Fault)
  deriving DecidableEq, Repr

/-- Key of the memo map, `std::pair<uint64_t,bool>`: wall index and extremum flag. -/
abbrev keypair := Nat × Bool

/-- Modelled from the spec: `pathElementMap` is declared in `DataStructures.hpp`,
which is not part of the sources.  The spec describes it as the table
`(wall, extremum-flag) → count` whose entries are `-1` (pending), `0` or a
number of completions `k ≥ 1`.  The source compares the entries with `-1` and
assigns `uint64_t` sums to them, so the mapped type is a signed integer of
fixed width; it is taken to be `int64_t`.  The table is embedded as an
association list kept in increasing key order (the iteration order of an
ordered map); an entry is the integer value of the `int64_t`, and `toInt64`
is the conversion applied when a `uint64_t` is assigned to it. -/
abbrev pathElementMap := List (keypair × Int)

/-- The memo store `keepcount`: one map per remaining pattern length. -/
abbrev memoize := List pathElementMap

/-- A pattern: a sequence of words. -/
abbrev patternvector := List (List Char)

/-- Label vector of a wall, `std::vector<std::set<char>>`. -/
abbrev labelset := List (List Char)

/-- Modelled from the spec: the wall record is declared in `DataStructures.hpp`
(absent); the source reads its fields `outedges` (a `std::list<uint64_t>`) and
`labels`. -/
structure wallStruct where
  outedges : List Nat
  labels : labelset
  deriving DecidableEq, Repr

/-- The wall graph, indexed by wall. -/
abbrev wallgraphvector := List wallStruct

/-- Stack element `< wall_index, pattern_len >`. -/
abbrev node := Nat × Nat

/-- Results of a batch: `(pattern, number_matches)` in order. -/
abbrev resultslist := List (patternvector × Nat)

/-- Modulus of `uint64_t` arithmetic. -/
def u64 : Nat := 2 ^ 64

/-- The statement `numpaths += x` for a `uint64_t` accumulator and a signed `x`:
`x` is converted to `uint64_t` and added modulo `2 ^ 64`.  Where `x` is the
sum of two `int64_t` entries that leaves the range of `int64_t`, the value of
the two's-complement sum is meant, which is the same modulo `2 ^ 64`. -/
def addU64 (numpaths : Nat) (x : Int) : Nat :=
  (((numpaths : Int) + x) % (u64 : Int)).toNat

/-- The value an `int64_t` entry holds after a `uint64_t` has been assigned to
it: values below `2 ^ 63` are kept, a value from `2 ^ 63` on becomes the
negative number `n - 2 ^ 64`; in particular `2 ^ 64 - 1` becomes `-1`. -/
def toInt64 (n : Nat) : Int :=
  if n % u64 < 2 ^ 63 then ((n % u64 : Nat) : Int) else ((n % u64 : Nat) : Int) - (u64 : Int)

/-- Strict order of `std::pair<uint64_t,bool>` (lexicographic, `false < true`). -/
def keyLt (a b : keypair) : Bool :=
  decide (a.1 < b.1) || (decide (a.1 = b.1) && (!a.2 && b.2))

/-- Lookup in a memo map: `none` when `count(key) == 0`. -/
def mapFind : pathElementMap → keypair → Option Int
  | [], _ => none
  | (k', v) :: rest, k => if k' = k then some v else mapFind rest k

/-- The assignment `m[key] = v`. -/
def mapSet : pathElementMap → keypair → Int → pathElementMap
  | [], k, v => [(k, v)]
  | (k', v') :: rest, k, v =>
    if k = k' then (k, v) :: rest
    else if keyLt k k' then (k, v) :: (k', v') :: rest
    else (k', v') :: mapSet rest k v

/-- The map `keepcount[r]`. -/
def layerAt (keepcount : memoize) (r : Nat) : pathElementMap :=
  keepcount.getD r []

/-- The assignment `( keepcount[ r ] )[ key ] = v`. -/
def setEntry (keepcount : memoize) (r : Nat) (key : keypair) (v : Int) : memoize :=
  keepcount.set r (mapSet (layerAt keepcount r) key v)

/-- Does every label set contain the symbol of the word at its position?  The
loop runs over the label vector; `headpattern[i]` at `i = size` is the
terminating null character, and any later index is outside the string. -/
def _checkForWordInLabels : List Char → labelset → Outcome Bool
  | _, [] => .value true
  | c :: w, l :: ls => if c ∈ l then _checkForWordInLabels w ls else .value false
  | [], l :: ls =>
    if Char.ofNat 0 ∈ l then
      (match ls with
       | [] => .value true
       | _ :: _ => .fault .outOfRange)
    else .value false

/-- The two `std::replace` calls applied to a word. -/
def replaceWord (t : List Char) : List Char :=
  (t.map (fun c => if c = 'M' then 'I' else c)).map (fun c => if c = 'm' then 'D' else c)

/-- The vector `intermediates` built at the start of `_patternMatch`. -/
def intermediatesOf (pattern : patternvector) : patternvector :=
  pattern.map replaceWord

/-- The counting loop of `_pruneRegister` on the two reversed patterns. -/
def tailmatchLoop : patternvector → patternvector → Nat
  | a :: as, b :: bs => if a = b then tailmatchLoop as bs + 1 else 0
  | _, _ => 0

/-- The pruner: a store of `newpattern.size()+1` empty maps into which slots
`1 .. tailmatch` of the old store are copied. -/
def _pruneRegister (newpattern oldpattern : patternvector) (keepcount : memoize) : memoize :=
  let tailmatch := tailmatchLoop newpattern.reverse oldpattern.reverse
  (List.range tailmatch).foldl
    (fun new_keepcount j => new_keepcount.set (j + 1) (layerAt keepcount (j + 1)))
    (List.replicate (newpattern.length + 1) [])

/-- How the loop of `_sumcounts` ends. -/
inductive SumResult where
  | hit
  | pending
  | total (numpaths : Nat)
  deriving DecidableEq, Repr

/-- The loop over `outedges` in `_sumcounts`, reading the map `keepcount[p]`. -/
def sumLoop (findoption : Int) (layer : pathElementMap) : List Nat → Nat → SumResult
  | [], numpaths => .total numpaths
  | oe :: rest, numpaths =>
    match mapFind layer (oe, true), mapFind layer (oe, false) with
    | some oe_count_T, some oe_count_F =>
      if findoption < 3 ∧ (oe_count_T > 0 ∨ oe_count_F > 0) then .hit
      else if oe_count_T = -1 ∨ oe_count_F = -1 then .pending
      else sumLoop findoption layer rest (addU64 numpaths (oe_count_T + oe_count_F))
    | _, _ => sumLoop findoption layer rest numpaths

/-- The dependency layer `p` of `_sumcounts`: `patternlen` for an intermediate
key, `patternlen - 1` in `uint64_t` arithmetic for an extremum key (at
`patternlen = 0` the subtraction wraps to `2 ^ 64 - 1`). -/
def dependencyLayer (key : keypair) (patternlen : Nat) : Nat :=
  if key.2 then (if patternlen = 0 then u64 - 1 else patternlen - 1) else patternlen

/-- The function `_sumcounts`: the returned flag and the updated store.  The
sum is a `uint64_t` and is assigned to the `int64_t` entry. -/
def _sumcounts (key : keypair) (outedges : List Nat) (patternlen : Nat) (findoption : Int)
    (keepcount : memoize) : Bool × memoize :=
  let p := dependencyLayer key patternlen
  match sumLoop findoption (layerAt keepcount p) outedges 0 with
  | .hit => (true, setEntry keepcount patternlen key 1)
  | .pending => (false, keepcount)
  | .total numpaths => (true, setEntry keepcount patternlen key (toInt64 numpaths))

/-- One `for` sweep of `_backFillIntermediate` over the keys of `keepcount[i]`;
the flag is `done`. -/
def intermediateSweep (wallgraph : wallgraphvector) (i : Nat) (findoption : Int) :
    List keypair → memoize → Bool → Outcome (memoize × Bool)
  | [], keepcount, done => .value (keepcount, done)
  | key :: rest, keepcount, done =>
    match mapFind (layerAt keepcount i) key with
    | none => intermediateSweep wallgraph i findoption rest keepcount done
    | some v =>
      if key.2 = true ∨ v > -1 then intermediateSweep wallgraph i findoption rest keepcount done
      else
        match wallgraph[key.1]? with
        | none => .fault .outOfRange
        | some w =>
          let r := _sumcounts key w.outedges i findoption keepcount
          intermediateSweep wallgraph i findoption rest r.2 (done && r.1)

/-- The `while` loop of `_backFillIntermediate`. -/
def backFillIntermediateLoop (wallgraph : wallgraphvector) (i : Nat) (findoption : Int)
    (numiterations : Nat) : Nat → Nat → Bool → memoize → Option (Outcome memoize)
  | 0, _, _, _ => none
  | fuel + 1, count, done, keepcount =>
    if done = false ∨ count < numiterations + 1 then
      match intermediateSweep wallgraph i findoption ((layerAt keepcount i).map Prod.fst)
          keepcount true with
      | .fault f => some (.fault f)
      | .value r => backFillIntermediateLoop wallgraph i findoption numiterations fuel
          (count + 1) r.2 r.1
    else some (.value keepcount)

/-- The function `_backFillIntermediate`. -/
def _backFillIntermediate (wallgraph : wallgraphvector) (fuel : Nat) (i : Nat)
    (findoption : Int) (keepcount : memoize) : Option (Outcome memoize) :=
  backFillIntermediateLoop wallgraph i findoption (layerAt keepcount i).length fuel 0 false
    keepcount

/-- The check of `_backFill` on `keepcount[1]`: no extremal entry other than 0 or 1. -/
def leavesAssigned (layer : pathElementMap) : Bool :=
  layer.all (fun kvp => !(kvp.1.2 && decide (kvp.2 ≠ 0) && decide (kvp.2 ≠ 1)))

/-- The first inner loop of `_backFill` at pattern length `i`: extremal entries. -/
def extremumPass (wallgraph : wallgraphvector) (i : Nat) (findoption : Int) :
    List keypair → memoize → Outcome memoize
  | [], keepcount => .value keepcount
  | key :: rest, keepcount =>
    match wallgraph[key.1]? with
    | none => .fault .outOfRange
    | some w =>
      match mapFind (layerAt keepcount i) key with
      | none => extremumPass wallgraph i findoption rest keepcount
      | some v =>
        if key.2 = true ∧ v = -1 then
          extremumPass wallgraph i findoption rest
            (_sumcounts key w.outedges i findoption keepcount).2
        else extremumPass wallgraph i findoption rest keepcount

/-- The loop `for i = 2 .. N` of `_backFill`; `todo` counts the values of `i` left. -/
def backFillLayers (wallgraph : wallgraphvector) (fuel : Nat) (findoption : Int) :
    Nat → Nat → memoize → Option (Outcome memoize)
  | 0, _, keepcount => some (.value keepcount)
  | todo + 1, i, keepcount =>
    match extremumPass wallgraph i findoption ((layerAt keepcount i).map Prod.fst) keepcount with
    | .fault f => some (.fault f)
    | .value k1 =>
      match _backFillIntermediate wallgraph fuel i findoption k1 with
      | none => none
      | some (.fault f) => some (.fault f)
      | some (.value k2) => backFillLayers wallgraph fuel findoption todo (i + 1) k2

/-- The function `_backFill`. -/
def _backFill (wallgraph : wallgraphvector) (fuel : Nat) (N : Nat) (findoption : Int)
    (keepcount : memoize) : Option (Outcome memoize) :=
  match _backFillIntermediate wallgraph fuel 1 findoption keepcount with
  | none => none
  | some (.fault f) => some (.fault f)
  | some (.value k1) =>
    if leavesAssigned (layerAt k1 1) then backFillLayers wallgraph fuel findoption (N - 1) 2 k1
    else some (.fault .leavesNotAssigned)

/-- State of the loop of `_addToStack`: whether it left through `break`, the
flag `assign`, the accumulator and the stack. -/
structure AddState where
  broke : Bool
  assign : Bool
  numpaths : Nat
  stack : List node
  deriving DecidableEq, Repr

/-- The loop over `outedges` in `_addToStack`, reading `keepcount[newpatternlen]`. -/
def addToStackLoop (findoption : Int) (layer : pathElementMap) (newpatternlen : Nat) :
    List Nat → Bool → Nat → List node → AddState
  | [], assign, numpaths, stack => ⟨false, assign, numpaths, stack⟩
  | nextwall :: rest, assign, numpaths, stack =>
    match mapFind layer (nextwall, true), mapFind layer (nextwall, false) with
    | some pathsT, some pathsF =>
      if findoption < 3 ∧ (pathsT > 0 ∨ pathsF > 0) then ⟨true, assign, numpaths, stack⟩
      else if pathsT = -1 ∨ pathsF = -1 then
        addToStackLoop findoption layer newpatternlen rest false numpaths
          ((nextwall, newpatternlen) :: stack)
      else if assign = true then
        addToStackLoop findoption layer newpatternlen rest assign
          (addU64 numpaths (pathsF + pathsT)) stack
      else addToStackLoop findoption layer newpatternlen rest assign numpaths stack
    | _, _ =>
      addToStackLoop findoption layer newpatternlen rest false numpaths
        ((nextwall, newpatternlen) :: stack)

/-- The function `_addToStack`: the updated store and stack.  In mode 3 the
`uint64_t` sum is assigned to the `int64_t` entry. -/
def _addToStack (wallgraph : wallgraphvector) (is_extremum : Bool) (newpatternlen : Nat)
    (thisnode : node) (findoption : Int) (keepcount : memoize) (nodes_to_visit : List node) :
    Outcome (memoize × List node) :=
  match wallgraph[thisnode.1]? with
  | none => .fault .outOfRange
  | some w =>
    let key : keypair := (thisnode.1, is_extremum)
    let s := addToStackLoop findoption (layerAt keepcount newpatternlen) newpatternlen
      w.outedges true 0 nodes_to_visit
    if s.broke = true then .value (setEntry keepcount thisnode.2 key 1, s.stack)
    else if findoption = 3 ∧ s.assign = true then
      .value (setEntry keepcount thisnode.2 key (toInt64 s.numpaths), s.stack)
    else .value (keepcount, s.stack)

/-- What one turn of the `while` loop of `_patternMatch` does: go on with a new
stack and store, return 1 (after `_backFill` when the flag is set), or fault. -/
inductive StepResult where
  | next (nodes_to_visit : List node) (keepcount : memoize)
  | found (backfill : Bool) (keepcount : memoize)
  | fault (f : Fault)
  deriving DecidableEq, Repr

/-- The early return taken in modes 1 and 2. -/
def foundIn (findoption : Int) (keepcount : memoize) : StepResult :=
  if findoption = 1 then .found false keepcount else .found true keepcount

/-- The last part of a turn: the block `if keyT == -1` (extremum). -/
def extremumPart (wallgraph : wallgraphvector) (findoption : Int) (thisnode : node)
    (nodes_to_visit : List node) (keepcount : memoize) : StepResult :=
  let wall := thisnode.1
  let patternlen := thisnode.2
  let keyT : keypair := (wall, true)
  if mapFind (layerAt keepcount patternlen) keyT = some (-1) then
    if patternlen > 1 then
      match _addToStack wallgraph true (patternlen - 1) thisnode findoption keepcount
          nodes_to_visit with
      | .fault f => .fault f
      | .value r =>
        if findoption < 3 ∧ mapFind (layerAt r.1 patternlen) keyT = some 1 then
          foundIn findoption r.1
        else .next r.2 r.1
    else if findoption = 1 then .found false keepcount
    else if findoption = 2 then .found true (setEntry keepcount patternlen keyT 1)
    else .next nodes_to_visit (setEntry keepcount patternlen keyT 1)
  else .next nodes_to_visit keepcount

/-- The assignments of 0 and of the placeholder -1 made for a node whose labels
match at least one form: the store before the two expansion blocks. -/
def assignPlaceholders (N : Nat) (thisnode : node) (extremum_in_labels intermediate_in_labels : Bool)
    (keepcount : memoize) : memoize :=
  let wall := thisnode.1
  let patternlen := thisnode.2
  let keyT : keypair := (wall, true)
  let keyF : keypair := (wall, false)
  let k1 :=
    if intermediate_in_labels = false then setEntry keepcount patternlen keyF 0
    else if extremum_in_labels = false then setEntry keepcount patternlen keyT 0
    else keepcount
  let k2 :=
    if intermediate_in_labels = true ∧ patternlen = N then setEntry k1 patternlen keyF 0 else k1
  let k3 :=
    if mapFind (layerAt k2 patternlen) keyT = none then setEntry k2 patternlen keyT (-1) else k2
  if mapFind (layerAt k3 patternlen) keyF = none then setEntry k3 patternlen keyF (-1) else k3

/-- The part of a turn after the memo lookup ("now proceed to new computation"). -/
def expandNode (wallgraph : wallgraphvector) (pattern intermediates : patternvector) (N : Nat)
    (findoption : Int) (thisnode : node) (nodes_to_visit : List node) (keepcount : memoize) :
    StepResult :=
  let wall := thisnode.1
  let patternlen := thisnode.2
  let keyT : keypair := (wall, true)
  let keyF : keypair := (wall, false)
  match wallgraph[wall]? with
  | none => .fault .outOfRange
  | some w =>
    match _checkForWordInLabels (pattern.getD (N - patternlen) []) w.labels with
    | .fault f => .fault f
    | .value extremum_in_labels =>
      match _checkForWordInLabels (intermediates.getD (N - patternlen) []) w.labels with
      | .fault f => .fault f
      | .value intermediate_in_labels =>
        if extremum_in_labels = false ∧ intermediate_in_labels = false then
          .next nodes_to_visit (setEntry (setEntry keepcount patternlen keyT 0) patternlen keyF 0)
        else
          let k4 := assignPlaceholders N thisnode extremum_in_labels intermediate_in_labels
            keepcount
          if mapFind (layerAt k4 patternlen) keyF = some (-1) then
            match _addToStack wallgraph false patternlen thisnode findoption k4
                nodes_to_visit with
            | .fault f => .fault f
            | .value r =>
              if findoption < 3 ∧ mapFind (layerAt r.1 patternlen) keyF = some 1 then
                foundIn findoption r.1
              else extremumPart wallgraph findoption thisnode r.2 r.1
          else extremumPart wallgraph findoption thisnode nodes_to_visit k4

/-- One turn of the `while` loop of `_patternMatch` on the popped node. -/
def searchStep (wallgraph : wallgraphvector) (pattern intermediates : patternvector) (N : Nat)
    (findoption : Int) (thisnode : node) (nodes_to_visit : List node) (keepcount : memoize) :
    StepResult :=
  let wall := thisnode.1
  let patternlen := thisnode.2
  let keyT : keypair := (wall, true)
  let keyF : keypair := (wall, false)
  match mapFind (layerAt keepcount patternlen) keyT,
      mapFind (layerAt keepcount patternlen) keyF with
  | some countT, some countF =>
    if countT > 0 ∨ countF > 0 then
      if findoption = 1 then .found false keepcount
      else if findoption = 2 then .found true keepcount
      else expandNode wallgraph pattern intermediates N findoption thisnode nodes_to_visit
        keepcount
    else if countT > -1 ∧ countF > -1 then .next nodes_to_visit keepcount
    else expandNode wallgraph pattern intermediates N findoption thisnode nodes_to_visit
      keepcount
  | _, _ =>
    expandNode wallgraph pattern intermediates N findoption thisnode nodes_to_visit keepcount

/-- The sum of `keepcount[N]` returned in mode 3. -/
def countLayer (layer : pathElementMap) : Nat :=
  layer.foldl (fun count kvp => addU64 count kvp.2) 0

/-- The end of `_patternMatch` after the `while` loop: `_backFill`, then 0 or the count. -/
def finishSearch (wallgraph : wallgraphvector) (bfuel : Nat) (N : Nat) (findoption : Int)
    (keepcount : memoize) : Option (Outcome (Nat × memoize)) :=
  match _backFill wallgraph bfuel N findoption keepcount with
  | none => none
  | some (.fault f) => some (.fault f)
  | some (.value k) =>
    if findoption < 3 then some (.value (0, k))
    else some (.value (countLayer (layerAt k N), k))

/-- The `while` loop of `_patternMatch` and what follows it. -/
def searchLoop (wallgraph : wallgraphvector) (pattern intermediates : patternvector) (N : Nat)
    (findoption : Int) (bfuel : Nat) :
    Nat → List node → memoize → Option (Outcome (Nat × memoize))
  | 0, _, _ => none
  | _ + 1, [], keepcount => finishSearch wallgraph bfuel N findoption keepcount
  | fuel + 1, thisnode :: nodes_to_visit, keepcount =>
    match searchStep wallgraph pattern intermediates N findoption thisnode nodes_to_visit
        keepcount with
    | .fault f => some (.fault f)
    | .found false k => some (.value (1, k))
    | .found true k =>
      (match _backFill wallgraph bfuel N findoption k with
       | none => none
       | some (.fault f) => some (.fault f)
       | some (.value k2) => some (.value (1, k2)))
    | .next stack k => searchLoop wallgraph pattern intermediates N findoption bfuel fuel stack k

/-- The stack after the initial loop pushing `(i, N)` for every wall `i`. -/
def initialStack (wallgraph : wallgraphvector) (N : Nat) : List node :=
  (List.range wallgraph.length).foldl (fun nodes_to_visit i => (i, N) :: nodes_to_visit) []

/-- The function `_patternMatch`: the returned number and the store it leaves. -/
def _patternMatch (wallgraph : wallgraphvector) (fuel : Nat) (pattern : patternvector)
    (findoption : Int) (keepcount : memoize) : Option (Outcome (Nat × memoize)) :=
  searchLoop wallgraph pattern (intermediatesOf pattern) pattern.length findoption fuel fuel
    (initialStack wallgraph pattern.length) keepcount

/-- The `for` loop of `patternMatch` over the batch. -/
def patternMatchLoop (wallgraph : wallgraphvector) (findoption : Int) (fuel : Nat) :
    List patternvector → patternvector → memoize → resultslist → Option (Outcome resultslist)
  | [], _, _, results => some (.value results)
  | pattern :: rest, oldpattern, keepcount, results =>
    if pattern.length < 1 then
      patternMatchLoop wallgraph findoption fuel rest oldpattern keepcount results
    else
      match _patternMatch wallgraph fuel pattern findoption
          (_pruneRegister pattern oldpattern keepcount) with
      | none => none
      | some (.fault f) => some (.fault f)
      | some (.value r) =>
        if findoption = 1 ∧ r.1 > 0 then some (.value (results ++ [(pattern, r.1)]))
        else patternMatchLoop wallgraph findoption fuel rest pattern r.2
          (results ++ [(pattern, r.1)])

/-- The function `patternMatch`. -/
def patternMatch (wallgraph : wallgraphvector) (allpatterns : List patternvector)
    (findoption : Int) (fuel : Nat) : Option (Outcome resultslist) :=
  if findoption ∉ [1, 2, 3] then some (.fault .invalidFindoption)
  else
    match allpatterns with
    | [] => some (.fault .outOfRange)
    | oldpattern :: _ =>
      patternMatchLoop wallgraph findoption fuel allpatterns oldpattern
        (List.replicate (oldpattern.length + 1) []) []

/-! ## Concrete wall graphs used in the examples -/

/-- The two-wall graph of the specification's scenarios: wall 0 carries `a` and
leads to wall 1, wall 1 carries `b` and leads back to wall 0. -/
def twoWallGraph : wallgraphvector :=
  [⟨[1], [['a']]⟩, ⟨[0], [['b']]⟩]

/-- Wall 0 carries `M` and leads to wall 1; wall 1 carries `I` and has a self-loop. -/
def selfLoopGraph : wallgraphvector :=
  [⟨[1], [['M']]⟩, ⟨[1], [['I']]⟩]

/-- A chain `0 → 1 → 2` with labels `a`, `b`, `b`. -/
def chainGraph : wallgraphvector :=
  [⟨[1], [['a']]⟩, ⟨[2], [['b']]⟩, ⟨[], [['b']]⟩]

/-- A chain `0 → 1 → 2` with labels `M`, `I`, `M`. -/
def detourGraph : wallgraphvector :=
  [⟨[1], [['M']]⟩, ⟨[2], [['I']]⟩, ⟨[], [['M']]⟩]

/-- Wall 0 (`M`) leads to wall 1 (`I`), whose out-edges are itself and then
wall 2 (`M`, no out-edge). -/
def loopThenExitGraph : wallgraphvector :=
  [⟨[1], [['M']]⟩, ⟨[1, 2], [['I']]⟩, ⟨[], [['M']]⟩]

/-- The store reached in mode 2 on `loopThenExitGraph` for the pattern `M`, `M`
when `_backFill` is entered: at pattern length 1 the intermediate entry of
wall 1 is pending and the extremal entry of wall 2 is 1. -/
def loopThenExitStore : memoize :=
  [[],
   [((1, false), -1), ((1, true), 0), ((2, false), 0), ((2, true), 1)],
   [((0, false), 0), ((0, true), -1), ((1, false), 0), ((1, true), 0),
    ((2, false), 0), ((2, true), -1)]]

/-! ## Notions used to state the properties -/

/-- Position of a key in the order of the memo map. -/
def keyCode (key : keypair) : Nat :=
  2 * key.1 + (if key.2 then 1 else 0)

/-- A memo map whose keys are strictly increasing. -/
def MapSorted (m : pathElementMap) : Prop :=
  m.Pairwise (fun a b => keyCode a.1 < keyCode b.1)

/-- Out-edges of wall `w` (none for an index outside the graph). -/
def outedgesOf (wallgraph : wallgraphvector) (w : Nat) : List Nat :=
  match wallgraph[w]? with
  | some ws => ws.outedges
  | none => []

/-- Label vector of wall `w` (empty for an index outside the graph). -/
def labelsOf (wallgraph : wallgraphvector) (w : Nat) : labelset :=
  match wallgraph[w]? with
  | some ws => ws.labels
  | none => []

/-- Wall `w` matches the extremum form of the step at remaining length `r`. -/
def extremumMatch (wallgraph : wallgraphvector) (pattern : patternvector) (w r : Nat) : Bool :=
  decide (_checkForWordInLabels (pattern.getD (pattern.length - r) []) (labelsOf wallgraph w)
    = .value true)

/-- Wall `w` matches the intermediate form of the step at remaining length `r`. -/
def intermediateMatch (wallgraph : wallgraphvector) (pattern : patternvector) (w r : Nat) :
    Bool :=
  decide (_checkForWordInLabels ((intermediatesOf pattern).getD (pattern.length - r) [])
    (labelsOf wallgraph w) = .value true)

/-- Well-formed input: out-edge targets are wall indices, label vectors and
words all have length `L`. -/
def WellFormed (wallgraph : wallgraphvector) (pattern : patternvector) (L : Nat) : Prop :=
  (∀ w, w < wallgraph.length →
    (∀ x ∈ outedgesOf wallgraph w, x < wallgraph.length) ∧
      (labelsOf wallgraph w).length = L) ∧
    ∀ word ∈ pattern, word.length = L

/-- Acyclic wall graph: `rank` decreases strictly along every out-edge. -/
def Acyclic (wallgraph : wallgraphvector) (rank : Nat → Nat) : Prop :=
  ∀ w, w < wallgraph.length → ∀ x ∈ outedgesOf wallgraph w, rank x < rank w

/-- The recurrences of the walk count: `E w r` counts the completions of a walk
standing on wall `w` as the extremum of the step at remaining length `r`,
`I w r` those of a walk standing on `w` as an intermediate wall of that step. -/
def WalkCounts (wallgraph : wallgraphvector) (pattern : patternvector)
    (E I : Nat → Nat → Nat) : Prop :=
  ∀ w, w < wallgraph.length →
    (E w 1 = if extremumMatch wallgraph pattern w 1 = true then 1 else 0) ∧
      ∀ r, r < pattern.length → 1 ≤ r →
        (E w (r + 1) = if extremumMatch wallgraph pattern w (r + 1) = true then
            ((outedgesOf wallgraph w).map (fun x => E x r + I x r)).sum else 0) ∧
          (I w r = if intermediateMatch wallgraph pattern w r = true then
            ((outedgesOf wallgraph w).map (fun x => E x r + I x r)).sum else 0)

/-- The number of matching walks: the sum of `E w N` over all walls. -/
def walkTotal (wallgraph : wallgraphvector) (pattern : patternvector)
    (E : Nat → Nat → Nat) : Nat :=
  ((List.range wallgraph.length).map (fun w => E w pattern.length)).sum

/-- Both entries of wall `w` exist in `keepcount[r]`. -/
def presentAt (keepcount : memoize) (r w : Nat) : Prop :=
  mapFind (layerAt keepcount r) (w, true) ≠ none ∧
    mapFind (layerAt keepcount r) (w, false) ≠ none

/-- The count an entry stands for once settled: `E` for an extremal entry, `I`
for an intermediate entry below the top layer, 0 for an intermediate entry at
the top layer. -/
def targetValue (E I : Nat → Nat → Nat) (N w r : Nat) (flag : Bool) : Nat :=
  if flag = true then E w r else if r = N then 0 else I w r

/-- The `int64_t` value under which the count of an entry is stored. -/
def storedValue (E I : Nat → Nat → Nat) (N w r : Nat) (flag : Bool) : Int :=
  toInt64 (targetValue E I N w r flag)

/-- No count below the top layer is `2 ^ 64 - 1` modulo `2 ^ 64`: no count is
stored as the placeholder `-1` where a later sum reads it. -/
def SentinelFree (wallgraph : wallgraphvector) (pattern : patternvector)
    (E I : Nat → Nat → Nat) : Prop :=
  ∀ w, w < wallgraph.length → ∀ r, 1 ≤ r → r < pattern.length →
    E w r % u64 ≠ u64 - 1 ∧ I w r % u64 ≠ u64 - 1

/-- The value `_addToStack` and `_sumcounts` give to an entry in mode 3 when the
pairs of all its out-neighbours are stored at the dependency layer, `t x` and
`f x` being the extremum and the intermediate entry of neighbour `x`: the entry
stays at `-1` when an entry of some neighbour is `-1`, else it becomes the sum
modulo `2 ^ 64`, converted to `int64_t`. -/
def combine (t f : Nat → Int) (outs : List Nat) : Int :=
  if outs.any (fun x => decide (t x = -1) || decide (f x = -1)) = true then -1
  else toInt64 (((outs.map (fun x => t x + f x)).sum % (u64 : Int)).toNat)

/-- The values `V w r flag` that the entries of a mode-3 search settle to: 0
where the labels do not match the form of the key and for the intermediate
entries of the top layer, 1 for a matching extremum entry at remaining
length 1, and the combination of the out-neighbours' values at the dependency
layer otherwise (for a wall whose out-edges all lead to walls of the graph). -/
def Settles (wallgraph : wallgraphvector) (pattern : patternvector)
    (V : Nat → Nat → Bool → Int) : Prop :=
  ∀ w, w < wallgraph.length →
    (V w 1 true = if extremumMatch wallgraph pattern w 1 = true then 1 else 0) ∧
      V w pattern.length false = 0 ∧
      ∀ r, 1 ≤ r → r < pattern.length →
        (extremumMatch wallgraph pattern w (r + 1) = false → V w (r + 1) true = 0) ∧
          (intermediateMatch wallgraph pattern w r = false → V w r false = 0) ∧
          ((∀ x ∈ outedgesOf wallgraph w, x < wallgraph.length) →
            (extremumMatch wallgraph pattern w (r + 1) = true →
              V w (r + 1) true
                = combine (fun x => V x r true) (fun x => V x r false)
                    (outedgesOf wallgraph w)) ∧
              (intermediateMatch wallgraph pattern w r = true →
                V w r false
                  = combine (fun x => V x r true) (fun x => V x r false)
                      (outedgesOf wallgraph w)))

/-- The sum over all walls of the values of the extremum entries of the top layer. -/
def valueTotal (wallgraph : wallgraphvector) (pattern : patternvector)
    (V : Nat → Nat → Bool → Int) : Int :=
  ((List.range wallgraph.length).map (fun w => V w pattern.length true)).sum

/-- An entry is either settled to its value or pending on a wall whose labels
match. -/
def EntryOk (wallgraph : wallgraphvector) (pattern : patternvector)
    (V : Nat → Nat → Bool → Int) (w r : Nat) (flag : Bool) (v : Int) : Prop :=
  v = V w r flag ∨
    (v = -1 ∧
      (if flag = true then extremumMatch wallgraph pattern w r = true
       else (intermediateMatch wallgraph pattern w r = true ∧ r < pattern.length)))

/-- Invariant of the store during a mode-3 search. -/
structure StoreOk (wallgraph : wallgraphvector) (pattern : patternvector)
    (V : Nat → Nat → Bool → Int) (keepcount : memoize) : Prop where
  len : keepcount.length = pattern.length + 1
  sorted : ∀ r, MapSorted (layerAt keepcount r)
  entries : ∀ r w flag v, mapFind (layerAt keepcount r) (w, flag) = some v →
    (1 ≤ r ∧ r ≤ pattern.length ∧ w < wallgraph.length) ∧
      EntryOk wallgraph pattern V w r flag v

/-- Invariant of stack and store between two turns of the mode-3 search. -/
structure SearchInv (wallgraph : wallgraphvector) (pattern : patternvector)
    (V : Nat → Nat → Bool → Int) (nodes_to_visit : List node) (keepcount : memoize) :
    Prop where
  store : StoreOk wallgraph pattern V keepcount
  stack : ∀ n ∈ nodes_to_visit, 1 ≤ n.2 ∧ n.2 ≤ pattern.length
  leaves : ∀ w, mapFind (layerAt keepcount 1) (w, true) ≠ some (-1)
  closureF : ∀ r w v, mapFind (layerAt keepcount r) (w, false) = some v → v ≤ -1 →
    ∀ x ∈ outedgesOf wallgraph w, presentAt keepcount r x ∨ (x, r) ∈ nodes_to_visit
  closureT : ∀ r w, mapFind (layerAt keepcount r) (w, true) = some (-1) →
    ∀ x ∈ outedgesOf wallgraph w, presentAt keepcount (r - 1) x ∨ (x, r - 1) ∈ nodes_to_visit
  cover : ∀ w, w < wallgraph.length →
    presentAt keepcount pattern.length w ∨ (w, pattern.length) ∈ nodes_to_visit

/-- Both entries of wall `x` exist in the map and neither is pending. -/
def resolvedAt (layer : pathElementMap) (x : Nat) : Prop :=
  ∃ t f, mapFind layer (x, true) = some t ∧ mapFind layer (x, false) = some f ∧
    t ≠ -1 ∧ f ≠ -1

/-- The sum over a list of walls of their two entries in the map. -/
def pairSum (layer : pathElementMap) (outs : List Nat) : Int :=
  (outs.map (fun x =>
    (mapFind layer (x, true)).getD 0 + (mapFind layer (x, false)).getD 0)).sum

/-- Walk counts on `detourGraph` for the pattern `M`, `M`: extremal completions. -/
def detourE (w r : Nat) : Nat :=
  if (w = 0 ∧ r = 1) ∨ (w = 2 ∧ r = 1) ∨ (w = 0 ∧ r = 2) then 1 else 0

/-- Walk counts on `detourGraph` for the pattern `M`, `M`: intermediate completions. -/
def detourI (w r : Nat) : Nat :=
  if w = 1 ∧ r = 1 then 1 else 0

/-- The letters of the 17 walls of `wideChain` (neither `m` nor `M`). -/
def wideChainLetters : List Char :=
  ['a', 'b', 'c', 'd', 'e', 'f', 'g', 'h', 'i', 'j', 'k', 'l', 'n', 'o', 'p', 'q', 'r']

/-- A chain of 17 walls; wall `w` carries `M` at coordinate 0 and its own letter
at coordinate 1; each of the walls 0 .. 15 has 16 parallel out-edges to the
next wall. -/
def wideChain : wallgraphvector :=
  (List.range 17).map
    (fun w => ⟨if w < 16 then List.replicate 16 (w + 1) else [],
      [['M'], [wideChainLetters.getD w 'z']]⟩)

/-- The pattern of 17 steps whose step `i` is `M` followed by the letter of wall `i`. -/
def wideChainPattern : patternvector :=
  wideChainLetters.map (fun c => ['M', c])

/-- Walk counts on `wideChain`: from wall `w` with `r` steps left there are
`16 ^ (r - 1)` completions when `w` is the wall of that step, none otherwise. -/
def wideChainE (w r : Nat) : Nat :=
  if w + r = 17 then 16 ^ (r - 1) else 0

/-- No wall of `wideChain` matches an intermediate form. -/
def wideChainI (_w _r : Nat) : Nat := 0

/-- A store whose maps are sorted and whose every entry satisfies `ok`. -/
structure GenStore (ok : Nat → Nat → Bool → Int → Prop) (keepcount : memoize) : Prop where
  sorted : ∀ r, MapSorted (layerAt keepcount r)
  entries : ∀ r w flag v, mapFind (layerAt keepcount r) (w, flag) = some v → ok w r flag v

/-- The sum that `_sumcounts` is specified to store: over the out-edge list, with
multiplicity, the extremum entry plus the intermediate entry of each neighbour
whose pair is stored in the map, a neighbour without a stored pair counting 0. -/
def neighbourSum (layer : pathElementMap) (outedges : List Nat) : Int :=
  (outedges.map (fun oe =>
    match mapFind layer (oe, true), mapFind layer (oe, false) with
    | some t, some f => t + f
    | _, _ => 0)).sum

/-- Some out-neighbour whose pair is stored in the map has a pending entry. -/
def neighbourPending (layer : pathElementMap) (outedges : List Nat) : Prop :=
  ∃ oe ∈ outedges, ∃ t f, mapFind layer (oe, true) = some t ∧
    mapFind layer (oe, false) = some f ∧ (t = -1 ∨ f = -1)

/-- A store of three slots whose slot 1 holds the pair of wall 1: intermediate
entry 0, extremum entry `2 ^ 62`. -/
def quarterStore : memoize :=
  [[], [((1, false), 0), ((1, true), 2 ^ 62)], []]

/-- The last `t` steps of a pattern. -/
def lastSteps (pattern : patternvector) (t : Nat) : patternvector :=
  pattern.drop (pattern.length - t)

/-- The per-coordinate substitution of the pattern normalizer as the
specification words it: `M` becomes `I`, `m` becomes `D`, any other symbol stays. -/
def normalizeSymbol (c : Char) : Char :=
  if c = 'M' then 'I' else if c = 'm' then 'D' else c

/-! ## Notions used by the invariants of a per-pattern search -/

/-- The value an entry of the popped node holds after the assignments of 0 and
of the placeholder: 0 when the labels do not match the form (or, for the
intermediate entry, at the top layer), else the stored value, else -1. -/
def assignedValue (label top : Bool) (old : Option Int) : Int :=
  if label = false ∨ top = true then 0 else old.getD (-1)

/-- What a turn that expands the node `(w, r)` does to the store: the length
and the order of the maps are kept, only the two entries of `w` at layer `r`
are written, and each of them ends at its assigned value or, when that value
is the placeholder, possibly at a count. -/
structure TurnEffect (N w r : Nat) (ext int : Bool) (K K2 : memoize) : Prop where
  len : K2.length = K.length
  sorted : (∀ r2, MapSorted (layerAt K r2)) → ∀ r2, MapSorted (layerAt K2 r2)
  frame : ∀ r2 key, (r2 ≠ r ∨ key.1 ≠ w) →
    mapFind (layerAt K2 r2) key = mapFind (layerAt K r2) key
  extremum : ∃ tv, mapFind (layerAt K2 r) (w, true) = some tv ∧
    (tv = assignedValue ext false (mapFind (layerAt K r) (w, true)) ∨
      assignedValue ext false (mapFind (layerAt K r) (w, true)) = -1)
  intermediate : ∃ fv, mapFind (layerAt K2 r) (w, false) = some fv ∧
    (fv = assignedValue int (decide (r = N)) (mapFind (layerAt K r) (w, false)) ∨
      assignedValue int (decide (r = N)) (mapFind (layerAt K r) (w, false)) = -1)

/-- The configurations `(nodes_to_visit, keepcount)` that the `while` loop of
`_patternMatch` passes through from the configuration `(S0, K0)`: the start,
and the configuration left by a turn on the top node of a configuration
already reached. -/
inductive Visits (wallgraph : wallgraphvector) (pattern : patternvector) (findoption : Int)
    (S0 : List node) (K0 : memoize) : List node → memoize → Prop
  | start : Visits wallgraph pattern findoption S0 K0 S0 K0
  | turn (thisnode : node) (S : List node) (K : memoize) (S2 : List node) (K2 : memoize) :
      Visits wallgraph pattern findoption S0 K0 (thisnode :: S) K →
      searchStep wallgraph pattern (intermediatesOf pattern) pattern.length findoption
        thisnode S K = .next S2 K2 →
      Visits wallgraph pattern findoption S0 K0 S2 K2

/-- The sum over all walls of the graph of the extremum entries stored at
remaining length `N` (an absent entry counting 0). -/
def extremumTotal (keepcount : memoize) (N W : Nat) : Int :=
  ((List.range W).map (fun w => (mapFind (layerAt keepcount N) (w, true)).getD 0)).sum

/-- The store left by the mode-3 search for the pattern `M`, `M` on
`detourGraph` from the empty store. -/
def detourFinal : memoize :=
  [[],
   [((1, false), 1), ((1, true), 0), ((2, false), 0), ((2, true), 1)],
   [((0, false), 0), ((0, true), 1), ((1, false), 0), ((1, true), 0), ((2, false), 0),
    ((2, true), 0)]]

/-- A graph of 20 walls for the pattern `wideChainPattern`: the walls 0 .. 3
carry the letter of step 0 and have 4 parallel out-edges to wall 4; the walls
4 .. 18 carry the letters of the steps 1 .. 15 and have 16 parallel out-edges
to the next wall; wall 19 carries the letter of the last step. -/
def fanChain : wallgraphvector :=
  (List.range 20).map
    (fun w => ⟨if w < 4 then List.replicate 4 4
        else if w < 19 then List.replicate 16 (w + 1) else [],
      [['M'], [wideChainLetters.getD (w - 3) 'z']]⟩)

/-- Walk counts on `fanChain`: `2 ^ 62` completions from each of the four
start walls, `16 ^ (r - 1)` from the chain wall of the step with `r` steps left. -/
def fanE (w r : Nat) : Nat :=
  if w < 4 then (if r = 17 then 4 * 16 ^ 15 else 0)
  else if w + r = 20 then 16 ^ (r - 1) else 0

/-- A tidy store for a pattern of length `N`: it has `N + 1` slots, the two
entries of a wall are stored together, and an entry other than 0 sits on a
wall whose labels match the form of its key (the extremum form for an
extremum entry, the intermediate form for an intermediate entry). -/
structure Tidy (wallgraph : wallgraphvector) (pattern : patternvector)
    (keepcount : memoize) : Prop where
  len : keepcount.length = pattern.length + 1
  paired : ∀ r w, mapFind (layerAt keepcount r) (w, true) ≠ none ↔
    mapFind (layerAt keepcount r) (w, false) ≠ none
  extremum : ∀ r w v, mapFind (layerAt keepcount r) (w, true) = some v → v ≠ 0 →
    extremumMatch wallgraph pattern w r = true
  intermediate : ∀ r w v, mapFind (layerAt keepcount r) (w, false) = some v → v ≠ 0 →
    intermediateMatch wallgraph pattern w r = true

/-- The write-once relation between an earlier store `K` and a later store
`K2` of a search: an entry of `K` holding 0 or a positive count holds the same
value in `K2`, except that in mode 3 a positive intermediate entry at layer
`N` may have been reset to 0. -/
def Kept (findoption : Int) (N : Nat) (K K2 : memoize) : Prop :=
  ∀ r key v, mapFind (layerAt K r) key = some v → 0 ≤ v →
    mapFind (layerAt K2 r) key = some v ∨
      (findoption = 3 ∧ r = N ∧ key.2 = false ∧ 0 < v ∧
        mapFind (layerAt K2 r) key = some 0)

/-- The store with which the search for the pattern `M` starts after the
pattern `M`, `M` on `detourGraph`: slot 1 of `detourFinal` is carried over. -/
def detourCarried : memoize :=
  _pruneRegister [['M']] [['M'], ['M']] detourFinal

/-- The store `detourCarried` after the turns on the walls 2 and 1. -/
def detourReset : memoize :=
  [[], [((1, false), 0), ((1, true), 0), ((2, false), 0), ((2, true), 1)]]

/-! ## Notions used to compare a search on a carried-over store with a search
on a fresh one -/

/-- The completions of a walk standing on wall `w` as an intermediate wall of
the step at remaining length `r`, computed along out-edges to depth `d`;
`prev x` is the number of completions from `x` as the extremum of that step. -/
def walkInter (wallgraph : wallgraphvector) (pattern : patternvector) (r : Nat)
    (prev : Nat → Nat) : Nat → Nat → Nat
  | 0, _ => 0
  | d + 1, w =>
    if intermediateMatch wallgraph pattern w r = true then
      ((outedgesOf wallgraph w).map (fun x => prev x + walkInter wallgraph pattern r prev d x)).sum
    else 0

/-- The completions of a walk standing on wall `w` as the extremum of the step
at remaining length `r`, layer by layer (`walkLayer d r w`), with intermediate
stretches followed to depth `d`. -/
def walkLayer (wallgraph : wallgraphvector) (pattern : patternvector) (d : Nat) :
    Nat → Nat → Nat
  | 0 => fun _ => 0
  | r + 1 => fun w =>
    if r = 0 then (if extremumMatch wallgraph pattern w 1 = true then 1 else 0)
    else if extremumMatch wallgraph pattern w (r + 1) = true then
      ((outedgesOf wallgraph w).map (fun x =>
        walkLayer wallgraph pattern d r x
          + walkInter wallgraph pattern r (walkLayer wallgraph pattern d r) d x)).sum
    else 0

/-- A graph of 18 walls: wall 0 carries `M` and has `k` parallel out-edges to
wall 1; each of the walls 1 .. 15 carries `I` and has 16 out-edges to the next
wall and 15 out-edges to wall 17; wall 16 carries `I` and has 15 out-edges to
wall 17; wall 17 carries `M` and has no out-edge. From wall `w` in 1 .. 16
there are `16 ^ (17 - w) - 1` ways to reach wall 17 through intermediate
walls, so `2 ^ 64 - 1` from wall 1. -/
def sentinelGraph (k : Nat) : wallgraphvector :=
  (List.range 18).map (fun w =>
    if w = 0 then ⟨List.replicate k 1, [['M']]⟩
    else if w < 16 then ⟨List.replicate 16 (w + 1) ++ List.replicate 15 17, [['I']]⟩
    else if w = 16 then ⟨List.replicate 15 17, [['I']]⟩
    else ⟨[], [['M']]⟩)

/-- Walk counts on `sentinelGraph k` for the pattern `M`, `M`: extremum completions. -/
def sentinelE (k : Nat) (w r : Nat) : Nat :=
  if (w = 0 ∨ w = 17) ∧ r = 1 then 1 else if w = 0 ∧ r = 2 then k * (16 ^ 16 - 1) else 0

/-- Walk counts on `sentinelGraph k` for the pattern `M`, `M`: intermediate
completions. -/
def sentinelI (w r : Nat) : Nat :=
  if 1 ≤ w ∧ w ≤ 16 ∧ r = 1 then 16 ^ (17 - w) - 1 else 0

/-- What a run of `_patternMatch` returned: the count, the intermediate entry
of wall 1 at remaining length 1 and the extremum entry of wall 0 at remaining
length 2 of the store it left. -/
def sentinelProbe (o : Option (Outcome (Nat × memoize))) :
    Option (Nat × Option Int × Option Int) :=
  match o with
  | some (.value r) =>
    some (r.1, mapFind (layerAt r.2 1) (1, false), mapFind (layerAt r.2 2) (0, true))
  | _ => none

theorem checkForWordInLabels_fault {word : List Char} {labels : labelset} {f : Fault}
    (h : _checkForWordInLabels word labels = .fault f) : f = .outOfRange := by
  induction labels generalizing word with
  | nil => simp [_checkForWordInLabels] at h
  | cons l ls ih =>
    cases word with
    | nil =>
      unfold _checkForWordInLabels at h
      split at h
      · split at h
        · simp at h
        · simpa using h.symm
      · simp at h
    | cons c w =>
      unfold _checkForWordInLabels at h
      split at h
      · exact ih h
      · simp at h

theorem intermediateSweep_fault {wallgraph : wallgraphvector} {i : Nat} {findoption : Int}
    {keys : List keypair} {keepcount : memoize} {done : Bool} {f : Fault}
    (h : intermediateSweep wallgraph i findoption keys keepcount done = .fault f) :
    f = .outOfRange := by
  induction keys generalizing keepcount done with
  | nil => simp [intermediateSweep] at h
  | cons key rest ih =>
    unfold intermediateSweep at h
    split at h
    · exact ih h
    · split at h
      · exact ih h
      · split at h
        · simpa using h.symm
        · exact ih h

theorem backFillIntermediateLoop_fault {wallgraph : wallgraphvector} {i : Nat} {findoption : Int}
    {numiterations fuel count : Nat} {done : Bool} {keepcount : memoize} {f : Fault}
    (h : backFillIntermediateLoop wallgraph i findoption numiterations fuel count done keepcount
      = some (.fault f)) : f = .outOfRange := by
  induction fuel generalizing count done keepcount with
  | zero => simp [backFillIntermediateLoop] at h
  | succ fuel ih =>
    unfold backFillIntermediateLoop at h
    split at h
    · split at h
      · next hs =>
        simp at h
        subst h
        exact intermediateSweep_fault hs
      · exact ih h
    · simp at h

theorem extremumPass_fault {wallgraph : wallgraphvector} {i : Nat} {findoption : Int}
    {keys : List keypair} {keepcount : memoize} {f : Fault}
    (h : extremumPass wallgraph i findoption keys keepcount = .fault f) : f = .outOfRange := by
  induction keys generalizing keepcount with
  | nil => simp [extremumPass] at h
  | cons key rest ih =>
    unfold extremumPass at h
    split at h
    · simpa using h.symm
    · split at h
      · exact ih h
      · split at h
        · exact ih h
        · exact ih h

theorem backFillLayers_fault {wallgraph : wallgraphvector} {fuel : Nat} {findoption : Int}
    {todo i : Nat} {keepcount : memoize} {f : Fault}
    (h : backFillLayers wallgraph fuel findoption todo i keepcount = some (.fault f)) :
    f = .outOfRange := by
  induction todo generalizing i keepcount with
  | zero => simp [backFillLayers] at h
  | succ todo ih =>
    unfold backFillLayers at h
    split at h
    · next hs =>
      simp at h
      subst h
      exact extremumPass_fault hs
    · split at h
      · simp at h
      · next hs =>
        simp at h
        subst h
        exact backFillIntermediateLoop_fault hs
      · exact ih h

theorem backFill_fault {wallgraph : wallgraphvector} {fuel N : Nat} {findoption : Int}
    {keepcount : memoize} {f : Fault}
    (h : _backFill wallgraph fuel N findoption keepcount = some (.fault f)) :
    f = .outOfRange ∨ f = .leavesNotAssigned := by
  unfold _backFill at h
  split at h
  · simp at h
  · next hs =>
    simp at h
    subst h
    exact Or.inl (backFillIntermediateLoop_fault hs)
  · split at h
    · exact Or.inl (backFillLayers_fault h)
    · simp at h
      exact Or.inr h.symm

theorem addToStack_fault {wallgraph : wallgraphvector} {is_extremum : Bool} {newpatternlen : Nat}
    {thisnode : node} {findoption : Int} {keepcount : memoize} {nodes_to_visit : List node}
    {f : Fault}
    (h : _addToStack wallgraph is_extremum newpatternlen thisnode findoption keepcount
      nodes_to_visit = .fault f) : f = .outOfRange := by
  unfold _addToStack at h
  split at h
  · simpa using h.symm
  · simp only at h
    split at h
    · simp at h
    · split at h <;> simp at h

theorem foundIn_ne_fault {findoption : Int} {keepcount : memoize} {f : Fault} :
    foundIn findoption keepcount ≠ .fault f := by
  unfold foundIn
  split <;> simp

theorem extremumPart_fault {wallgraph : wallgraphvector} {findoption : Int} {thisnode : node}
    {nodes_to_visit : List node} {keepcount : memoize} {f : Fault}
    (h : extremumPart wallgraph findoption thisnode nodes_to_visit keepcount = .fault f) :
    f = .outOfRange := by
  unfold extremumPart at h
  simp only at h
  split at h
  · split at h
    · split at h
      · next hs =>
        simp at h
        subst h
        exact addToStack_fault hs
      · split at h
        · exact absurd h foundIn_ne_fault
        · simp at h
    · split at h
      · simp at h
      · split at h <;> simp at h
  · simp at h

theorem expandNode_fault {wallgraph : wallgraphvector} {pattern intermediates : patternvector}
    {N : Nat} {findoption : Int} {thisnode : node} {nodes_to_visit : List node}
    {keepcount : memoize} {f : Fault}
    (h : expandNode wallgraph pattern intermediates N findoption thisnode nodes_to_visit keepcount
      = .fault f) : f = .outOfRange := by
  unfold expandNode at h
  simp only at h
  split at h
  · simpa using h.symm
  · split at h
    · next hs =>
      simp at h
      subst h
      exact checkForWordInLabels_fault hs
    · split at h
      · next hs =>
        simp at h
        subst h
        exact checkForWordInLabels_fault hs
      · split at h
        · simp at h
        · split at h
          · split at h
            · next hs =>
              simp at h
              subst h
              exact addToStack_fault hs
            · split at h
              · exact absurd h foundIn_ne_fault
              · exact extremumPart_fault h
          · exact extremumPart_fault h

theorem searchStep_fault {wallgraph : wallgraphvector} {pattern intermediates : patternvector}
    {N : Nat} {findoption : Int} {thisnode : node} {nodes_to_visit : List node}
    {keepcount : memoize} {f : Fault}
    (h : searchStep wallgraph pattern intermediates N findoption thisnode nodes_to_visit keepcount
      = .fault f) : f = .outOfRange := by
  unfold searchStep at h
  simp only at h
  split at h
  · split at h
    · split at h
      · simp at h
      · split at h
        · simp at h
        · exact expandNode_fault h
    · split at h
      · simp at h
      · exact expandNode_fault h
  · exact expandNode_fault h

theorem finishSearch_fault {wallgraph : wallgraphvector} {bfuel N : Nat} {findoption : Int}
    {keepcount : memoize} {f : Fault}
    (h : finishSearch wallgraph bfuel N findoption keepcount = some (.fault f)) :
    f = .outOfRange ∨ f = .leavesNotAssigned := by
  unfold finishSearch at h
  split at h
  · simp at h
  · next hs =>
    simp at h
    subst h
    exact backFill_fault hs
  · split at h <;> simp at h

theorem searchLoop_fault {wallgraph : wallgraphvector} {pattern intermediates : patternvector}
    {N : Nat} {findoption : Int} {bfuel fuel : Nat} {nodes_to_visit : List node}
    {keepcount : memoize} {f : Fault}
    (h : searchLoop wallgraph pattern intermediates N findoption bfuel fuel nodes_to_visit
      keepcount = some (.fault f)) : f = .outOfRange ∨ f = .leavesNotAssigned := by
  induction fuel generalizing nodes_to_visit keepcount with
  | zero => simp [searchLoop] at h
  | succ fuel ih =>
    cases nodes_to_visit with
    | nil =>
      simp only [searchLoop] at h
      exact finishSearch_fault h
    | cons thisnode rest =>
      simp only [searchLoop] at h
      split at h
      · next hs =>
        simp at h
        subst h
        exact Or.inl (searchStep_fault hs)
      · simp at h
      · split at h
        · simp at h
        · next hs =>
          simp at h
          subst h
          exact backFill_fault hs
        · simp at h
      · exact ih h

theorem patternMatchLoop_fault {wallgraph : wallgraphvector} {findoption : Int} {fuel : Nat}
    {patterns : List patternvector} {oldpattern : patternvector} {keepcount : memoize}
    {results : resultslist} {f : Fault}
    (h : patternMatchLoop wallgraph findoption fuel patterns oldpattern keepcount results
      = some (.fault f)) : f = .outOfRange ∨ f = .leavesNotAssigned := by
  induction patterns generalizing oldpattern keepcount results with
  | nil => simp [patternMatchLoop] at h
  | cons pattern rest ih =>
    unfold patternMatchLoop at h
    split at h
    · exact ih h
    · split at h
      · simp at h
      · next hs =>
        simp at h
        subst h
        exact searchLoop_fault hs
      · split at h
        · simp at h
        · exact ih h

/-! ## More fuel never changes a result -/

theorem backFillIntermediateLoop_succ {wallgraph : wallgraphvector} {i : Nat} {findoption : Int}
    {numiterations fuel count : Nat} {done : Bool} {keepcount : memoize}
    {r : Outcome memoize}
    (h : backFillIntermediateLoop wallgraph i findoption numiterations fuel count done keepcount
      = some r) :
    backFillIntermediateLoop wallgraph i findoption numiterations (fuel + 1) count done keepcount
      = some r := by
  induction fuel generalizing count done keepcount with
  | zero => simp [backFillIntermediateLoop] at h
  | succ fuel ih =>
    unfold backFillIntermediateLoop at h ⊢
    split at h
    · next hc =>
      rw [if_pos hc]
      split at h
      · next hs => exact h
      · next hs => exact ih h
    · next hc => rw [if_neg hc]; exact h

theorem backFillIntermediateLoop_mono {wallgraph : wallgraphvector} {i : Nat} {findoption : Int}
    {numiterations fuel fuel2 count : Nat} {done : Bool} {keepcount : memoize}
    {r : Outcome memoize} (hle : fuel ≤ fuel2)
    (h : backFillIntermediateLoop wallgraph i findoption numiterations fuel count done keepcount
      = some r) :
    backFillIntermediateLoop wallgraph i findoption numiterations fuel2 count done keepcount
      = some r := by
  induction hle with
  | refl => exact h
  | step _ ih => exact backFillIntermediateLoop_succ ih

theorem backFillIntermediate_mono {wallgraph : wallgraphvector} {fuel fuel2 i : Nat}
    {findoption : Int} {keepcount : memoize} {r : Outcome memoize} (hle : fuel ≤ fuel2)
    (h : _backFillIntermediate wallgraph fuel i findoption keepcount = some r) :
    _backFillIntermediate wallgraph fuel2 i findoption keepcount = some r :=
  backFillIntermediateLoop_mono hle h

theorem backFillLayers_mono {wallgraph : wallgraphvector} {fuel fuel2 : Nat} {findoption : Int}
    {todo i : Nat} {keepcount : memoize} {r : Outcome memoize} (hle : fuel ≤ fuel2)
    (h : backFillLayers wallgraph fuel findoption todo i keepcount = some r) :
    backFillLayers wallgraph fuel2 findoption todo i keepcount = some r := by
  induction todo generalizing i keepcount with
  | zero => simpa [backFillLayers] using h
  | succ todo ih =>
    unfold backFillLayers at h ⊢
    split at h
    · next hs => exact h
    · next hs =>
      try rw [hs]
      try simp only at h ⊢
      split at h
      · simp at h
      · next hb => rw [backFillIntermediate_mono hle hb]; exact h
      · next hb => rw [backFillIntermediate_mono hle hb]; exact ih h

theorem backFill_mono {wallgraph : wallgraphvector} {fuel fuel2 N : Nat} {findoption : Int}
    {keepcount : memoize} {r : Outcome memoize} (hle : fuel ≤ fuel2)
    (h : _backFill wallgraph fuel N findoption keepcount = some r) :
    _backFill wallgraph fuel2 N findoption keepcount = some r := by
  unfold _backFill at h ⊢
  split at h
  · simp at h
  · next hb => rw [backFillIntermediate_mono hle hb]; exact h
  · next hb =>
    rw [backFillIntermediate_mono hle hb]
    try simp only at h ⊢
    split at h
    · next hl => rw [if_pos hl]; exact backFillLayers_mono hle h
    · next hl => rw [if_neg hl]; exact h

theorem finishSearch_mono {wallgraph : wallgraphvector} {bfuel bfuel2 N : Nat} {findoption : Int}
    {keepcount : memoize} {r : Outcome (Nat × memoize)} (hle : bfuel ≤ bfuel2)
    (h : finishSearch wallgraph bfuel N findoption keepcount = some r) :
    finishSearch wallgraph bfuel2 N findoption keepcount = some r := by
  unfold finishSearch at h ⊢
  split at h
  · simp at h
  · next hb => rw [backFill_mono hle hb]; exact h
  · next hb => rw [backFill_mono hle hb]; exact h

theorem searchLoop_mono {wallgraph : wallgraphvector} {pattern intermediates : patternvector}
    {N : Nat} {findoption : Int} {bfuel bfuel2 fuel fuel2 : Nat} {nodes_to_visit : List node}
    {keepcount : memoize} {r : Outcome (Nat × memoize)} (hb : bfuel ≤ bfuel2)
    (hle : fuel ≤ fuel2)
    (h : searchLoop wallgraph pattern intermediates N findoption bfuel fuel nodes_to_visit
      keepcount = some r) :
    searchLoop wallgraph pattern intermediates N findoption bfuel2 fuel2 nodes_to_visit
      keepcount = some r := by
  induction fuel generalizing fuel2 nodes_to_visit keepcount with
  | zero => simp [searchLoop] at h
  | succ fuel ih =>
    obtain ⟨fuel3, rfl⟩ : ∃ fuel3, fuel2 = fuel3 + 1 := ⟨fuel2 - 1, by omega⟩
    have hle3 : fuel ≤ fuel3 := by omega
    cases nodes_to_visit with
    | nil =>
      simp only [searchLoop] at h ⊢
      exact finishSearch_mono hb h
    | cons thisnode rest =>
      simp only [searchLoop] at h ⊢
      split at h
      · next hs => exact h
      · next hs => exact h
      · next hs =>
        try rw [hs]
        try simp only at h ⊢
        split at h
        · simp at h
        · next hbf => rw [backFill_mono hb hbf]; exact h
        · next hbf => rw [backFill_mono hb hbf]; exact h
      · next hs => exact ih hle3 h

theorem patternMatch_inner_mono {wallgraph : wallgraphvector} {fuel fuel2 : Nat}
    {pattern : patternvector} {findoption : Int} {keepcount : memoize}
    {r : Outcome (Nat × memoize)} (hle : fuel ≤ fuel2)
    (h : _patternMatch wallgraph fuel pattern findoption keepcount = some r) :
    _patternMatch wallgraph fuel2 pattern findoption keepcount = some r :=
  searchLoop_mono hle hle h

theorem patternMatchLoop_mono {wallgraph : wallgraphvector} {findoption : Int} {fuel fuel2 : Nat}
    {patterns : List patternvector} {oldpattern : patternvector} {keepcount : memoize}
    {results : resultslist} {r : Outcome resultslist} (hle : fuel ≤ fuel2)
    (h : patternMatchLoop wallgraph findoption fuel patterns oldpattern keepcount results
      = some r) :
    patternMatchLoop wallgraph findoption fuel2 patterns oldpattern keepcount results
      = some r := by
  induction patterns generalizing oldpattern keepcount results with
  | nil => simpa [patternMatchLoop] using h
  | cons pattern rest ih =>
    unfold patternMatchLoop at h ⊢
    split at h
    · next hc => rw [if_pos hc]; exact ih h
    · next hc =>
      rw [if_neg hc]
      split at h
      · simp at h
      · next hp => rw [patternMatch_inner_mono hle hp]; exact h
      · next hp =>
        rw [patternMatch_inner_mono hle hp]
        try simp only at h ⊢
        split at h
        · next hf => rw [if_pos hf]; exact h
        · next hf => rw [if_neg hf]; exact ih h

theorem patternMatch_mono {wallgraph : wallgraphvector} {allpatterns : List patternvector}
    {findoption : Int} {fuel fuel2 : Nat} {r : Outcome resultslist} (hle : fuel ≤ fuel2)
    (h : patternMatch wallgraph allpatterns findoption fuel = some r) :
    patternMatch wallgraph allpatterns findoption fuel2 = some r := by
  unfold patternMatch at h ⊢
  split at h
  · next hc => rw [if_pos hc]; exact h
  · next hc =>
    rw [if_neg hc]
    split at h
    · exact h
    · exact patternMatchLoop_mono hle h

/-! ## The batch loop of `patternMatch` -/

/-- C6. `patternMatch` ends in the fault "findoption = 1, 2, or 3 only" exactly
when `findoption` is none of 1, 2, 3; the statement holds for every graph, every
batch (the empty one included) and every amount of fuel (zero included), so the
fault comes before any pattern is looked at and instead of any result. -/
theorem patternMatch_invalidFindoption_iff (wallgraph : wallgraphvector)
    (allpatterns : List patternvector) (findoption : Int) (fuel : Nat) :
    patternMatch wallgraph allpatterns findoption fuel = some (.fault .invalidFindoption) ↔
      (findoption ≠ 1 ∧ findoption ≠ 2 ∧ findoption ≠ 3) := by
  unfold patternMatch
  by_cases hmem : findoption ∉ [1, 2, 3]
  · rw [if_pos hmem]
    simp only [List.mem_cons, List.mem_singleton, List.not_mem_nil, or_false, not_or] at hmem
    simp [hmem.1, hmem.2.1, hmem.2.2]
  · rw [if_neg hmem]
    simp only [List.mem_cons, List.mem_singleton, List.not_mem_nil, or_false, not_or,
      not_and, not_not] at hmem
    constructor
    · intro h
      exfalso
      cases allpatterns with
      | nil => simp at h
      | cons p rest =>
        simp only at h
        rcases patternMatchLoop_fault h with h1 | h1 <;> simp at h1
    · intro hne
      exfalso
      by_cases h1 : findoption = 1
      · exact hne.1 h1
      · by_cases h2 : findoption = 2
        · exact hne.2.1 h2
        · exact hne.2.2 (hmem h1 h2)

theorem patternMatchLoop_patterns {wallgraph : wallgraphvector} {findoption : Int} {fuel : Nat}
    (hmode : findoption ≠ 1) {patterns : List patternvector} {oldpattern : patternvector}
    {keepcount : memoize} {results out : resultslist}
    (h : patternMatchLoop wallgraph findoption fuel patterns oldpattern keepcount results
      = some (.value out)) :
    out.map Prod.fst
      = results.map Prod.fst ++ patterns.filter (fun p => decide (1 ≤ p.length)) := by
  induction patterns generalizing oldpattern keepcount results with
  | nil =>
    simp only [patternMatchLoop, Option.some.injEq, Outcome.value.injEq] at h
    simp [h]
  | cons pattern rest ih =>
    unfold patternMatchLoop at h
    split at h
    · next hc =>
      rw [ih h, List.filter_cons_of_neg (by simp only [decide_eq_true_eq]; omega)]
    · next hc =>
      split at h
      · simp at h
      · simp at h
      · split at h
        · next hf => exact absurd hf.1 hmode
        · rw [ih h, List.filter_cons_of_pos (by simp only [decide_eq_true_eq]; omega)]
          simp

/-- C5. In modes 2 and 3, whenever `patternMatch` returns a results sequence
(no fault, enough fuel), the patterns of that sequence are the input patterns
with the zero-length ones removed, in input order. -/
theorem patternMatch_results_patterns (wallgraph : wallgraphvector)
    (allpatterns : List patternvector) (findoption : Int) (fuel : Nat) (results : resultslist)
    (hmode : findoption = 2 ∨ findoption = 3)
    (h : patternMatch wallgraph allpatterns findoption fuel = some (.value results)) :
    results.map Prod.fst = allpatterns.filter (fun p => decide (1 ≤ p.length)) := by
  unfold patternMatch at h
  split at h
  · simp at h
  · cases allpatterns with
    | nil => simp at h
    | cons p rest =>
      simp only at h
      have hne : findoption ≠ 1 := by rcases hmode with hm | hm <;> rw [hm] <;> decide
      simpa using patternMatchLoop_patterns hne h

/-- Witness for C5: a batch whose first and third patterns are empty. -/
theorem patternMatch_results_patterns_witness :
    patternMatch twoWallGraph [[], [['a']], [], [['a'], ['b']]] 3 30
        = some (.value [([['a']], 1), ([['a'], ['b']], 1)]) ∧
      ([([['a']], 1), ([['a'], ['b']], 1)] : resultslist).map Prod.fst
        = ([[], [['a']], [], [['a'], ['b']]] : List patternvector).filter
            (fun p => decide (1 ≤ p.length)) :=
  ⟨by decide,
   patternMatch_results_patterns twoWallGraph [[], [['a']], [], [['a'], ['b']]] 3 30
     [([['a']], 1), ([['a'], ['b']], 1)] (Or.inr rfl) (by decide)⟩

theorem patternMatchLoop_mode1 {wallgraph : wallgraphvector} {fuel : Nat}
    {patterns : List patternvector} {oldpattern : patternvector}
    {keepcount : memoize} {results out : resultslist}
    (h : patternMatchLoop wallgraph 1 fuel patterns oldpattern keepcount results
      = some (.value out)) :
    ∃ extra : resultslist, out = results ++ extra ∧
      extra.map Prod.fst <+: patterns.filter (fun p => decide (1 ≤ p.length)) ∧
      (∀ e ∈ extra.dropLast, e.2 = 0) ∧
      ((extra.map Prod.fst = patterns.filter (fun p => decide (1 ≤ p.length)) ∧
          ∀ e ∈ extra, e.2 = 0) ∨
        ∃ e, extra.getLast? = some e ∧ 0 < e.2) := by
  induction patterns generalizing oldpattern keepcount results with
  | nil =>
    simp only [patternMatchLoop, Option.some.injEq, Outcome.value.injEq] at h
    exact ⟨[], by simp [h], by simp, by simp, Or.inl (by simp)⟩
  | cons pattern rest ih =>
    unfold patternMatchLoop at h
    split at h
    · next hc =>
      obtain ⟨extra, h1, h2, h3, h4⟩ := ih h
      rw [List.filter_cons_of_neg (by simp only [decide_eq_true_eq]; omega)]
      exact ⟨extra, h1, h2, h3, h4⟩
    · next hc =>
      rw [List.filter_cons_of_pos (by simp only [decide_eq_true_eq]; omega)]
      split at h
      · simp at h
      · simp at h
      · next r hr =>
        split at h
        · next hf =>
          simp only [Option.some.injEq, Outcome.value.injEq] at h
          refine ⟨[(pattern, r.1)], h.symm, ?_, by simp, Or.inr ⟨(pattern, r.1), by simp, hf.2⟩⟩
          simp [List.prefix_cons_iff]
        · next hf =>
          have hz : r.1 = 0 := by
            by_contra hne
            exact hf ⟨rfl, Nat.pos_of_ne_zero hne⟩
          obtain ⟨extra, h1, h2, h3, h4⟩ := ih h
          refine ⟨(pattern, r.1) :: extra, by simp [h1], ?_, ?_, ?_⟩
          · simpa [List.prefix_cons_iff] using h2
          · intro e he
            cases extra with
            | nil => simp at he
            | cons e2 extra2 =>
              rw [List.dropLast_cons₂] at he
              rcases List.mem_cons.1 he with he | he
              · rw [he]; exact hz
              · exact h3 e he
          · rcases h4 with ⟨h4, h5⟩ | ⟨e, h4, h5⟩
            · left
              refine ⟨by simp [h4], ?_⟩
              intro e he
              rcases List.mem_cons.1 he with he | he
              · rw [he]; exact hz
              · exact h5 e he
            · right
              refine ⟨e, ?_, h5⟩
              cases extra with
              | nil => simp at h4
              | cons e2 extra2 =>
                rw [List.getLast?_cons_cons]
                exact h4

/-- C4. In mode 1, whenever `patternMatch` returns a results sequence, its
patterns are an initial part of the non-empty input patterns in input order,
every entry before the last has metric 0, and either the last entry has a
positive metric (nothing is recorded after it) or every non-empty input pattern
is recorded. -/
theorem patternMatch_mode1_results (wallgraph : wallgraphvector)
    (allpatterns : List patternvector) (fuel : Nat) (results : resultslist)
    (h : patternMatch wallgraph allpatterns 1 fuel = some (.value results)) :
    results.map Prod.fst <+: allpatterns.filter (fun p => decide (1 ≤ p.length)) ∧
      (∀ e ∈ results.dropLast, e.2 = 0) ∧
      (results.map Prod.fst = allpatterns.filter (fun p => decide (1 ≤ p.length)) ∨
        ∃ e, results.getLast? = some e ∧ 0 < e.2) := by
  unfold patternMatch at h
  split at h
  · simp at h
  · cases allpatterns with
    | nil => simp at h
    | cons p rest =>
      simp only at h
      obtain ⟨extra, h1, h2, h3, h4⟩ := patternMatchLoop_mode1 h
      simp only [List.nil_append] at h1
      subst h1
      refine ⟨h2, h3, ?_⟩
      rcases h4 with ⟨h4, _⟩ | h4
      · exact Or.inl h4
      · exact Or.inr h4

/-- Witness for C4: the second non-empty pattern matches, the third is not run. -/
theorem patternMatch_mode1_results_witness :
    patternMatch twoWallGraph [[], [['b'], ['b']], [['a'], ['b']], [['a']]] 1 30
        = some (.value [([['b'], ['b']], 0), ([['a'], ['b']], 1)]) ∧
      (([([['b'], ['b']], 0), ([['a'], ['b']], 1)] : resultslist).map Prod.fst
          <+: ([[], [['b'], ['b']], [['a'], ['b']], [['a']]] : List patternvector).filter
            (fun p => decide (1 ≤ p.length)) ∧
        (∀ e ∈ ([([['b'], ['b']], 0), ([['a'], ['b']], 1)] : resultslist).dropLast, e.2 = 0) ∧
        (([([['b'], ['b']], 0), ([['a'], ['b']], 1)] : resultslist).map Prod.fst
            = ([[], [['b'], ['b']], [['a'], ['b']], [['a']]] : List patternvector).filter
              (fun p => decide (1 ≤ p.length)) ∨
          ∃ e, ([([['b'], ['b']], 0), ([['a'], ['b']], 1)] : resultslist).getLast? = some e ∧
            0 < e.2)) :=
  ⟨by decide,
   patternMatch_mode1_results twoWallGraph [[], [['b'], ['b']], [['a'], ['b']], [['a']]] 30
     [([['b'], ['b']], 0), ([['a'], ['b']], 1)] (by decide)⟩

/-! ## Runs that do not behave as specified -/

theorem searchLoop_next {wallgraph : wallgraphvector} {pattern intermediates : patternvector}
    {N : Nat} {findoption : Int} {thisnode : node} {rest : List node} {k : memoize}
    (stack : List node) (k2 : memoize)
    (hstep : searchStep wallgraph pattern intermediates N findoption thisnode rest k
      = .next stack k2) (bfuel fuel : Nat) :
    searchLoop wallgraph pattern intermediates N findoption bfuel (fuel + 1) (thisnode :: rest) k
      = searchLoop wallgraph pattern intermediates N findoption bfuel fuel stack k2 := by
  simp only [searchLoop, hstep]

theorem searchLoop_none_of_next {wallgraph : wallgraphvector}
    {pattern intermediates : patternvector} {N : Nat} {findoption : Int} {thisnode : node}
    {rest : List node} {k : memoize} {bfuel : Nat} (stack : List node) (k2 : memoize)
    (hstep : searchStep wallgraph pattern intermediates N findoption thisnode rest k
      = .next stack k2)
    (hrest : ∀ fuel, searchLoop wallgraph pattern intermediates N findoption bfuel fuel stack k2
      = none) (fuel : Nat) :
    searchLoop wallgraph pattern intermediates N findoption bfuel fuel (thisnode :: rest) k
      = none := by
  cases fuel with
  | zero => rfl
  | succ fuel => rw [searchLoop_next stack k2 hstep]; exact hrest fuel

theorem searchLoop_none_of_found {wallgraph : wallgraphvector}
    {pattern intermediates : patternvector} {N : Nat} {findoption : Int} {thisnode : node}
    {rest : List node} {k : memoize} {bfuel : Nat} (k2 : memoize)
    (hstep : searchStep wallgraph pattern intermediates N findoption thisnode rest k
      = .found true k2)
    (hfill : _backFill wallgraph bfuel N findoption k2 = none) (fuel : Nat) :
    searchLoop wallgraph pattern intermediates N findoption bfuel fuel (thisnode :: rest) k
      = none := by
  cases fuel with
  | zero => rfl
  | succ fuel => simp only [searchLoop, hstep, hfill]

/-- C2 (what the code does). On `detourGraph` in mode 3 the pattern `M`, `M`
alone is counted once (the walk 0, 1, 2), while in the batch `M` then `M`, `M`
the same pattern is recorded with count 0: slot 1 kept from the first pattern
holds the intermediate entry of wall 1 forced to 0. -/
theorem suffix_reuse_changes_count (n : Nat) :
    patternMatch detourGraph [[['M']], [['M'], ['M']]] 3 (50 + n)
        = some (.value [([['M']], 2), ([['M'], ['M']], 0)]) ∧
      patternMatch detourGraph [[['M'], ['M']]] 3 (50 + n)
        = some (.value [([['M'], ['M']], 1)]) :=
  ⟨patternMatch_mono (Nat.le_add_right 50 n) (by decide),
   patternMatch_mono (Nat.le_add_right 50 n) (by decide)⟩

theorem selfLoop_stuck (bfuel fuel : Nat) :
    searchLoop selfLoopGraph [['M'], ['M']] (intermediatesOf [['M'], ['M']]) 2 3 bfuel fuel
      [(1, 1)]
      [[], [((1, false), -1), ((1, true), 0)],
        [((0, false), 0), ((0, true), -1), ((1, false), 0), ((1, true), 0)]] = none := by
  induction fuel with
  | zero => rfl
  | succ fuel ih =>
    rw [searchLoop_next [(1, 1)]
      ([[], [((1, false), -1), ((1, true), 0)],
        [((0, false), 0), ((0, true), -1), ((1, false), 0), ((1, true), 0)]]) (by decide)]
    exact ih

/-- C7 (what the code does). On `selfLoopGraph` the mode-3 search for the
pattern `M`, `M` never returns, whatever the fuel: the node (wall 1, length 1)
is pending, is its own out-neighbour, and is pushed again each time it is
popped. -/
theorem search_selfLoop_never_returns (fuel : Nat) :
    _patternMatch selfLoopGraph fuel [['M'], ['M']] 3 [[], [], []] = none ∧
      patternMatch selfLoopGraph [[['M'], ['M']]] 3 fuel = none := by
  have h : ∀ bfuel fuel2 : Nat,
      searchLoop selfLoopGraph [['M'], ['M']] (intermediatesOf [['M'], ['M']]) 2 3 bfuel fuel2
        [(1, 2), (0, 2)] [[], [], []] = none := by
    intro bfuel
    refine searchLoop_none_of_next [(0, 2)]
      ([[], [], [((1, false), 0), ((1, true), 0)]]) (by decide) ?_
    refine searchLoop_none_of_next [(1, 1)]
      ([[], [], [((0, false), 0), ((0, true), -1), ((1, false), 0), ((1, true), 0)]])
      (by decide) ?_
    refine searchLoop_none_of_next [(1, 1)]
      ([[], [((1, false), -1), ((1, true), 0)],
        [((0, false), 0), ((0, true), -1), ((1, false), 0), ((1, true), 0)]]) (by decide) ?_
    exact selfLoop_stuck bfuel
  have h1 : _patternMatch selfLoopGraph fuel [['M'], ['M']] 3 [[], [], []] = none := h fuel fuel
  refine ⟨h1, ?_⟩
  have hp : _pruneRegister [['M'], ['M']] [['M'], ['M']] (List.replicate 3 [])
      = [[], [], []] := by decide
  simp only [patternMatch, patternMatchLoop]
  rw [if_neg (by decide), if_neg (by decide)]
  simp only [List.length_cons, List.length_nil, Nat.reduceAdd, hp, h1]

/-- C8 (what the code does). In mode 2 on `chainGraph` the batch `b` then `a`,
`b` ends in the fault "Not all extremal leaves assigned 0 or 1", although the
graph and the patterns are well formed; the second pattern alone is recorded
with metric 1. -/
theorem reuse_raises_leaf_fault (n : Nat) :
    patternMatch chainGraph [[['b']], [['a'], ['b']]] 2 (50 + n)
        = some (.fault .leavesNotAssigned) ∧
      patternMatch chainGraph [[['a'], ['b']]] 2 (50 + n)
        = some (.value [([['a'], ['b']], 1)]) :=
  ⟨patternMatch_mono (Nat.le_add_right 50 n) (by decide),
   patternMatch_mono (Nat.le_add_right 50 n) (by decide)⟩

theorem loopThenExit_sweeps (fuel count : Nat) :
    backFillIntermediateLoop loopThenExitGraph 1 2 4 fuel count false loopThenExitStore
      = none := by
  induction fuel generalizing count with
  | zero => rfl
  | succ fuel ih =>
    have hs : intermediateSweep loopThenExitGraph 1 2
        ((layerAt loopThenExitStore 1).map Prod.fst) loopThenExitStore true
        = .value (loopThenExitStore, false) := by decide
    unfold backFillIntermediateLoop
    rw [if_pos (Or.inl rfl), hs]
    exact ih (count + 1)

/-- C9 (what the code does). On `loopThenExitStore` (mode 2, layer 1) the loop
of `_backFillIntermediate` never ends: the pending entry of wall 1 is never
settled, `done` stays false, and the loop continues while `!done` holds whatever
the sweep count.  The store is the one the search reaches, so `patternMatch`
does not return either. -/
theorem backFillIntermediate_never_returns (fuel : Nat) :
    _backFillIntermediate loopThenExitGraph fuel 1 2 loopThenExitStore = none ∧
      patternMatch loopThenExitGraph [[['M'], ['M']]] 2 fuel = none := by
  have h1 : ∀ bfuel, _backFillIntermediate loopThenExitGraph bfuel 1 2 loopThenExitStore
      = none := fun bfuel => loopThenExit_sweeps bfuel 0
  refine ⟨h1 fuel, ?_⟩
  have hfill : ∀ bfuel, _backFill loopThenExitGraph bfuel 2 2 loopThenExitStore = none := by
    intro bfuel
    simp only [_backFill, h1]
  have h : ∀ bfuel fuel2 : Nat,
      searchLoop loopThenExitGraph [['M'], ['M']] (intermediatesOf [['M'], ['M']]) 2 2 bfuel
        fuel2 [(2, 2), (1, 2), (0, 2)] [[], [], []] = none := by
    intro bfuel
    refine searchLoop_none_of_next [(1, 2), (0, 2)]
      ([[], [], [((2, false), 0), ((2, true), -1)]]) (by decide) ?_
    refine searchLoop_none_of_next [(0, 2)]
      ([[], [], [((1, false), 0), ((1, true), 0), ((2, false), 0), ((2, true), -1)]])
      (by decide) ?_
    refine searchLoop_none_of_next [(1, 1)]
      ([[], [], [((0, false), 0), ((0, true), -1), ((1, false), 0), ((1, true), 0),
        ((2, false), 0), ((2, true), -1)]]) (by decide) ?_
    refine searchLoop_none_of_next [(2, 1), (1, 1)]
      ([[], [((1, false), -1), ((1, true), 0)],
        [((0, false), 0), ((0, true), -1), ((1, false), 0), ((1, true), 0),
        ((2, false), 0), ((2, true), -1)]]) (by decide) ?_
    exact searchLoop_none_of_found loopThenExitStore (by decide) (hfill bfuel)
  have hp : _pruneRegister [['M'], ['M']] [['M'], ['M']] (List.replicate 3 [])
      = [[], [], []] := by decide
  simp only [patternMatch, patternMatchLoop]
  rw [if_neg (by decide), if_neg (by decide)]
  simp only [List.length_cons, List.length_nil, Nat.reduceAdd, hp]
  have h2 : _patternMatch loopThenExitGraph fuel [['M'], ['M']] 2 [[], [], []] = none :=
    h fuel fuel
  rw [h2]

/-- C10 (what the code does). In mode 2, for the intermediate key of wall 1 at
layer 1 of `loopThenExitStore` with out-edges 1, 2: the pair of out-neighbour 2
holds the positive entry 1, yet `_sumcounts` returns false and leaves the store
unchanged, because the pair of the earlier out-neighbour 1 is pending. -/
theorem sumcounts_pending_before_hit :
    mapFind (layerAt loopThenExitStore 1) (2, true) = some 1 ∧
      _sumcounts (1, false) [1, 2] 1 2 loopThenExitStore = (false, loopThenExitStore) := by
  decide

/-! ## The memo map and the store -/

theorem keyCode_injective {a b : keypair} (h : keyCode a = keyCode b) : a = b := by
  obtain ⟨a1, a2⟩ := a
  obtain ⟨b1, b2⟩ := b
  unfold keyCode at h
  cases a2 <;> cases b2 <;> simp at h <;> simp <;> omega

theorem keyLt_iff {a b : keypair} : keyLt a b = true ↔ keyCode a < keyCode b := by
  obtain ⟨a1, a2⟩ := a
  obtain ⟨b1, b2⟩ := b
  unfold keyLt keyCode
  cases a2 <;> cases b2 <;> simp <;> omega

theorem mapFind_mapSet_self (m : pathElementMap) (k : keypair) (v : Int) :
    mapFind (mapSet m k v) k = some v := by
  induction m with
  | nil => simp [mapSet, mapFind]
  | cons kv rest ih =>
    obtain ⟨k1, v1⟩ := kv
    unfold mapSet
    split
    · simp [mapFind]
    · next hne =>
      split
      · simp [mapFind]
      · simp only [mapFind]
        rw [if_neg (fun h => hne h.symm)]
        exact ih

theorem mapFind_mapSet_ne (m : pathElementMap) {k k2 : keypair} (v : Int) (hne : k2 ≠ k) :
    mapFind (mapSet m k v) k2 = mapFind m k2 := by
  induction m with
  | nil => simp [mapSet, mapFind, hne.symm]
  | cons kv rest ih =>
    obtain ⟨k1, v1⟩ := kv
    unfold mapSet
    split
    · next heq =>
      subst heq
      simp [mapFind, hne.symm]
    · split
      · simp [mapFind, hne.symm]
      · simp only [mapFind]
        split
        · rfl
        · exact ih

theorem mem_mapSet {m : pathElementMap} {k : keypair} {v : Int} {kv : keypair × Int}
    (h : kv ∈ mapSet m k v) : kv = (k, v) ∨ kv ∈ m := by
  induction m with
  | nil => simpa [mapSet] using h
  | cons kv1 rest ih =>
    obtain ⟨k1, v1⟩ := kv1
    unfold mapSet at h
    split at h
    · rcases List.mem_cons.1 h with h | h
      · exact Or.inl h
      · exact Or.inr (List.mem_cons_of_mem _ h)
    · split at h
      · rcases List.mem_cons.1 h with h | h
        · exact Or.inl h
        · exact Or.inr h
      · rcases List.mem_cons.1 h with h | h
        · exact Or.inr (by rw [h]; exact List.mem_cons_self _ _)
        · rcases ih h with h | h
          · exact Or.inl h
          · exact Or.inr (List.mem_cons_of_mem _ h)

theorem mapSet_sorted {m : pathElementMap} (k : keypair) (v : Int) (h : MapSorted m) :
    MapSorted (mapSet m k v) := by
  unfold MapSorted at h ⊢
  induction m with
  | nil => simp [mapSet]
  | cons kv1 rest ih =>
    obtain ⟨k1, v1⟩ := kv1
    rw [List.pairwise_cons] at h
    unfold mapSet
    split
    · next heq =>
      subst heq
      rw [List.pairwise_cons]
      exact ⟨h.1, h.2⟩
    · next hne =>
      split
      · next hlt =>
        rw [keyLt_iff] at hlt
        rw [List.pairwise_cons, List.pairwise_cons]
        refine ⟨?_, h.1, h.2⟩
        intro a ha
        rcases List.mem_cons.1 ha with ha | ha
        · rw [ha]; exact hlt
        · exact lt_trans hlt (h.1 a ha)
      · next hlt =>
        rw [keyLt_iff] at hlt
        have hgt : keyCode k1 < keyCode k := by
          rcases Nat.lt_trichotomy (keyCode k1) (keyCode k) with h1 | h1 | h1
          · exact h1
          · exact absurd (keyCode_injective h1).symm hne
          · exact absurd h1 hlt
        rw [List.pairwise_cons]
        refine ⟨?_, ih h.2⟩
        intro a ha
        rcases mem_mapSet ha with ha | ha
        · rw [ha]; exact hgt
        · exact h.1 a ha

theorem mapFind_mem {m : pathElementMap} {k : keypair} {v : Int} (h : mapFind m k = some v) :
    (k, v) ∈ m := by
  induction m with
  | nil => simp [mapFind] at h
  | cons kv1 rest ih =>
    obtain ⟨k1, v1⟩ := kv1
    simp only [mapFind] at h
    split at h
    · next heq =>
      simp only [Option.some.injEq] at h
      rw [← heq, ← h]
      exact List.mem_cons_self _ _
    · exact List.mem_cons_of_mem _ (ih h)

theorem mapFind_of_mem {m : pathElementMap} {k : keypair} {v : Int} (hs : MapSorted m)
    (h : (k, v) ∈ m) : mapFind m k = some v := by
  unfold MapSorted at hs
  induction m with
  | nil => simp at h
  | cons kv1 rest ih =>
    obtain ⟨k1, v1⟩ := kv1
    rw [List.pairwise_cons] at hs
    simp only [mapFind]
    rcases List.mem_cons.1 h with h | h
    · simp only [Prod.mk.injEq] at h
      rw [if_pos h.1.symm, h.2]
    · have hlt := hs.1 (k, v) h
      rw [if_neg (by intro heq; rw [heq] at hlt; exact lt_irrefl _ hlt)]
      exact ih hs.2 h

theorem mapFind_ne_none_iff {m : pathElementMap} {k : keypair} :
    mapFind m k ≠ none ↔ k ∈ m.map Prod.fst := by
  induction m with
  | nil => simp [mapFind]
  | cons kv1 rest ih =>
    obtain ⟨k1, v1⟩ := kv1
    simp only [mapFind, List.map_cons, List.mem_cons]
    split
    · next heq => simp [heq]
    · next hne =>
      rw [ih]
      constructor
      · exact Or.inr
      · rintro (h | h)
        · exact absurd h.symm hne
        · exact h

theorem layerAt_setEntry_same {keepcount : memoize} {r : Nat} (key : keypair) (v : Int)
    (hr : r < keepcount.length) :
    layerAt (setEntry keepcount r key v) r = mapSet (layerAt keepcount r) key v := by
  unfold setEntry layerAt
  simp [List.getD, hr]

theorem layerAt_setEntry_ne {keepcount : memoize} {r r2 : Nat} (key : keypair) (v : Int)
    (hne : r2 ≠ r) : layerAt (setEntry keepcount r key v) r2 = layerAt keepcount r2 := by
  unfold setEntry layerAt
  simp [List.getD, List.getElem?_set_ne hne.symm]

theorem length_setEntry (keepcount : memoize) (r : Nat) (key : keypair) (v : Int) :
    (setEntry keepcount r key v).length = keepcount.length := by
  simp [setEntry]

theorem layerAt_setEntry_out {keepcount : memoize} {r : Nat} (key : keypair) (v : Int)
    (hr : keepcount.length ≤ r) : setEntry keepcount r key v = keepcount := by
  unfold setEntry
  exact List.set_eq_of_length_le hr

theorem entry_setEntry_self {keepcount : memoize} {r : Nat} (key : keypair) (v : Int)
    (hr : r < keepcount.length) :
    mapFind (layerAt (setEntry keepcount r key v) r) key = some v := by
  rw [layerAt_setEntry_same key v hr, mapFind_mapSet_self]

theorem entry_setEntry_other {keepcount : memoize} {r r2 : Nat} {key key2 : keypair} (v : Int)
    (hne : r2 ≠ r ∨ key2 ≠ key) :
    mapFind (layerAt (setEntry keepcount r key v) r2) key2
      = mapFind (layerAt keepcount r2) key2 := by
  by_cases hr : r < keepcount.length
  · by_cases h2 : r2 = r
    · subst h2
      rcases hne with h | h
      · exact absurd rfl h
      · rw [layerAt_setEntry_same key v hr, mapFind_mapSet_ne _ v h]
    · rw [layerAt_setEntry_ne key v h2]
  · rw [layerAt_setEntry_out key v (Nat.le_of_not_lt hr)]

theorem entry_setEntry_ne_none {keepcount : memoize} {r r2 : Nat} {key key2 : keypair} (v : Int)
    (h : mapFind (layerAt keepcount r2) key2 ≠ none) :
    mapFind (layerAt (setEntry keepcount r key v) r2) key2 ≠ none := by
  by_cases hk : r2 = r ∧ key2 = key
  · obtain ⟨h1, h2⟩ := hk
    subst h1 h2
    by_cases hr : r2 < keepcount.length
    · rw [entry_setEntry_self _ v hr]; simp
    · rw [layerAt_setEntry_out _ v (Nat.le_of_not_lt hr)]; exact h
  · rw [entry_setEntry_other v (by
      by_cases h1 : r2 = r
      · exact Or.inr (fun h2 => hk ⟨h1, h2⟩)
      · exact Or.inl h1)]
    exact h

theorem entry_setEntry_cases {keepcount : memoize} {r r2 : Nat} {key key2 : keypair} {v v2 : Int}
    (h : mapFind (layerAt (setEntry keepcount r key v) r2) key2 = some v2) :
    (r2 = r ∧ key2 = key ∧ v2 = v) ∨ mapFind (layerAt keepcount r2) key2 = some v2 := by
  by_cases hk : r2 = r ∧ key2 = key
  · obtain ⟨h1, h2⟩ := hk
    subst h1 h2
    by_cases hr : r2 < keepcount.length
    · rw [entry_setEntry_self _ v hr] at h
      simp only [Option.some.injEq] at h
      exact Or.inl ⟨rfl, rfl, h.symm⟩
    · rw [layerAt_setEntry_out _ v (Nat.le_of_not_lt hr)] at h
      exact Or.inr h
  · rw [entry_setEntry_other v (by
      by_cases h1 : r2 = r
      · exact Or.inr (fun h2 => hk ⟨h1, h2⟩)
      · exact Or.inl h1)] at h
    exact Or.inr h

theorem presentAt_setEntry {keepcount : memoize} {r r2 x : Nat} (key : keypair) (v : Int)
    (h : presentAt keepcount r2 x) : presentAt (setEntry keepcount r key v) r2 x :=
  ⟨entry_setEntry_ne_none v h.1, entry_setEntry_ne_none v h.2⟩

theorem sorted_setEntry {keepcount : memoize} (r : Nat) (key : keypair) (v : Int)
    (h : ∀ r2, MapSorted (layerAt keepcount r2)) (r2 : Nat) :
    MapSorted (layerAt (setEntry keepcount r key v) r2) := by
  by_cases hr : r < keepcount.length
  · by_cases h2 : r2 = r
    · subst h2
      rw [layerAt_setEntry_same key v hr]
      exact mapSet_sorted key v (h r2)
    · rw [layerAt_setEntry_ne key v h2]
      exact h r2
  · rw [layerAt_setEntry_out key v (Nat.le_of_not_lt hr)]
    exact h r2

theorem storeOk_setEntry {wallgraph : wallgraphvector} {pattern : patternvector}
    {V : Nat → Nat → Bool → Int} {keepcount : memoize} {r w : Nat} {flag : Bool} {v : Int}
    (h : StoreOk wallgraph pattern V keepcount) (hr1 : 1 ≤ r) (hr2 : r ≤ pattern.length)
    (hw : w < wallgraph.length) (hv : EntryOk wallgraph pattern V w r flag v) :
    StoreOk wallgraph pattern V (setEntry keepcount r (w, flag) v) := by
  refine ⟨by rw [length_setEntry]; exact h.len, sorted_setEntry r _ v h.sorted, ?_⟩
  intro r2 w2 flag2 v2 hf
  rcases entry_setEntry_cases hf with ⟨h1, h2, h3⟩ | h1
  · simp only [Prod.mk.injEq] at h2
    obtain ⟨h2a, h2b⟩ := h2
    subst h1 h2a h2b h3
    exact ⟨⟨hr1, hr2, hw⟩, hv⟩
  · exact h.entries r2 w2 flag2 v2 h1

/-! ## Label checks on well-formed input -/

theorem checkForWordInLabels_value {word : List Char} {labels : labelset}
    (h : word.length = labels.length) : ∃ b, _checkForWordInLabels word labels = .value b := by
  induction labels generalizing word with
  | nil => exact ⟨true, by simp [_checkForWordInLabels]⟩
  | cons l ls ih =>
    cases word with
    | nil => simp at h
    | cons c w =>
      unfold _checkForWordInLabels
      split
      · exact ih (by simpa using h)
      · exact ⟨false, rfl⟩

theorem replaceWord_length (t : List Char) : (replaceWord t).length = t.length := by
  simp [replaceWord]

theorem intermediatesOf_getD (pattern : patternvector) (i : Nat) :
    (intermediatesOf pattern).getD i [] = replaceWord (pattern.getD i []) := by
  unfold intermediatesOf
  simp only [List.getD_eq_getElem?_getD, List.getElem?_map]
  cases pattern[i]? <;> simp [replaceWord]

theorem labelsOf_eq {wallgraph : wallgraphvector} {w : Nat} {ws : wallStruct}
    (h : wallgraph[w]? = some ws) : labelsOf wallgraph w = ws.labels := by
  simp [labelsOf, h]

theorem outedgesOf_eq {wallgraph : wallgraphvector} {w : Nat} {ws : wallStruct}
    (h : wallgraph[w]? = some ws) : outedgesOf wallgraph w = ws.outedges := by
  simp [outedgesOf, h]

theorem pattern_word_length {wallgraph : wallgraphvector} {pattern : patternvector} {L : Nat}
    (hwf : WellFormed wallgraph pattern L) {r : Nat} (hr1 : 1 ≤ r) (hr2 : r ≤ pattern.length) :
    (pattern.getD (pattern.length - r) []).length = L := by
  have hlt : pattern.length - r < pattern.length := by omega
  rw [List.getD_eq_getElem _ _ hlt]
  exact hwf.2 _ (List.getElem_mem _)

theorem check_extremum {wallgraph : wallgraphvector} {pattern : patternvector} {L : Nat}
    (hwf : WellFormed wallgraph pattern L) {w r : Nat} {ws : wallStruct}
    (hw : wallgraph[w]? = some ws) (hr1 : 1 ≤ r) (hr2 : r ≤ pattern.length) :
    _checkForWordInLabels (pattern.getD (pattern.length - r) []) ws.labels
      = .value (extremumMatch wallgraph pattern w r) := by
  have hwlt : w < wallgraph.length := by
    rcases List.getElem?_eq_some_iff.1 hw with ⟨h, _⟩
    exact h
  have hl : ws.labels.length = L := by
    rw [← labelsOf_eq hw]; exact (hwf.1 w hwlt).2
  have hlen : (pattern.getD (pattern.length - r) []).length = ws.labels.length := by
    rw [pattern_word_length hwf hr1 hr2, hl]
  obtain ⟨b, hb⟩ := checkForWordInLabels_value hlen
  unfold extremumMatch
  rw [labelsOf_eq hw, hb]
  cases b <;> simp

theorem check_intermediate {wallgraph : wallgraphvector} {pattern : patternvector} {L : Nat}
    (hwf : WellFormed wallgraph pattern L) {w r : Nat} {ws : wallStruct}
    (hw : wallgraph[w]? = some ws) (hr1 : 1 ≤ r) (hr2 : r ≤ pattern.length) :
    _checkForWordInLabels ((intermediatesOf pattern).getD (pattern.length - r) []) ws.labels
      = .value (intermediateMatch wallgraph pattern w r) := by
  have hwlt : w < wallgraph.length := by
    rcases List.getElem?_eq_some_iff.1 hw with ⟨h, _⟩
    exact h
  have hl : ws.labels.length = L := by
    rw [← labelsOf_eq hw]; exact (hwf.1 w hwlt).2
  have hlen : ((intermediatesOf pattern).getD (pattern.length - r) []).length
      = ws.labels.length := by
    rw [intermediatesOf_getD, replaceWord_length, pattern_word_length hwf hr1 hr2, hl]
  obtain ⟨b, hb⟩ := checkForWordInLabels_value hlen
  unfold intermediateMatch
  rw [labelsOf_eq hw, hb]
  cases b <;> simp

/-! ## The conversion to `int64_t` and the neighbour loops in mode 3 -/

theorem u64_pos : (0 : Int) < (u64 : Int) := by
  unfold u64; norm_num

theorem addU64_lt (n : Nat) (x : Int) : addU64 n x < u64 := by
  unfold addU64
  have h1 := Int.emod_lt_of_pos ((n : Int) + x) u64_pos
  have h2 := Int.emod_nonneg ((n : Int) + x) (ne_of_gt u64_pos)
  omega

theorem addU64_cast (n : Nat) (x : Int) : ((addU64 n x : Nat) : Int) = ((n : Int) + x) % u64 := by
  unfold addU64
  exact Int.toNat_of_nonneg (Int.emod_nonneg _ (ne_of_gt u64_pos))

theorem toInt64_of_lt {n : Nat} (h : n < 2 ^ 63) : toInt64 n = (n : Int) := by
  unfold toInt64
  have h1 : n % u64 = n := Nat.mod_eq_of_lt (by unfold u64; omega)
  rw [h1, if_pos h]

theorem toInt64_zero : toInt64 0 = 0 := by
  rw [toInt64_of_lt (by norm_num)]; rfl

theorem toInt64_one : toInt64 1 = 1 := by
  rw [toInt64_of_lt (by norm_num)]; rfl

theorem toInt64_mod (n : Nat) : toInt64 (n % u64) = toInt64 n := by
  unfold toInt64
  rw [Nat.mod_mod]

theorem toInt64_emod (n : Nat) : toInt64 n % (u64 : Int) = ((n % u64 : Nat) : Int) := by
  have hlt : n % u64 < u64 := Nat.mod_lt _ (by unfold u64; norm_num)
  unfold toInt64
  split
  · exact Int.emod_eq_of_lt (Int.natCast_nonneg _) (by exact_mod_cast hlt)
  · rw [Int.sub_emod, Int.emod_self, sub_zero, Int.emod_emod_of_dvd _ (dvd_refl _)]
    exact Int.emod_eq_of_lt (Int.natCast_nonneg _) (by exact_mod_cast hlt)

theorem toInt64_eq_neg_one {n : Nat} : toInt64 n = -1 ↔ n % u64 = u64 - 1 := by
  have hlt : n % u64 < u64 := Nat.mod_lt _ (by unfold u64; norm_num)
  unfold toInt64
  unfold u64 at hlt ⊢
  split
  · constructor
    · intro h; omega
    · intro h; omega
  · constructor
    · intro h
      push_cast at h
      omega
    · intro h
      push_cast
      omega

theorem toInt64_congr {a b : Nat} (h : a % u64 = b % u64) : toInt64 a = toInt64 b := by
  unfold toInt64
  rw [h]

theorem toInt64_toNat_emod (x : Int) :
    toInt64 (x % (u64 : Int)).toNat % (u64 : Int) = x % (u64 : Int) := by
  rw [toInt64_emod]
  have h1 := Int.emod_lt_of_pos x u64_pos
  have h2 := Int.emod_nonneg x (ne_of_gt u64_pos)
  have h3 : (x % (u64 : Int)).toNat % u64 = (x % (u64 : Int)).toNat := by
    apply Nat.mod_eq_of_lt
    omega
  rw [h3]
  exact Int.toNat_of_nonneg h2

theorem pairSum_cons (layer : pathElementMap) (x : Nat) (outs : List Nat) :
    pairSum layer (x :: outs)
      = (mapFind layer (x, true)).getD 0 + (mapFind layer (x, false)).getD 0
        + pairSum layer outs := by
  simp [pairSum]

theorem addToStackLoop_three (layer : pathElementMap) (p : Nat) (outs : List Nat)
    (assign : Bool) (n : Nat) (stack : List node) (hn : n < u64) :
    (addToStackLoop 3 layer p outs assign n stack).broke = false ∧
      (∃ pushed, (addToStackLoop 3 layer p outs assign n stack).stack = pushed ++ stack ∧
        (∀ y ∈ pushed, y.2 = p ∧ y.1 ∈ outs) ∧
        ∀ x ∈ outs, resolvedAt layer x ∨ (x, p) ∈ pushed) ∧
      ((addToStackLoop 3 layer p outs assign n stack).assign = true →
        assign = true ∧ (∀ x ∈ outs, resolvedAt layer x) ∧
        (((addToStackLoop 3 layer p outs assign n stack).numpaths : Nat) : Int)
          = ((n : Int) + pairSum layer outs) % u64) := by
  induction outs generalizing assign n stack with
  | nil =>
    refine ⟨rfl, ⟨[], rfl, by simp, by simp⟩, ?_⟩
    intro h
    refine ⟨h, by simp, ?_⟩
    simp only [addToStackLoop, pairSum, List.map_nil, List.sum_nil, add_zero]
    rw [Int.emod_eq_of_lt (by omega) (by exact_mod_cast hn)]
  | cons x rest ih =>
    have hpush : ∀ (a : Bool) (m : Nat), m < u64 → ¬ resolvedAt layer x →
        addToStackLoop 3 layer p (x :: rest) assign n stack
          = addToStackLoop 3 layer p rest a m ((x, p) :: stack) → a = false →
        (addToStackLoop 3 layer p (x :: rest) assign n stack).broke = false ∧
        (∃ pushed, (addToStackLoop 3 layer p (x :: rest) assign n stack).stack
            = pushed ++ stack ∧
          (∀ y ∈ pushed, y.2 = p ∧ y.1 ∈ x :: rest) ∧
          ∀ z ∈ x :: rest, resolvedAt layer z ∨ (z, p) ∈ pushed) ∧
        ((addToStackLoop 3 layer p (x :: rest) assign n stack).assign = true →
          assign = true ∧ (∀ z ∈ x :: rest, resolvedAt layer z) ∧
          (((addToStackLoop 3 layer p (x :: rest) assign n stack).numpaths : Nat) : Int)
            = ((n : Int) + pairSum layer (x :: rest)) % u64) := by
      intro a m hm _ heq ha
      obtain ⟨h1, ⟨pushed, h2, h3, h4⟩, h5⟩ := ih a m ((x, p) :: stack) hm
      rw [heq]
      refine ⟨h1, ⟨pushed ++ [(x, p)], by simp [h2], ?_, ?_⟩, ?_⟩
      · intro y hy
        rcases List.mem_append.1 hy with hy | hy
        · exact ⟨(h3 y hy).1, List.mem_cons_of_mem _ (h3 y hy).2⟩
        · simp only [List.mem_singleton] at hy
          subst hy
          exact ⟨rfl, List.mem_cons_self _ _⟩
      · intro z hz
        rcases List.mem_cons.1 hz with hz | hz
        · subst hz
          exact Or.inr (List.mem_append_right _ (List.mem_singleton.2 rfl))
        · rcases h4 z hz with h | h
          · exact Or.inl h
          · exact Or.inr (List.mem_append_left _ h)
      · intro hassign
        have := (h5 hassign).1
        rw [ha] at this
        exact absurd this (by simp)
    unfold addToStackLoop
    split
    · next pathsT pathsF hT hF =>
      rw [if_neg (by omega)]
      split
      · next hpend =>
        have hnr : ¬ resolvedAt layer x := by
          rintro ⟨t, f, h1, h2, h3, h4⟩
          rw [hT] at h1; rw [hF] at h2
          simp only [Option.some.injEq] at h1 h2
          subst h1 h2
          rcases hpend with h | h
          · exact h3 h
          · exact h4 h
        have := hpush false n hn hnr (by
          conv_lhs => unfold addToStackLoop
          simp only [hT, hF]
          rw [if_neg (by omega), if_pos hpend]) rfl
        unfold addToStackLoop at this
        simp only [hT, hF] at this
        rw [if_neg (by omega), if_pos hpend] at this
        exact this
      · next hpend =>
        have hres : resolvedAt layer x :=
          ⟨pathsT, pathsF, hT, hF, fun h => hpend (Or.inl h), fun h => hpend (Or.inr h)⟩
        split
        · next ha =>
          obtain ⟨h1, ⟨pushed, h2, h3, h4⟩, h5⟩ :=
            ih assign (addU64 n (pathsF + pathsT)) stack (addU64_lt _ _)
          refine ⟨h1, ⟨pushed, h2, ?_, ?_⟩, ?_⟩
          · intro y hy
            exact ⟨(h3 y hy).1, List.mem_cons_of_mem _ (h3 y hy).2⟩
          · intro z hz
            rcases List.mem_cons.1 hz with hz | hz
            · subst hz; exact Or.inl hres
            · exact h4 z hz
          · intro hassign
            obtain ⟨h6, h7, h8⟩ := h5 hassign
            refine ⟨h6, ?_, ?_⟩
            · intro z hz
              rcases List.mem_cons.1 hz with hz | hz
              · subst hz; exact hres
              · exact h7 z hz
            · rw [h8, addU64_cast, Int.emod_add_emod, pairSum_cons, hT, hF]
              simp only [Option.getD_some]
              congr 1
              ring
        · next ha =>
          obtain ⟨h1, ⟨pushed, h2, h3, h4⟩, h5⟩ := ih assign n stack hn
          refine ⟨h1, ⟨pushed, h2, ?_, ?_⟩, ?_⟩
          · intro y hy
            exact ⟨(h3 y hy).1, List.mem_cons_of_mem _ (h3 y hy).2⟩
          · intro z hz
            rcases List.mem_cons.1 hz with hz | hz
            · subst hz; exact Or.inl hres
            · exact h4 z hz
          · intro hassign
            exact absurd (h5 hassign).1 ha
    · next hmiss =>
      have hnr : ¬ resolvedAt layer x := by
        rintro ⟨t, f, h1, h2, _, _⟩
        exact hmiss t f h1 h2
      have := hpush false n hn hnr (by
        conv_lhs => unfold addToStackLoop
        split
        · next t f h1 h2 => exact absurd h2 (by intro h; exact hmiss t f h1 h)
        · rfl) rfl
      unfold addToStackLoop at this
      split at this
      · next t f h1 h2 => exact absurd h2 (by intro h; exact hmiss t f h1 h)
      · exact this

theorem sumLoop_three (layer : pathElementMap) (outs : List Nat) (n : Nat) (hn : n < u64)
    (hpres : ∀ x ∈ outs, mapFind layer (x, true) ≠ none ∧ mapFind layer (x, false) ≠ none) :
    (sumLoop 3 layer outs n = .pending ∧ ∃ x ∈ outs, ¬ resolvedAt layer x) ∨
      ∃ m, sumLoop 3 layer outs n = .total m ∧
        ((m : Nat) : Int) = ((n : Int) + pairSum layer outs) % u64 ∧
        ∀ x ∈ outs, resolvedAt layer x := by
  induction outs generalizing n with
  | nil =>
    right
    refine ⟨n, rfl, ?_, by simp⟩
    simp only [pairSum, List.map_nil, List.sum_nil, add_zero]
    rw [Int.emod_eq_of_lt (by omega) (by exact_mod_cast hn)]
  | cons x rest ih =>
    have hrest : ∀ z ∈ rest, mapFind layer (z, true) ≠ none ∧ mapFind layer (z, false) ≠ none :=
      fun z hz => hpres z (List.mem_cons_of_mem _ hz)
    unfold sumLoop
    split
    · next t f hT hF =>
      rw [if_neg (by omega)]
      split
      · next hpend =>
        left
        refine ⟨rfl, x, List.mem_cons_self _ _, ?_⟩
        rintro ⟨t2, f2, h1, h2, h3, h4⟩
        rw [hT] at h1; rw [hF] at h2
        simp only [Option.some.injEq] at h1 h2
        subst h1 h2
        rcases hpend with h | h
        · exact h3 h
        · exact h4 h
      · next hpend =>
        have hres : resolvedAt layer x :=
          ⟨t, f, hT, hF, fun h => hpend (Or.inl h), fun h => hpend (Or.inr h)⟩
        rcases ih (addU64 n (t + f)) (addU64_lt _ _) hrest with ⟨h1, z, hz, h2⟩ | ⟨m, h1, h2, h3⟩
        · left
          exact ⟨h1, z, List.mem_cons_of_mem _ hz, h2⟩
        · right
          refine ⟨m, h1, ?_, ?_⟩
          · rw [h2, addU64_cast, Int.emod_add_emod, pairSum_cons, hT, hF]
            simp only [Option.getD_some]
            congr 1
            ring
          · intro z hz
            rcases List.mem_cons.1 hz with hz | hz
            · subst hz; exact hres
            · exact h3 z hz
    · next hmiss =>
      exfalso
      have hp := hpres x (List.mem_cons_self _ _)
      cases hT : mapFind layer (x, true) with
      | none => exact hp.1 hT
      | some t =>
        cases hF : mapFind layer (x, false) with
        | none => exact hp.2 hF
        | some f => exact hmiss t f hT hF

theorem entryOk_settled {wallgraph : wallgraphvector} {pattern : patternvector}
    {V : Nat → Nat → Bool → Int} {w r : Nat} {flag : Bool} {v : Int}
    (h : EntryOk wallgraph pattern V w r flag v) (hv : v ≠ -1) : v = V w r flag := by
  rcases h with h | h
  · exact h
  · exact absurd h.1 hv

theorem pairSum_values {wallgraph : wallgraphvector} {pattern : patternvector}
    {V : Nat → Nat → Bool → Int} {keepcount : memoize}
    (hs : StoreOk wallgraph pattern V keepcount) (p : Nat) (outs : List Nat)
    (hres : ∀ x ∈ outs, resolvedAt (layerAt keepcount p) x) :
    pairSum (layerAt keepcount p) outs = (outs.map (fun x => V x p true + V x p false)).sum := by
  induction outs with
  | nil => simp [pairSum]
  | cons x rest ih =>
    obtain ⟨t, f, hT, hF, ht, hf⟩ := hres x (List.mem_cons_self _ _)
    have h1 := entryOk_settled (hs.entries p x true t hT).2 ht
    have h2 := entryOk_settled (hs.entries p x false f hF).2 hf
    have h3 := ih (fun z hz => hres z (List.mem_cons_of_mem _ hz))
    rw [pairSum_cons, hT, hF, h3]
    simp only [Option.getD_some, List.map_cons, List.sum_cons]
    rw [h1, h2]

theorem combine_resolved {wallgraph : wallgraphvector} {pattern : patternvector}
    {V : Nat → Nat → Bool → Int} {keepcount : memoize}
    (hs : StoreOk wallgraph pattern V keepcount) (p : Nat) (outs : List Nat)
    (hres : ∀ x ∈ outs, resolvedAt (layerAt keepcount p) x) :
    combine (fun x => V x p true) (fun x => V x p false) outs
      = toInt64 ((pairSum (layerAt keepcount p) outs % (u64 : Int)).toNat) := by
  unfold combine
  rw [if_neg, pairSum_values hs p outs hres]
  intro hany
  rw [List.any_eq_true] at hany
  obtain ⟨x, hx, hc⟩ := hany
  obtain ⟨t, f, hT, hF, ht, hf⟩ := hres x hx
  have h1 := entryOk_settled (hs.entries p x true t hT).2 ht
  have h2 := entryOk_settled (hs.entries p x false f hF).2 hf
  simp only [Bool.or_eq_true, decide_eq_true_eq] at hc
  rcases hc with hc | hc
  · exact ht (by rw [h1, hc])
  · exact hf (by rw [h2, hc])

theorem resolved_in_range {wallgraph : wallgraphvector} {pattern : patternvector}
    {V : Nat → Nat → Bool → Int} {keepcount : memoize}
    (hs : StoreOk wallgraph pattern V keepcount) {p x : Nat}
    (hres : resolvedAt (layerAt keepcount p) x) : x < wallgraph.length := by
  obtain ⟨t, f, hT, _, _, _⟩ := hres
  exact (hs.entries p x true t hT).1.2.2

theorem settled_value {wallgraph : wallgraphvector} {pattern : patternvector}
    {V : Nat → Nat → Bool → Int} {keepcount : memoize}
    (hs : StoreOk wallgraph pattern V keepcount) (p : Nat) (outs : List Nat)
    (hres : ∀ x ∈ outs, resolvedAt (layerAt keepcount p) x) {m : Nat}
    (hm : ((m : Nat) : Int) = ((0 : Nat) + pairSum (layerAt keepcount p) outs) % u64) :
    toInt64 m = combine (fun x => V x p true) (fun x => V x p false) outs := by
  rw [combine_resolved hs p outs hres]
  congr 1
  simp only [Nat.cast_zero, zero_add] at hm
  rw [← hm]
  simp

/-! ## The recurrences read on the settled values -/

theorem val_top_false {wallgraph : wallgraphvector} {pattern : patternvector}
    {V : Nat → Nat → Bool → Int} (hV : Settles wallgraph pattern V) {w : Nat}
    (hw : w < wallgraph.length) : V w pattern.length false = 0 :=
  (hV w hw).2.1

theorem val_no_extremum {wallgraph : wallgraphvector} {pattern : patternvector}
    {V : Nat → Nat → Bool → Int} (hV : Settles wallgraph pattern V) {w r : Nat}
    (hw : w < wallgraph.length) (hr1 : 1 ≤ r) (hr2 : r ≤ pattern.length)
    (hm : extremumMatch wallgraph pattern w r = false) : V w r true = 0 := by
  by_cases h1 : r = 1
  · subst h1
    rw [(hV w hw).1, hm]; simp
  · obtain ⟨q, rfl⟩ : ∃ q, r = q + 1 := ⟨r - 1, by omega⟩
    exact ((hV w hw).2.2 q (by omega) (by omega)).1 hm

theorem val_no_intermediate {wallgraph : wallgraphvector} {pattern : patternvector}
    {V : Nat → Nat → Bool → Int} (hV : Settles wallgraph pattern V) {w r : Nat}
    (hw : w < wallgraph.length) (hr1 : 1 ≤ r) (hr2 : r ≤ pattern.length)
    (hm : intermediateMatch wallgraph pattern w r = false) : V w r false = 0 := by
  by_cases h1 : r = pattern.length
  · subst h1
    exact val_top_false hV hw
  · exact ((hV w hw).2.2 r hr1 (by omega)).2.1 hm

theorem val_leaf {wallgraph : wallgraphvector} {pattern : patternvector}
    {V : Nat → Nat → Bool → Int} (hV : Settles wallgraph pattern V) {w : Nat}
    (hw : w < wallgraph.length) (hm : extremumMatch wallgraph pattern w 1 = true) :
    V w 1 true = 1 := by
  rw [(hV w hw).1, hm]; simp

theorem val_leaf_cases {wallgraph : wallgraphvector} {pattern : patternvector}
    {V : Nat → Nat → Bool → Int} (hV : Settles wallgraph pattern V) {w : Nat}
    (hw : w < wallgraph.length) : V w 1 true = 0 ∨ V w 1 true = 1 := by
  rw [(hV w hw).1]
  split
  · exact Or.inr rfl
  · exact Or.inl rfl

theorem val_intermediate {wallgraph : wallgraphvector} {pattern : patternvector}
    {V : Nat → Nat → Bool → Int} (hV : Settles wallgraph pattern V) {w r : Nat}
    (hw : w < wallgraph.length) (hr1 : 1 ≤ r) (hr2 : r < pattern.length)
    (hm : intermediateMatch wallgraph pattern w r = true)
    (hout : ∀ x ∈ outedgesOf wallgraph w, x < wallgraph.length) :
    V w r false
      = combine (fun x => V x r true) (fun x => V x r false) (outedgesOf wallgraph w) :=
  (((hV w hw).2.2 r hr1 hr2).2.2 hout).2 hm

theorem val_extremum {wallgraph : wallgraphvector} {pattern : patternvector}
    {V : Nat → Nat → Bool → Int} (hV : Settles wallgraph pattern V) {w r : Nat}
    (hw : w < wallgraph.length) (hr1 : 2 ≤ r) (hr2 : r ≤ pattern.length)
    (hm : extremumMatch wallgraph pattern w r = true)
    (hout : ∀ x ∈ outedgesOf wallgraph w, x < wallgraph.length) :
    V w r true
      = combine (fun x => V x (r - 1) true) (fun x => V x (r - 1) false)
          (outedgesOf wallgraph w) := by
  obtain ⟨q, rfl⟩ : ∃ q, r = q + 1 := ⟨r - 1, by omega⟩
  simp only [Nat.add_sub_cancel]
  exact (((hV w hw).2.2 q (by omega) (by omega)).2.2 hout).1 hm

theorem entryOk_match {wallgraph : wallgraphvector} {pattern : patternvector}
    {V : Nat → Nat → Bool → Int} (hV : Settles wallgraph pattern V) {w r : Nat}
    (hw : w < wallgraph.length) (hr1 : 1 ≤ r) (hr2 : r ≤ pattern.length) {flag : Bool}
    {v : Int} (h : EntryOk wallgraph pattern V w r flag v) (hv : v ≠ 0) :
    if flag = true then extremumMatch wallgraph pattern w r = true
    else (intermediateMatch wallgraph pattern w r = true ∧ r < pattern.length) := by
  rcases h with h | h
  · cases flag with
    | true =>
      simp only [if_true]
      by_contra hne
      exact hv (by rw [h, val_no_extremum hV hw hr1 hr2 (by simpa using hne)])
    | false =>
      simp only [Bool.false_eq_true, if_false]
      constructor
      · by_contra hne
        exact hv (by rw [h, val_no_intermediate hV hw hr1 hr2 (by simpa using hne)])
      · by_contra hne
        have he : r = pattern.length := by omega
        subst he
        exact hv (by rw [h, val_top_false hV hw])
  · exact h.2

theorem entryOk_pending {wallgraph : wallgraphvector} {pattern : patternvector}
    {V : Nat → Nat → Bool → Int} (hV : Settles wallgraph pattern V) {w r : Nat}
    (hw : w < wallgraph.length) (hr1 : 1 ≤ r) (hr2 : r ≤ pattern.length) {flag : Bool}
    (h : EntryOk wallgraph pattern V w r flag (-1)) :
    if flag = true then extremumMatch wallgraph pattern w r = true
    else (intermediateMatch wallgraph pattern w r = true ∧ r < pattern.length) :=
  entryOk_match hV hw hr1 hr2 h (by decide)

/-! ## One turn of the mode-3 search keeps the invariant -/

theorem searchInv_pop {wallgraph : wallgraphvector} {pattern : patternvector}
    {V : Nat → Nat → Bool → Int} {w r : Nat} {S C : List node} {K K2 : memoize}
    (hinv : SearchInv wallgraph pattern V ((w, r) :: S) K)
    (hstore : StoreOk wallgraph pattern V K2)
    (hframe : ∀ r2 w2 flag, (r2 ≠ r ∨ w2 ≠ w) →
      mapFind (layerAt K2 r2) (w2, flag) = mapFind (layerAt K r2) (w2, flag))
    (hpresent : presentAt K2 r w)
    (hstack : ∀ n ∈ C, 1 ≤ n.2 ∧ n.2 ≤ pattern.length)
    (hleaf : r = 1 → mapFind (layerAt K2 1) (w, true) ≠ some (-1))
    (hownF : ∀ v, mapFind (layerAt K2 r) (w, false) = some v → v ≤ -1 →
      ∀ x ∈ outedgesOf wallgraph w, presentAt K2 r x ∨ (x, r) ∈ C ∨
        (∃ v0, mapFind (layerAt K r) (w, false) = some v0 ∧ v0 ≤ -1))
    (hownT : mapFind (layerAt K2 r) (w, true) = some (-1) →
      ∀ x ∈ outedgesOf wallgraph w, presentAt K2 (r - 1) x ∨ (x, r - 1) ∈ C ∨
        mapFind (layerAt K r) (w, true) = some (-1)) :
    SearchInv wallgraph pattern V (C ++ S) K2 := by
  have hmono : ∀ r2 x, presentAt K r2 x → presentAt K2 r2 x := by
    intro r2 x hp
    by_cases hk : r2 = r ∧ x = w
    · rw [hk.1, hk.2]; exact hpresent
    · have hne : r2 ≠ r ∨ x ≠ w := by
        by_cases h1 : r2 = r
        · exact Or.inr (fun h2 => hk ⟨h1, h2⟩)
        · exact Or.inl h1
      exact ⟨by rw [hframe r2 x true hne]; exact hp.1, by rw [hframe r2 x false hne]; exact hp.2⟩
  have hold : ∀ r2 x, (presentAt K r2 x ∨ (x, r2) ∈ (w, r) :: S) →
      (presentAt K2 r2 x ∨ (x, r2) ∈ C ++ S) := by
    intro r2 x h
    rcases h with h | h
    · exact Or.inl (hmono r2 x h)
    · rcases List.mem_cons.1 h with h | h
      · simp only [Prod.mk.injEq] at h
        rw [h.1, h.2]
        exact Or.inl hpresent
      · exact Or.inr (List.mem_append_right _ h)
  refine ⟨hstore, ?_, ?_, ?_, ?_, ?_⟩
  · intro n hn
    rcases List.mem_append.1 hn with hn | hn
    · exact hstack n hn
    · exact hinv.stack n (List.mem_cons_of_mem _ hn)
  · intro w2
    by_cases hk : r = 1 ∧ w2 = w
    · rw [hk.2]; exact hleaf hk.1
    · have hne : 1 ≠ r ∨ w2 ≠ w := by
        by_cases h1 : r = 1
        · exact Or.inr (fun h2 => hk ⟨h1, h2⟩)
        · exact Or.inl (fun h => h1 h.symm)
      rw [hframe 1 w2 true hne]
      exact hinv.leaves w2
  · intro r2 w2 v hp hv x hx
    by_cases hk : r2 = r ∧ w2 = w
    · obtain ⟨h1, h2⟩ := hk
      subst h1 h2
      rcases hownF v hp hv x hx with h | h | ⟨v0, h, hv0⟩
      · exact Or.inl h
      · exact Or.inr (List.mem_append_left _ h)
      · exact hold r2 x (hinv.closureF r2 w2 v0 h hv0 x hx)
    · have hne : r2 ≠ r ∨ w2 ≠ w := by
        by_cases h1 : r2 = r
        · exact Or.inr (fun h2 => hk ⟨h1, h2⟩)
        · exact Or.inl h1
      rw [hframe r2 w2 false hne] at hp
      exact hold r2 x (hinv.closureF r2 w2 v hp hv x hx)
  · intro r2 w2 hp x hx
    by_cases hk : r2 = r ∧ w2 = w
    · obtain ⟨h1, h2⟩ := hk
      subst h1 h2
      rcases hownT hp x hx with h | h | h
      · exact Or.inl h
      · exact Or.inr (List.mem_append_left _ h)
      · exact hold (r2 - 1) x (hinv.closureT r2 w2 h x hx)
    · have hne : r2 ≠ r ∨ w2 ≠ w := by
        by_cases h1 : r2 = r
        · exact Or.inr (fun h2 => hk ⟨h1, h2⟩)
        · exact Or.inl h1
      rw [hframe r2 w2 true hne] at hp
      exact hold (r2 - 1) x (hinv.closureT r2 w2 hp x hx)
  · intro w2 hw2
    exact hold pattern.length w2 (hinv.cover w2 hw2)

theorem addToStack_three {wallgraph : wallgraphvector} {w : Nat} {ws : wallStruct}
    (hws : wallgraph[w]? = some ws) (flag : Bool) (p r : Nat) (K : memoize) (S : List node) :
    ∃ pushed K2, _addToStack wallgraph flag p (w, r) 3 K S = .value (K2, pushed ++ S) ∧
      (∀ y ∈ pushed, y.2 = p ∧ y.1 ∈ ws.outedges) ∧
      (∀ x ∈ ws.outedges, resolvedAt (layerAt K p) x ∨ (x, p) ∈ pushed) ∧
      (K2 = K ∨ ∃ m : Nat, K2 = setEntry K r (w, flag) (toInt64 m) ∧
        (∀ x ∈ ws.outedges, resolvedAt (layerAt K p) x) ∧
        ((m : Nat) : Int) = (((0 : Nat) : Int) + pairSum (layerAt K p) ws.outedges) % u64) := by
  obtain ⟨h1, ⟨pushed, h2, h3, h4⟩, h5⟩ :=
    addToStackLoop_three (layerAt K p) p ws.outedges true 0 S (by unfold u64; norm_num)
  unfold _addToStack
  simp only [hws]
  rw [if_neg (by rw [h1]; simp)]
  split
  · next hassign =>
    obtain ⟨_, h6, h7⟩ := h5 hassign.2
    exact ⟨pushed, _, by rw [h2], h3, h4, Or.inr ⟨_, rfl, h6, h7⟩⟩
  · exact ⟨pushed, K, by rw [h2], h3, h4, Or.inl rfl⟩

theorem assignPlaceholders_three {wallgraph : wallgraphvector} {pattern : patternvector}
    {V : Nat → Nat → Bool → Int} (hV : Settles wallgraph pattern V) {w r : Nat} {K : memoize}
    (hs : StoreOk wallgraph pattern V K) (hw : w < wallgraph.length) (hr1 : 1 ≤ r)
    (hr2 : r ≤ pattern.length)
    (hsome : ¬ (extremumMatch wallgraph pattern w r = false ∧
      intermediateMatch wallgraph pattern w r = false)) :
    StoreOk wallgraph pattern V
        (assignPlaceholders pattern.length (w, r) (extremumMatch wallgraph pattern w r)
          (intermediateMatch wallgraph pattern w r) K) ∧
      (∀ r2 w2 flag, (r2 ≠ r ∨ w2 ≠ w) →
        mapFind (layerAt (assignPlaceholders pattern.length (w, r)
            (extremumMatch wallgraph pattern w r)
            (intermediateMatch wallgraph pattern w r) K) r2) (w2, flag)
          = mapFind (layerAt K r2) (w2, flag)) ∧
      presentAt (assignPlaceholders pattern.length (w, r) (extremumMatch wallgraph pattern w r)
        (intermediateMatch wallgraph pattern w r) K) r w := by
  have hrlt : r < K.length := by rw [hs.len]; omega
  -- what every stage keeps: a valid store that differs from `K` only at `(r, w)`
  have hstage : ∀ (K1 : memoize) (flag : Bool) (v : Int),
      (StoreOk wallgraph pattern V K1 ∧ ∀ r2 w2 flag2, (r2 ≠ r ∨ w2 ≠ w) →
        mapFind (layerAt K1 r2) (w2, flag2) = mapFind (layerAt K r2) (w2, flag2)) →
      EntryOk wallgraph pattern V w r flag v →
      (StoreOk wallgraph pattern V (setEntry K1 r (w, flag) v) ∧
        ∀ r2 w2 flag2, (r2 ≠ r ∨ w2 ≠ w) →
          mapFind (layerAt (setEntry K1 r (w, flag) v) r2) (w2, flag2)
            = mapFind (layerAt K r2) (w2, flag2)) := by
    intro K1 flag v hq hv
    refine ⟨storeOk_setEntry hq.1 hr1 hr2 hw hv, ?_⟩
    intro r2 w2 flag2 hne
    rw [entry_setEntry_other v (by
      rcases hne with h | h
      · exact Or.inl h
      · exact Or.inr (by intro heq; simp only [Prod.mk.injEq] at heq; exact h heq.1))]
    exact hq.2 r2 w2 flag2 hne
  have hF0 : intermediateMatch wallgraph pattern w r = false →
      EntryOk wallgraph pattern V w r false 0 := by
    intro hm
    left
    rw [val_no_intermediate hV hw hr1 hr2 hm]
  have hT0 : extremumMatch wallgraph pattern w r = false →
      EntryOk wallgraph pattern V w r true 0 := by
    intro hm
    left
    rw [val_no_extremum hV hw hr1 hr2 hm]
  have hFtop : r = pattern.length → EntryOk wallgraph pattern V w r false 0 := by
    intro hm
    left
    rw [hm, val_top_false hV hw]
  obtain ⟨k1, hk1⟩ : ∃ k1, k1 =
      (if intermediateMatch wallgraph pattern w r = false then setEntry K r (w, false) 0
       else if extremumMatch wallgraph pattern w r = false then setEntry K r (w, true) 0
       else K) := ⟨_, rfl⟩
  obtain ⟨k2, hk2⟩ : ∃ k2, k2 =
      (if intermediateMatch wallgraph pattern w r = true ∧ r = pattern.length then
        setEntry k1 r (w, false) 0 else k1) := ⟨_, rfl⟩
  obtain ⟨k3, hk3⟩ : ∃ k3, k3 =
      (if mapFind (layerAt k2 r) (w, true) = none then setEntry k2 r (w, true) (-1) else k2) :=
    ⟨_, rfl⟩
  obtain ⟨k4, hk4⟩ : ∃ k4, k4 =
      (if mapFind (layerAt k3 r) (w, false) = none then setEntry k3 r (w, false) (-1) else k3) :=
    ⟨_, rfl⟩
  have hfinal : assignPlaceholders pattern.length (w, r) (extremumMatch wallgraph pattern w r)
      (intermediateMatch wallgraph pattern w r) K = k4 := by
    subst hk1 hk2 hk3 hk4
    rfl
  rw [hfinal]
  have hlen1 : k1.length = K.length := by
    rw [hk1]; split
    · exact length_setEntry _ _ _ _
    · split
      · exact length_setEntry _ _ _ _
      · rfl
  have hlen2 : k2.length = K.length := by
    rw [hk2]; split
    · rw [length_setEntry]; exact hlen1
    · exact hlen1
  have hlen3 : k3.length = K.length := by
    rw [hk3]; split
    · rw [length_setEntry]; exact hlen2
    · exact hlen2
  -- stage 1
  have h1 : (StoreOk wallgraph pattern V k1 ∧ ∀ r2 w2 flag2, (r2 ≠ r ∨ w2 ≠ w) →
        mapFind (layerAt k1 r2) (w2, flag2) = mapFind (layerAt K r2) (w2, flag2)) ∧
      (intermediateMatch wallgraph pattern w r = false →
        mapFind (layerAt k1 r) (w, false) ≠ none) ∧
      (extremumMatch wallgraph pattern w r = false →
        mapFind (layerAt k1 r) (w, true) ≠ none) := by
    rw [hk1]
    split
    · next hi =>
      refine ⟨hstage K false 0 ⟨hs, fun _ _ _ _ => rfl⟩ (hF0 hi), ?_, ?_⟩
      · intro _
        rw [entry_setEntry_self _ _ hrlt]; simp
      · intro he
        exact absurd ⟨he, hi⟩ hsome
    · next hi =>
      split
      · next he =>
        refine ⟨hstage K true 0 ⟨hs, fun _ _ _ _ => rfl⟩ (hT0 he), ?_, ?_⟩
        · intro h; exact absurd h hi
        · intro _
          rw [entry_setEntry_self _ _ hrlt]; simp
      · next he =>
        exact ⟨⟨hs, fun _ _ _ _ => rfl⟩, fun h => absurd h hi, fun h => absurd h he⟩
  -- stage 2
  have h2 : (StoreOk wallgraph pattern V k2 ∧ ∀ r2 w2 flag2, (r2 ≠ r ∨ w2 ≠ w) →
        mapFind (layerAt k2 r2) (w2, flag2) = mapFind (layerAt K r2) (w2, flag2)) ∧
      ((intermediateMatch wallgraph pattern w r = false ∨ r = pattern.length) →
        mapFind (layerAt k2 r) (w, false) ≠ none) ∧
      (extremumMatch wallgraph pattern w r = false →
        mapFind (layerAt k2 r) (w, true) ≠ none) := by
    rw [hk2]
    split
    · next hc =>
      refine ⟨hstage k1 false 0 h1.1 (hFtop hc.2), ?_, ?_⟩
      · intro _
        rw [entry_setEntry_self _ _ (by rw [hlen1]; exact hrlt)]; simp
      · intro he
        exact entry_setEntry_ne_none _ (h1.2.2 he)
    · next hc =>
      refine ⟨h1.1, ?_, h1.2.2⟩
      intro h
      rcases h with h | h
      · exact h1.2.1 h
      · by_cases hi : intermediateMatch wallgraph pattern w r = false
        · exact h1.2.1 hi
        · exact absurd ⟨by simpa using hi, h⟩ hc
  -- stage 3
  have h3 : (StoreOk wallgraph pattern V k3 ∧ ∀ r2 w2 flag2, (r2 ≠ r ∨ w2 ≠ w) →
        mapFind (layerAt k3 r2) (w2, flag2) = mapFind (layerAt K r2) (w2, flag2)) ∧
      ((intermediateMatch wallgraph pattern w r = false ∨ r = pattern.length) →
        mapFind (layerAt k3 r) (w, false) ≠ none) ∧
      mapFind (layerAt k3 r) (w, true) ≠ none := by
    rw [hk3]
    split
    · next hc =>
      have he : extremumMatch wallgraph pattern w r = true := by
        by_contra hne
        exact h2.2.2 (by simpa using hne) hc
      refine ⟨hstage k2 true (-1) h2.1 (Or.inr ⟨rfl, by simpa using he⟩), ?_, ?_⟩
      · intro h
        exact entry_setEntry_ne_none _ (h2.2.1 h)
      · rw [entry_setEntry_self _ _ (by rw [hlen2]; exact hrlt)]; simp
    · next hc => exact ⟨h2.1, h2.2.1, hc⟩
  -- stage 4
  rw [hk4]
  split
  · next hc =>
    have hi : intermediateMatch wallgraph pattern w r = true := by
      by_contra hne
      exact h3.2.1 (Or.inl (by simpa using hne)) hc
    have hrn : r < pattern.length := by
      by_contra hne
      exact h3.2.1 (Or.inr (by omega)) hc
    have h4 := hstage k3 false (-1) h3.1 (Or.inr ⟨rfl, by simp [hi, hrn]⟩)
    refine ⟨h4.1, h4.2, entry_setEntry_ne_none _ h3.2.2, ?_⟩
    rw [entry_setEntry_self _ _ (by rw [hlen3]; exact hrlt)]; simp
  · next hc => exact ⟨h3.1.1, h3.1.2, h3.2.2, hc⟩

/-! ## The values left by the assignments of a turn -/

theorem entry_setEntry_ite {K : memoize} {r : Nat} (key : keypair) (v : Int)
    (hr : r < K.length) (r2 : Nat) (key2 : keypair) :
    mapFind (layerAt (setEntry K r key v) r2) key2
      = if r2 = r ∧ key2 = key then some v else mapFind (layerAt K r2) key2 := by
  by_cases h : r2 = r ∧ key2 = key
  · rw [if_pos h, h.1, h.2]
    exact entry_setEntry_self key v hr
  · rw [if_neg h]
    apply entry_setEntry_other
    by_cases h1 : r2 = r
    · exact Or.inr (fun h2 => h ⟨h1, h2⟩)
    · exact Or.inl h1

theorem find_ite_setEntry (c : Prop) [Decidable c] (K1 : memoize) (r : Nat) (key : keypair)
    (v : Int) (hr : r < K1.length) (r2 : Nat) (key2 : keypair) :
    mapFind (layerAt (if c then setEntry K1 r key v else K1) r2) key2
      = if c ∧ r2 = r ∧ key2 = key then some v else mapFind (layerAt K1 r2) key2 := by
  by_cases hc : c
  · rw [if_pos hc, entry_setEntry_ite key v hr]
    simp only [hc, true_and]
  · rw [if_neg hc, if_neg (fun h => hc h.1)]

theorem length_ite_setEntry (c : Prop) [Decidable c] (K1 : memoize) (r : Nat) (key : keypair)
    (v : Int) : (if c then setEntry K1 r key v else K1).length = K1.length := by
  split
  · exact length_setEntry _ _ _ _
  · rfl

theorem assignPlaceholders_values (N w r : Nat) (ext int : Bool) (K : memoize)
    (hr : r < K.length) (hsome : ¬ (ext = false ∧ int = false)) :
    (assignPlaceholders N (w, r) ext int K).length = K.length ∧
      (∀ r2 key, (r2 ≠ r ∨ key.1 ≠ w) →
        mapFind (layerAt (assignPlaceholders N (w, r) ext int K) r2) key
          = mapFind (layerAt K r2) key) ∧
      mapFind (layerAt (assignPlaceholders N (w, r) ext int K) r) (w, true)
        = some (assignedValue ext false (mapFind (layerAt K r) (w, true))) ∧
      mapFind (layerAt (assignPlaceholders N (w, r) ext int K) r) (w, false)
        = some (assignedValue int (decide (r = N)) (mapFind (layerAt K r) (w, false))) := by
  obtain ⟨k1, hk1⟩ : ∃ k1, k1 =
      (if int = false then setEntry K r (w, false) 0
       else if ext = false then setEntry K r (w, true) 0
       else K) := ⟨_, rfl⟩
  obtain ⟨k2, hk2⟩ : ∃ k2, k2 =
      (if int = true ∧ r = N then setEntry k1 r (w, false) 0 else k1) := ⟨_, rfl⟩
  obtain ⟨k3, hk3⟩ : ∃ k3, k3 =
      (if mapFind (layerAt k2 r) (w, true) = none then setEntry k2 r (w, true) (-1) else k2) :=
    ⟨_, rfl⟩
  obtain ⟨k4, hk4⟩ : ∃ k4, k4 =
      (if mapFind (layerAt k3 r) (w, false) = none then setEntry k3 r (w, false) (-1) else k3) :=
    ⟨_, rfl⟩
  have hfinal : assignPlaceholders N (w, r) ext int K = k4 := by
    subst hk1 hk2 hk3 hk4
    rfl
  rw [hfinal]
  have hlen1 : k1.length = K.length := by
    rw [hk1]; split
    · exact length_setEntry _ _ _ _
    · exact length_ite_setEntry _ _ _ _ _
  have hlen2 : k2.length = K.length := by
    rw [hk2, length_ite_setEntry]; exact hlen1
  have hlen3 : k3.length = K.length := by
    rw [hk3, length_ite_setEntry]; exact hlen2
  have hlen4 : k4.length = K.length := by
    rw [hk4, length_ite_setEntry]; exact hlen3
  have hf1 : ∀ r2 key2, mapFind (layerAt k1 r2) key2
      = if r2 = r ∧ key2 = (w, false) ∧ int = false then some 0
        else if r2 = r ∧ key2 = (w, true) ∧ int = true ∧ ext = false then some 0
        else mapFind (layerAt K r2) key2 := by
    intro r2 key2
    rw [hk1]
    cases int
    · simp only [if_true, entry_setEntry_ite _ _ hr, and_true, Bool.false_eq_true, false_and,
        and_false, if_false]
    · simp only [Bool.true_eq_false, if_false, find_ite_setEntry _ _ _ _ _ hr, and_false,
        true_and]
      by_cases h : ext = false ∧ r2 = r ∧ key2 = (w, true)
      · rw [if_pos h, if_pos ⟨h.2.1, h.2.2, h.1⟩]
      · rw [if_neg h, if_neg (fun h2 => h ⟨h2.2.2, h2.1, h2.2.1⟩)]
  have hf2 : ∀ r2 key2, mapFind (layerAt k2 r2) key2
      = if (int = true ∧ r = N) ∧ r2 = r ∧ key2 = (w, false) then some 0
        else mapFind (layerAt k1 r2) key2 := by
    intro r2 key2
    rw [hk2, find_ite_setEntry _ _ _ _ _ (by rw [hlen1]; exact hr)]
  have hf3 : ∀ r2 key2, mapFind (layerAt k3 r2) key2
      = if mapFind (layerAt k2 r) (w, true) = none ∧ r2 = r ∧ key2 = (w, true) then some (-1)
        else mapFind (layerAt k2 r2) key2 := by
    intro r2 key2
    rw [hk3, find_ite_setEntry _ _ _ _ _ (by rw [hlen2]; exact hr)]
  have hf4 : ∀ r2 key2, mapFind (layerAt k4 r2) key2
      = if mapFind (layerAt k3 r) (w, false) = none ∧ r2 = r ∧ key2 = (w, false) then some (-1)
        else mapFind (layerAt k3 r2) key2 := by
    intro r2 key2
    rw [hk4, find_ite_setEntry _ _ _ _ _ (by rw [hlen3]; exact hr)]
  refine ⟨hlen4, ?_, ?_, ?_⟩
  · intro r2 key2 hne
    have hno : ∀ flag, ¬ (r2 = r ∧ key2 = (w, flag)) := by
      intro flag h
      rcases hne with h1 | h1
      · exact h1 h.1
      · exact h1 (by rw [h.2])
    rw [hf4, if_neg (fun h => hno false h.2), hf3, if_neg (fun h => hno true h.2), hf2,
      if_neg (fun h => hno false h.2), hf1, if_neg (fun h => hno false ⟨h.1, h.2.1⟩),
      if_neg (fun h => hno true ⟨h.1, h.2.1⟩)]
  · have hT2 : mapFind (layerAt k2 r) (w, true)
        = if int = true ∧ ext = false then some 0 else mapFind (layerAt K r) (w, true) := by
      rw [hf2, if_neg (by simp), hf1, if_neg (by simp)]
      simp only [true_and]
    rw [hf4, if_neg (by simp), hf3, hT2]
    unfold assignedValue
    cases ext <;> cases int <;> cases hT : mapFind (layerAt K r) (w, true) <;>
      simp at hsome ⊢
  · have hF3 : mapFind (layerAt k3 r) (w, false)
        = if int = false ∨ r = N then some 0 else mapFind (layerAt K r) (w, false) := by
      rw [hf3, if_neg (by simp), hf2, hf1]
      cases int <;> by_cases hN : r = N <;> simp [hN]
    rw [hf4, hF3]
    unfold assignedValue
    cases int <;> by_cases hN : r = N <;> cases hF : mapFind (layerAt K r) (w, false) <;>
      simp [hN]

theorem resolvedAt_present {K : memoize} {p x : Nat} (h : resolvedAt (layerAt K p) x) :
    presentAt K p x := by
  obtain ⟨t, f, h1, h2, _, _⟩ := h
  exact ⟨by rw [h1]; simp, by rw [h2]; simp⟩

theorem getElem_of_lt {wallgraph : wallgraphvector} {w : Nat} (hw : w < wallgraph.length) :
    ∃ ws, wallgraph[w]? = some ws :=
  ⟨wallgraph[w], List.getElem?_eq_getElem hw⟩

theorem lt_of_getElem {wallgraph : wallgraphvector} {w : Nat} {ws : wallStruct}
    (hws : wallgraph[w]? = some ws) : w < wallgraph.length := by
  rcases List.getElem?_eq_some_iff.1 hws with ⟨h, _⟩
  exact h

theorem addToStack_inv {wallgraph : wallgraphvector} {pattern : patternvector}
    {V : Nat → Nat → Bool → Int} (hV : Settles wallgraph pattern V)
    {w r : Nat} {ws : wallStruct} {K : memoize} (hs : StoreOk wallgraph pattern V K)
    (hws : wallgraph[w]? = some ws) (hr1 : 1 ≤ r) (hr2 : r ≤ pattern.length) (flag : Bool)
    (hpend : mapFind (layerAt K r) (w, flag) = some (-1)) (hflag : flag = true → 2 ≤ r)
    (S : List node) :
    ∃ pushed K2,
      _addToStack wallgraph flag (if flag = true then r - 1 else r) (w, r) 3 K S
        = .value (K2, pushed ++ S) ∧
      StoreOk wallgraph pattern V K2 ∧
      (∀ r2 key, (r2 ≠ r ∨ key ≠ (w, flag)) →
        mapFind (layerAt K2 r2) key = mapFind (layerAt K r2) key) ∧
      mapFind (layerAt K2 r) (w, flag) ≠ none ∧
      (∀ y ∈ pushed, y.2 = (if flag = true then r - 1 else r) ∧ y.1 ∈ outedgesOf wallgraph w) ∧
      (∀ x ∈ outedgesOf wallgraph w,
          presentAt K2 (if flag = true then r - 1 else r) x ∨
            (x, (if flag = true then r - 1 else r)) ∈ pushed) := by
  have hw := lt_of_getElem hws
  obtain ⟨pushed, K2, h1, h2, h3, h4⟩ :=
    addToStack_three hws flag (if flag = true then r - 1 else r) r K S
  have hout := outedgesOf_eq hws
  have hmatch := entryOk_pending hV hw hr1 hr2 (hs.entries r w flag (-1) hpend).2
  refine ⟨pushed, K2, h1, ?_⟩
  rcases h4 with h4 | ⟨m, h4, h5, h6⟩
  · subst h4
    refine ⟨hs, fun _ _ _ => rfl, by rw [hpend]; simp, by rw [hout]; exact h2, ?_⟩
    intro x hx
    rw [hout] at hx
    rcases h3 x hx with h | h
    · exact Or.inl (resolvedAt_present h)
    · exact Or.inr h
  · subst h4
    have hguard : ∀ x ∈ outedgesOf wallgraph w, x < wallgraph.length := by
      intro x hx
      rw [hout] at hx
      exact resolved_in_range hs (h5 x hx)
    have hok : EntryOk wallgraph pattern V w r flag (toInt64 m) := by
      left
      cases flag with
      | true =>
        simp only [if_true] at hmatch h5 h6
        rw [val_extremum hV hw (hflag rfl) hr2 hmatch hguard, hout]
        exact settled_value hs (r - 1) ws.outedges h5 h6
      | false =>
        simp only [Bool.false_eq_true, if_false] at hmatch h5 h6
        rw [val_intermediate hV hw hr1 hmatch.2 hmatch.1 hguard, hout]
        exact settled_value hs r ws.outedges h5 h6
    refine ⟨storeOk_setEntry hs hr1 hr2 hw hok, ?_, ?_, by rw [hout]; exact h2, ?_⟩
    · intro r2 key hne
      exact entry_setEntry_other _ hne
    · exact entry_setEntry_ne_none _ (by rw [hpend]; simp)
    · intro x hx
      rw [hout] at hx
      exact Or.inl (presentAt_setEntry _ _ (resolvedAt_present (h5 x hx)))

theorem extremumPart_three {wallgraph : wallgraphvector} {pattern : patternvector}
    {V : Nat → Nat → Bool → Int} (hV : Settles wallgraph pattern V)
    {w r : Nat} {ws : wallStruct} {K : memoize} (hs : StoreOk wallgraph pattern V K)
    (hws : wallgraph[w]? = some ws) (hr1 : 1 ≤ r) (hr2 : r ≤ pattern.length)
    (hT : mapFind (layerAt K r) (w, true) ≠ none) (S : List node) :
    ∃ pushed K2,
      extremumPart wallgraph 3 (w, r) S K = .next (pushed ++ S) K2 ∧
      StoreOk wallgraph pattern V K2 ∧
      (∀ r2 key, (r2 ≠ r ∨ key ≠ (w, true)) →
        mapFind (layerAt K2 r2) key = mapFind (layerAt K r2) key) ∧
      mapFind (layerAt K2 r) (w, true) ≠ none ∧
      (∀ y ∈ pushed, (y.2 + 1 = r ∧ 1 ≤ y.2) ∧ y.1 ∈ outedgesOf wallgraph w) ∧
      (mapFind (layerAt K2 r) (w, true) = some (-1) →
        ∀ x ∈ outedgesOf wallgraph w, presentAt K2 (r - 1) x ∨ (x, r - 1) ∈ pushed) ∧
      (mapFind (layerAt K r) (w, true) ≠ some (-1) → K2 = K) ∧
      (r = 1 → mapFind (layerAt K2 1) (w, true) ≠ some (-1)) := by
  have hw := lt_of_getElem hws
  unfold extremumPart
  simp only
  by_cases hpend : mapFind (layerAt K r) (w, true) = some (-1)
  · rw [if_pos hpend]
    by_cases hr : r > 1
    · rw [if_pos hr]
      obtain ⟨pushed, K2, h1, h2, h3, h4, h5, h6⟩ :=
        addToStack_inv hV hs hws hr1 hr2 true hpend (fun _ => hr) S
      simp only [if_true] at h1 h5 h6
      rw [h1]
      simp only
      rw [if_neg (by omega)]
      refine ⟨pushed, K2, rfl, h2, h3, h4, ?_, ?_, fun h => absurd hpend h, ?_⟩
      · intro y hy
        exact ⟨⟨by rw [(h5 y hy).1]; omega, by rw [(h5 y hy).1]; omega⟩, (h5 y hy).2⟩
      · intro _ x hx
        exact h6 x hx
      · intro h; omega
    · rw [if_neg hr, if_neg (by decide), if_neg (by decide)]
      have hr1' : r = 1 := by omega
      subst hr1'
      have hmatch := entryOk_pending hV hw hr1 hr2 (hs.entries 1 w true (-1) hpend).2
      simp only [if_true] at hmatch
      have hok : EntryOk wallgraph pattern V w 1 true 1 := by
        left
        rw [val_leaf hV hw hmatch]
      have hlen : 1 < K.length := by rw [hs.len]; omega
      refine ⟨[], _, rfl, storeOk_setEntry hs hr1 hr2 hw hok, ?_, ?_, by simp, ?_,
        fun h => absurd hpend h, ?_⟩
      · intro r2 key hne
        exact entry_setEntry_other _ hne
      · rw [entry_setEntry_self _ _ hlen]; simp
      · intro h
        rw [entry_setEntry_self _ _ hlen] at h
        simp at h
      · intro _
        rw [entry_setEntry_self _ _ hlen]
        simp
  · rw [if_neg hpend]
    refine ⟨[], K, rfl, hs, fun _ _ _ => rfl, hT, by simp, ?_, fun _ => rfl, ?_⟩
    · intro h
      exact absurd h hpend
    · intro h
      subst h
      exact hpend

theorem expandNode_three {wallgraph : wallgraphvector} {pattern : patternvector}
    {V : Nat → Nat → Bool → Int} (hV : Settles wallgraph pattern V) {w r : Nat}
    {S : List node} {K : memoize} {ws : wallStruct}
    (hinv : SearchInv wallgraph pattern V ((w, r) :: S) K)
    (hws : wallgraph[w]? = some ws)
    (hext : _checkForWordInLabels (pattern.getD (pattern.length - r) []) ws.labels
      = .value (extremumMatch wallgraph pattern w r))
    (hint : _checkForWordInLabels ((intermediatesOf pattern).getD (pattern.length - r) [])
      ws.labels = .value (intermediateMatch wallgraph pattern w r)) :
    ∃ C K2,
      expandNode wallgraph pattern (intermediatesOf pattern) pattern.length 3 (w, r) S K
        = .next (C ++ S) K2 ∧
      SearchInv wallgraph pattern V (C ++ S) K2 ∧
      ∀ c ∈ C, c.1 ∈ outedgesOf wallgraph w ∧ (c.2 = r ∨ c.2 + 1 = r) := by
  have hw := lt_of_getElem hws
  obtain ⟨hr1, hr2⟩ := hinv.stack (w, r) (List.mem_cons_self _ _)
  simp only at hr1 hr2
  have hrlt : r < K.length := by rw [hinv.store.len]; omega
  unfold expandNode
  simp only [hws, hext, hint]
  by_cases hboth : extremumMatch wallgraph pattern w r = false ∧
      intermediateMatch wallgraph pattern w r = false
  · rw [if_pos hboth]
    have hT0 : EntryOk wallgraph pattern V w r true 0 := by
      left
      rw [val_no_extremum hV hw hr1 hr2 hboth.1]
    have hF0 : EntryOk wallgraph pattern V w r false 0 := by
      left
      rw [val_no_intermediate hV hw hr1 hr2 hboth.2]
    have hs1 := storeOk_setEntry hinv.store hr1 hr2 hw hT0
    have hs2 := storeOk_setEntry hs1 hr1 hr2 hw hF0
    have hl1 : r < (setEntry K r (w, true) 0).length := by rw [length_setEntry]; exact hrlt
    have eT : mapFind (layerAt (setEntry (setEntry K r (w, true) 0) r (w, false) 0) r) (w, true)
        = some 0 := by
      rw [entry_setEntry_other _ (Or.inr (by simp)), entry_setEntry_self _ _ hrlt]
    have eF : mapFind (layerAt (setEntry (setEntry K r (w, true) 0) r (w, false) 0) r) (w, false)
        = some 0 := entry_setEntry_self _ _ hl1
    refine ⟨[], _, rfl, ?_, by simp⟩
    refine searchInv_pop hinv hs2 ?_ ⟨by rw [eT]; simp, by rw [eF]; simp⟩ (by simp) ?_ ?_ ?_
    · intro r2 w2 flag hne
      have hk : ∀ b : Bool, r2 ≠ r ∨ (w2, flag) ≠ (w, b) := by
        intro b
        rcases hne with h | h
        · exact Or.inl h
        · exact Or.inr (by intro heq; simp only [Prod.mk.injEq] at heq; exact h heq.1)
      rw [entry_setEntry_other _ (hk false), entry_setEntry_other _ (hk true)]
    · intro h1
      subst h1
      rw [eT]; simp
    · intro v h hv
      rw [eF] at h
      simp only [Option.some.injEq] at h
      omega
    · intro h; rw [eT] at h; simp at h
  · rw [if_neg hboth]
    obtain ⟨hs4, hfr4, hp4⟩ := assignPlaceholders_three hV hinv.store hw hr1 hr2 hboth
    have hval4 := (assignPlaceholders_values pattern.length w r
      (extremumMatch wallgraph pattern w r) (intermediateMatch wallgraph pattern w r) K hrlt
      hboth).2.2.2
    generalize assignPlaceholders pattern.length (w, r) (extremumMatch wallgraph pattern w r)
      (intermediateMatch wallgraph pattern w r) K = K4 at hs4 hfr4 hp4 hval4 ⊢
    -- what remains to be done once the intermediate block has run
    have hfinish : ∀ (pushed1 : List node) (K5 : memoize),
        StoreOk wallgraph pattern V K5 →
        (∀ r2 key, (r2 ≠ r ∨ key ≠ (w, false)) →
          mapFind (layerAt K5 r2) key = mapFind (layerAt K4 r2) key) →
        mapFind (layerAt K5 r) (w, false) ≠ none →
        (∀ y ∈ pushed1, y.2 = r ∧ y.1 ∈ outedgesOf wallgraph w) →
        (∀ v, mapFind (layerAt K5 r) (w, false) = some v → v ≤ -1 →
          ∀ x ∈ outedgesOf wallgraph w, presentAt K5 r x ∨ (x, r) ∈ pushed1 ∨
            ∃ v0, mapFind (layerAt K r) (w, false) = some v0 ∧ v0 ≤ -1) →
        ∃ C K2,
          extremumPart wallgraph 3 (w, r) (pushed1 ++ S) K5 = .next (C ++ S) K2 ∧
          SearchInv wallgraph pattern V (C ++ S) K2 ∧
          ∀ c ∈ C, c.1 ∈ outedgesOf wallgraph w ∧ (c.2 = r ∨ c.2 + 1 = r) := by
      intro pushed1 K5 hs5 hfr5 hne5 hpu5 hcl5
      have hT5 : mapFind (layerAt K5 r) (w, true) ≠ none := by
        rw [hfr5 r (w, true) (Or.inr (by simp))]
        exact hp4.1
      obtain ⟨pushed2, K6, e2, hs6, hfr6, hne6, hpu6, hcl6, _, hleaf6⟩ :=
        extremumPart_three hV hs5 hws hr1 hr2 hT5 (pushed1 ++ S)
      rw [e2]
      have hF6 : mapFind (layerAt K6 r) (w, false) = mapFind (layerAt K5 r) (w, false) :=
        hfr6 r (w, false) (Or.inr (by simp))
      have hmono : ∀ r2 x, presentAt K5 r2 x → presentAt K6 r2 x := by
        intro r2 x hp
        constructor
        · by_cases hk : r2 = r ∧ x = w
          · rw [hk.1, hk.2]; exact hne6
          · rw [hfr6 r2 (x, true) (by
              by_cases h1 : r2 = r
              · exact Or.inr (by
                  intro heq
                  simp only [Prod.mk.injEq] at heq
                  exact hk ⟨h1, heq.1⟩)
              · exact Or.inl h1)]
            exact hp.1
        · rw [hfr6 r2 (x, false) (Or.inr (by simp))]
          exact hp.2
      have hC : ∀ c ∈ pushed2 ++ pushed1,
          c.1 ∈ outedgesOf wallgraph w ∧ (c.2 = r ∨ c.2 + 1 = r) := by
        intro c hc
        rcases List.mem_append.1 hc with hc | hc
        · exact ⟨(hpu6 c hc).2, Or.inr (hpu6 c hc).1.1⟩
        · exact ⟨(hpu5 c hc).2, Or.inl (hpu5 c hc).1⟩
      refine ⟨pushed2 ++ pushed1, K6, by rw [List.append_assoc], ?_, hC⟩
      refine searchInv_pop hinv hs6 ?_ ⟨hne6, by rw [hF6]; exact hne5⟩ ?_ hleaf6 ?_ ?_
      · intro r2 w2 flag hne
        have hk : ∀ b : Bool, r2 ≠ r ∨ (w2, flag) ≠ (w, b) := by
          intro b
          rcases hne with h | h
          · exact Or.inl h
          · exact Or.inr (by intro heq; simp only [Prod.mk.injEq] at heq; exact h heq.1)
        rw [hfr6 r2 (w2, flag) (hk true), hfr5 r2 (w2, flag) (hk false)]
        exact hfr4 r2 w2 flag hne
      · intro n hn
        rcases List.mem_append.1 hn with hn | hn
        · have := (hpu6 n hn).1
          omega
        · have := (hpu5 n hn).1
          omega
      · intro v h hv x hx
        rw [hF6] at h
        rcases hcl5 v h hv x hx with h1 | h1 | h1
        · exact Or.inl (hmono r x h1)
        · exact Or.inr (Or.inl (List.mem_append_right _ h1))
        · exact Or.inr (Or.inr h1)
      · intro h x hx
        rcases hcl6 h x hx with h1 | h1
        · exact Or.inl h1
        · exact Or.inr (Or.inl (List.mem_append_left _ h1))
    by_cases hF : mapFind (layerAt K4 r) (w, false) = some (-1)
    · rw [if_pos hF]
      obtain ⟨pushed1, K5, e1, hs5, hfr5, hne5, hpu5, hcl5⟩ :=
        addToStack_inv hV hs4 hws hr1 hr2 false hF (by simp) S
      simp only [Bool.false_eq_true, if_false] at e1 hpu5 hcl5
      rw [e1]
      simp only
      rw [if_neg (by omega)]
      refine hfinish pushed1 K5 hs5 hfr5 hne5 hpu5 ?_
      intro v _ _ x hx
      rcases hcl5 x hx with h | h
      · exact Or.inl h
      · exact Or.inr (Or.inl h)
    · rw [if_neg hF]
      refine hfinish [] K4 hs4 (fun _ _ _ => rfl) hp4.2 (by simp) ?_
      intro v hv4 hv x hx
      right; right
      rw [hval4] at hv4
      simp only [Option.some.injEq] at hv4
      have hne1 : v ≠ -1 := by
        intro h
        apply hF
        rw [hval4, hv4, h]
      unfold assignedValue at hv4
      split at hv4
      · omega
      · cases hold : mapFind (layerAt K r) (w, false) with
        | none =>
          rw [hold] at hv4
          simp only [Option.getD_none] at hv4
          exact absurd hv4.symm hne1
        | some v0 =>
          rw [hold] at hv4
          simp only [Option.getD_some] at hv4
          exact ⟨v0, rfl, by omega⟩

theorem extremumMatch_of_check {wallgraph : wallgraphvector} {pattern : patternvector}
    {w r : Nat} {ws : wallStruct} {b : Bool} (hws : wallgraph[w]? = some ws)
    (h : _checkForWordInLabels (pattern.getD (pattern.length - r) []) ws.labels = .value b) :
    extremumMatch wallgraph pattern w r = b := by
  unfold extremumMatch
  rw [labelsOf_eq hws, h]
  cases b <;> simp

theorem intermediateMatch_of_check {wallgraph : wallgraphvector} {pattern : patternvector}
    {w r : Nat} {ws : wallStruct} {b : Bool} (hws : wallgraph[w]? = some ws)
    (h : _checkForWordInLabels ((intermediatesOf pattern).getD (pattern.length - r) [])
      ws.labels = .value b) :
    intermediateMatch wallgraph pattern w r = b := by
  unfold intermediateMatch
  rw [labelsOf_eq hws, h]
  cases b <;> simp

theorem searchStep_three {wallgraph : wallgraphvector} {pattern : patternvector} {L : Nat}
    {V : Nat → Nat → Bool → Int} (hwf : WellFormed wallgraph pattern L)
    (hV : Settles wallgraph pattern V) {w r : Nat} {S : List node} {K : memoize}
    (hinv : SearchInv wallgraph pattern V ((w, r) :: S) K) (hw : w < wallgraph.length) :
    ∃ C K2,
      searchStep wallgraph pattern (intermediatesOf pattern) pattern.length 3 (w, r) S K
        = .next (C ++ S) K2 ∧
      SearchInv wallgraph pattern V (C ++ S) K2 ∧
      ∀ c ∈ C, c.1 ∈ outedgesOf wallgraph w ∧ (c.2 = r ∨ c.2 + 1 = r) := by
  obtain ⟨hr1, hr2⟩ := hinv.stack (w, r) (List.mem_cons_self _ _)
  simp only at hr1 hr2
  obtain ⟨ws, hws⟩ := getElem_of_lt hw
  have hexp := expandNode_three hV hinv hws (check_extremum hwf hws hr1 hr2)
    (check_intermediate hwf hws hr1 hr2)
  unfold searchStep
  simp only
  split
  · next countT countF hT hF =>
    split
    · rw [if_neg (by decide), if_neg (by decide)]
      exact hexp
    · split
      · next hpos =>
        refine ⟨[], K, rfl, ?_, by simp⟩
        refine searchInv_pop hinv hinv.store (fun _ _ _ _ => rfl)
          ⟨by rw [hT]; simp, by rw [hF]; simp⟩ (by simp) ?_ ?_ ?_
        · intro h1
          subst h1
          exact hinv.leaves w
        · intro v hv hle
          rw [hF] at hv
          simp only [Option.some.injEq] at hv
          omega
        · intro h
          rw [hT] at h
          simp only [Option.some.injEq] at h
          omega
      · exact hexp
  · exact hexp

theorem drain_list {wallgraph : wallgraphvector} {pattern : patternvector}
    (J : List node → memoize → Prop) (C : List node)
    (hC : ∀ c ∈ C, ∀ S K, J (c :: S) K →
      ∃ n K2, (∀ bfuel f, searchLoop wallgraph pattern (intermediatesOf pattern) pattern.length 3
          bfuel (n + f) (c :: S) K
        = searchLoop wallgraph pattern (intermediatesOf pattern) pattern.length 3 bfuel f S K2) ∧
        J S K2)
    (S : List node) (K : memoize) (hinv : J (C ++ S) K) :
    ∃ n K2, (∀ bfuel f, searchLoop wallgraph pattern (intermediatesOf pattern) pattern.length 3
          bfuel (n + f) (C ++ S) K
        = searchLoop wallgraph pattern (intermediatesOf pattern) pattern.length 3 bfuel f S K2) ∧
      J S K2 := by
  induction C generalizing K with
  | nil => exact ⟨0, K, fun _ _ => by simp, by simpa using hinv⟩
  | cons c rest ih =>
    obtain ⟨n1, K1, h1, hinv1⟩ := hC c (List.mem_cons_self _ _) (rest ++ S) K hinv
    obtain ⟨n2, K2, h2, hinv2⟩ :=
      ih (fun c2 hc2 => hC c2 (List.mem_cons_of_mem _ hc2)) K1 hinv1
    refine ⟨n1 + n2, K2, ?_, hinv2⟩
    intro bfuel f
    rw [List.cons_append, Nat.add_assoc, h1, h2]

/-- The invariant of a mode-3 search on a well-formed graph: the store
invariant, and every wall on the stack is a wall of the graph. -/
theorem drain_node {wallgraph : wallgraphvector} {pattern : patternvector} {L : Nat}
    {V : Nat → Nat → Bool → Int} {rank : Nat → Nat} (hwf : WellFormed wallgraph pattern L)
    (hac : Acyclic wallgraph rank) (hV : Settles wallgraph pattern V) (r : Nat) :
    ∀ (w : Nat) (S : List node) (K : memoize),
      (SearchInv wallgraph pattern V ((w, r) :: S) K ∧
        ∀ n ∈ (w, r) :: S, n.1 < wallgraph.length) →
      ∃ n K2, (∀ bfuel f, searchLoop wallgraph pattern (intermediatesOf pattern) pattern.length 3
          bfuel (n + f) ((w, r) :: S) K
        = searchLoop wallgraph pattern (intermediatesOf pattern) pattern.length 3 bfuel f S K2) ∧
        (SearchInv wallgraph pattern V S K2 ∧ ∀ n ∈ S, n.1 < wallgraph.length) := by
  induction r using Nat.strong_induction_on with
  | _ r ihr =>
    have inner : ∀ (k w : Nat), rank w = k → ∀ (S : List node) (K : memoize),
        (SearchInv wallgraph pattern V ((w, r) :: S) K ∧
          ∀ n ∈ (w, r) :: S, n.1 < wallgraph.length) →
        ∃ n K2, (∀ bfuel f,
          searchLoop wallgraph pattern (intermediatesOf pattern) pattern.length 3
            bfuel (n + f) ((w, r) :: S) K
          = searchLoop wallgraph pattern (intermediatesOf pattern) pattern.length 3
            bfuel f S K2) ∧
          (SearchInv wallgraph pattern V S K2 ∧ ∀ n ∈ S, n.1 < wallgraph.length) := by
      intro k
      induction k using Nat.strong_induction_on with
      | _ k ihk =>
      intro w hk S K hinv
      have hw : w < wallgraph.length := hinv.2 (w, r) (List.mem_cons_self _ _)
      obtain ⟨C, K1, hstep, hinv1, hC⟩ := searchStep_three hwf hV hinv.1 hw
      have hrange1 : ∀ n ∈ C ++ S, n.1 < wallgraph.length := by
        intro n hn
        rcases List.mem_append.1 hn with hn | hn
        · exact (hwf.1 w hw).1 n.1 (hC n hn).1
        · exact hinv.2 n (List.mem_cons_of_mem _ hn)
      have hdrain : ∀ c ∈ C, ∀ S2 K3,
          (SearchInv wallgraph pattern V (c :: S2) K3 ∧
            ∀ n ∈ c :: S2, n.1 < wallgraph.length) →
          ∃ n K2, (∀ bfuel f,
            searchLoop wallgraph pattern (intermediatesOf pattern) pattern.length 3
              bfuel (n + f) (c :: S2) K3
            = searchLoop wallgraph pattern (intermediatesOf pattern) pattern.length 3
              bfuel f S2 K2) ∧
            (SearchInv wallgraph pattern V S2 K2 ∧ ∀ n ∈ S2, n.1 < wallgraph.length) := by
        intro c hc S2 K3 hinv3
        obtain ⟨c1, c2⟩ := c
        obtain ⟨hmem, hlen⟩ := hC (c1, c2) hc
        simp only at hmem hlen
        rcases hlen with hlen | hlen
        · subst hlen
          have hlt : rank c1 < k := by
            rw [← hk]; exact hac w hw c1 hmem
          exact ihk (rank c1) hlt c1 rfl S2 K3 hinv3
        · exact ihr c2 (by omega) c1 S2 K3 hinv3
      obtain ⟨n, K2, hn, hinv2⟩ :=
        drain_list (fun S K => SearchInv wallgraph pattern V S K ∧
          ∀ n ∈ S, n.1 < wallgraph.length) C hdrain S K1 ⟨hinv1, hrange1⟩
      refine ⟨n + 1, K2, ?_, hinv2⟩
      intro bfuel f
      rw [show n + 1 + f = (n + f) + 1 by omega, searchLoop_next _ _ hstep, hn]
    exact fun w => inner (rank w) w rfl
theorem foldl_push_eq (xs : List Nat) (N : Nat) (acc : List node) :
    xs.foldl (fun nodes_to_visit i => (i, N) :: nodes_to_visit) acc
      = (xs.map (fun i => (i, N))).reverse ++ acc := by
  induction xs generalizing acc with
  | nil => simp
  | cons x rest ih => simp [ih]

theorem mem_initialStack {wallgraph : wallgraphvector} {N : Nat} {n : node} :
    n ∈ initialStack wallgraph N ↔ n.1 < wallgraph.length ∧ n.2 = N := by
  unfold initialStack
  rw [foldl_push_eq]
  obtain ⟨a, b⟩ := n
  simp only [List.append_nil, List.mem_reverse, List.mem_map, List.mem_range, Prod.mk.injEq]
  constructor
  · rintro ⟨i, hi, h1, h2⟩
    exact ⟨by rw [← h1]; exact hi, h2.symm⟩
  · rintro ⟨h1, h2⟩
    exact ⟨a, h1, rfl, h2.symm⟩

theorem layerAt_replicate (m r : Nat) : layerAt (List.replicate m []) r = [] := by
  unfold layerAt
  rw [List.getD_eq_getElem?_getD]
  by_cases h : r < m
  · rw [List.getElem?_eq_getElem (by simpa using h)]
    simp
  · rw [List.getElem?_eq_none (by simpa using h)]
    simp

theorem set_replicate_nil (m j : Nat) :
    (List.replicate m ([] : pathElementMap)).set j [] = List.replicate m [] := by
  apply List.ext_getElem
  · simp
  · intro i h1 h2
    simp [List.getElem_set]

theorem pruneRegister_fresh (pattern oldpattern : patternvector) (m : Nat) :
    _pruneRegister pattern oldpattern (List.replicate m [])
      = List.replicate (pattern.length + 1) [] := by
  unfold _pruneRegister
  simp only [layerAt_replicate]
  generalize List.range (tailmatchLoop pattern.reverse oldpattern.reverse) = js
  induction js with
  | nil => rfl
  | cons j rest ih =>
    rw [List.foldl_cons, set_replicate_nil]
    exact ih

theorem searchInv_initial (wallgraph : wallgraphvector) (pattern : patternvector)
    (V : Nat → Nat → Bool → Int) (hN : 1 ≤ pattern.length) :
    SearchInv wallgraph pattern V (initialStack wallgraph pattern.length)
      (List.replicate (pattern.length + 1) []) := by
  refine ⟨⟨by simp, ?_, ?_⟩, ?_, ?_, ?_, ?_, ?_⟩
  · intro r
    rw [layerAt_replicate]
    exact List.Pairwise.nil
  · intro r w flag v h
    rw [layerAt_replicate] at h
    simp [mapFind] at h
  · intro n hn
    rw [mem_initialStack] at hn
    exact ⟨by omega, by omega⟩
  · intro w
    rw [layerAt_replicate]
    simp [mapFind]
  · intro r w v h
    rw [layerAt_replicate] at h
    simp [mapFind] at h
  · intro r w h
    rw [layerAt_replicate] at h
    simp [mapFind] at h
  · intro w hw
    exact Or.inr (mem_initialStack.2 ⟨hw, rfl⟩)

/-! ## The backward fill in mode 3 on an arbitrary store: what a returning run leaves -/

theorem mapSorted_nodup {m : pathElementMap} (h : MapSorted m) : (m.map Prod.fst).Nodup := by
  unfold MapSorted at h
  rw [List.Nodup, List.pairwise_map]
  exact h.imp (fun hab heq => by rw [heq] at hab; exact lt_irrefl _ hab)

theorem sumLoop_three_cases (layer : pathElementMap) (outs : List Nat) (n : Nat) :
    (sumLoop 3 layer outs n = .pending ∧
        ∃ x ∈ outs, ∃ flag, mapFind layer (x, flag) = some (-1)) ∨
      ∃ m, sumLoop 3 layer outs n = .total m := by
  induction outs generalizing n with
  | nil => exact Or.inr ⟨n, rfl⟩
  | cons x rest ih =>
    unfold sumLoop
    split
    · next t f hT hF =>
      rw [if_neg (by omega)]
      split
      · next hpend =>
        left
        refine ⟨rfl, x, List.mem_cons_self _ _, ?_⟩
        rcases hpend with h | h
        · exact ⟨true, by rw [hT, h]⟩
        · exact ⟨false, by rw [hF, h]⟩
      · rcases ih (addU64 n (t + f)) with ⟨h1, z, hz, h2⟩ | h1
        · exact Or.inl ⟨h1, z, List.mem_cons_of_mem _ hz, h2⟩
        · exact Or.inr h1
    · rcases ih n with ⟨h1, z, hz, h2⟩ | h1
      · exact Or.inl ⟨h1, z, List.mem_cons_of_mem _ hz, h2⟩
      · exact Or.inr h1

theorem sumcounts_three_cases (key : keypair) (outs : List Nat) (r : Nat) (K : memoize) :
    (_sumcounts key outs r 3 K = (false, K) ∧
        sumLoop 3 (layerAt K (dependencyLayer key r)) outs 0 = .pending) ∨
      ∃ n : Nat, sumLoop 3 (layerAt K (dependencyLayer key r)) outs 0 = .total n ∧
        _sumcounts key outs r 3 K = (true, setEntry K r key (toInt64 n)) := by
  unfold _sumcounts
  simp only
  rcases sumLoop_three_cases (layerAt K (dependencyLayer key r)) outs 0 with
    ⟨h1, _⟩ | ⟨m, h1⟩
  · rw [h1]
    exact Or.inl ⟨rfl, rfl⟩
  · rw [h1]
    exact Or.inr ⟨m, rfl, rfl⟩

theorem dependencyLayer_false (w r : Nat) : dependencyLayer (w, false) r = r := by
  simp [dependencyLayer]

theorem dependencyLayer_true (w : Nat) {r : Nat} (hr : 1 ≤ r) :
    dependencyLayer (w, true) r = r - 1 := by
  unfold dependencyLayer
  simp only [if_true]
  rw [if_neg (by omega)]

theorem entry_of_absent_layer {K : memoize} {i : Nat} {key : keypair} {v : Int}
    (h : mapFind (layerAt K i) key = some v) : i < K.length := by
  by_contra hlen
  have hnone : layerAt K i = [] := by
    unfold layerAt
    rw [List.getD_eq_getElem?_getD, List.getElem?_eq_none (by omega)]
    rfl
  rw [hnone] at h
  simp [mapFind] at h

theorem intermediateSweep_final {wallgraph : wallgraphvector} (Q : memoize → Prop)
    (P : Nat → keypair → Int → Prop) (i : Nat)
    (hskip : ∀ K r key v, Q K → mapFind (layerAt K r) key = some v → v ≠ -1 → P r key v)
    (hwrite : ∀ (K : memoize) (w : Nat) (ws : wallStruct) (n : Nat), Q K →
      wallgraph[w]? = some ws →
      (∃ v, mapFind (layerAt K i) (w, false) = some v ∧ v ≤ -1) →
      sumLoop 3 (layerAt K i) ws.outedges 0 = .total n →
      Q (setEntry K i (w, false) (toInt64 n)) ∧ P i (w, false) (toInt64 n))
    (keys : List keypair) (hnd : keys.Nodup) :
    ∀ (K : memoize) (done : Bool) (K2 : memoize) (done2 : Bool), Q K →
      intermediateSweep wallgraph i 3 keys K done = .value (K2, done2) →
      Q K2 ∧
        (∀ r2 key, (r2 ≠ i ∨ key.2 = true ∨ key ∉ keys) →
          mapFind (layerAt K2 r2) key = mapFind (layerAt K r2) key) ∧
        (done2 = true → done = true ∧
          ∀ w, (w, false) ∈ keys → ∀ v, mapFind (layerAt K2 i) (w, false) = some v →
            P i (w, false) v) := by
  induction keys with
  | nil =>
    intro K done K2 done2 hq h
    simp only [intermediateSweep, Outcome.value.injEq, Prod.mk.injEq] at h
    obtain ⟨h1, h2⟩ := h
    subst h1 h2
    exact ⟨hq, fun _ _ _ => rfl, fun h => ⟨h, by simp⟩⟩
  | cons key rest ih =>
    intro K done K2 done2 hq h
    obtain ⟨w, flag⟩ := key
    have hnd2 := (List.nodup_cons.1 hnd).2
    have hnotin := (List.nodup_cons.1 hnd).1
    have hskipcase : (∀ v, mapFind (layerAt K i) (w, flag) = some v → flag = false → v ≠ -1) →
        intermediateSweep wallgraph i 3 rest K done = .value (K2, done2) →
        Q K2 ∧
          (∀ r2 key, (r2 ≠ i ∨ key.2 = true ∨ key ∉ (w, flag) :: rest) →
            mapFind (layerAt K2 r2) key = mapFind (layerAt K r2) key) ∧
          (done2 = true → done = true ∧
            ∀ w2, (w2, false) ∈ (w, flag) :: rest →
              ∀ v, mapFind (layerAt K2 i) (w2, false) = some v → P i (w2, false) v) := by
      intro hnp hrest
      obtain ⟨h1, h2, h3⟩ := ih hnd2 K done K2 done2 hq hrest
      refine ⟨h1, ?_, ?_⟩
      · intro r2 key hne
        refine h2 r2 key ?_
        rcases hne with hne | hne | hne
        · exact Or.inl hne
        · exact Or.inr (Or.inl hne)
        · exact Or.inr (Or.inr (fun hm => hne (List.mem_cons_of_mem _ hm)))
      · intro hd
        refine ⟨(h3 hd).1, ?_⟩
        intro w2 hm v hv
        rcases List.mem_cons.1 hm with hm | hm
        · simp only [Prod.mk.injEq] at hm
          obtain ⟨hm1, hm2⟩ := hm
          subst hm1 hm2
          have hsame := h2 i (w2, false) (Or.inr (Or.inr hnotin))
          rw [hsame] at hv
          have hne := hnp v hv rfl
          rw [← hsame] at hv
          exact hskip K2 i (w2, false) v h1 hv hne
        · exact (h3 hd).2 w2 hm v hv
    cases hfind : mapFind (layerAt K i) (w, flag) with
    | none =>
      refine hskipcase (fun v hv => by rw [hfind] at hv; simp at hv) ?_
      rw [← h]
      conv_rhs => unfold intermediateSweep
      simp only [hfind]
    | some v =>
      by_cases hc : flag = true ∨ v > -1
      · refine hskipcase ?_ ?_
        · intro v2 hv2 hflag
          rw [hfind] at hv2
          simp only [Option.some.injEq] at hv2
          rcases hc with hc | hc
          · rw [hflag] at hc; simp at hc
          · omega
        · rw [← h]
          conv_rhs => unfold intermediateSweep
          simp only [hfind]
          rw [if_pos hc]
      · have hflag : flag = false := by
          cases flag with
          | true => exact absurd (Or.inl rfl) hc
          | false => rfl
        subst hflag
        have hv : v ≤ -1 := by
          by_contra hne
          exact hc (Or.inr (by omega))
        cases hws : wallgraph[w]? with
        | none =>
          exfalso
          unfold intermediateSweep at h
          simp only [hfind, hws] at h
          rw [if_neg hc] at h
          simp at h
        | some ws =>
          have hunf : intermediateSweep wallgraph i 3 ((w, false) :: rest) K done
              = intermediateSweep wallgraph i 3 rest
                  (_sumcounts (w, false) ws.outedges i 3 K).2
                  (done && (_sumcounts (w, false) ws.outedges i 3 K).1) := by
            conv_lhs => unfold intermediateSweep
            simp only [hfind, hws]
            rw [if_neg hc]
          rw [hunf] at h
          rcases sumcounts_three_cases (w, false) ws.outedges i K with ⟨hsc, _⟩ | ⟨n, hsl, hsc⟩
          · rw [hsc] at h
            simp only [Bool.and_false] at h
            obtain ⟨h1, h2, h3⟩ := ih hnd2 K false K2 done2 hq h
            refine ⟨h1, ?_, ?_⟩
            · intro r2 key hne
              refine h2 r2 key ?_
              rcases hne with hne | hne | hne
              · exact Or.inl hne
              · exact Or.inr (Or.inl hne)
              · exact Or.inr (Or.inr (fun hm => hne (List.mem_cons_of_mem _ hm)))
            · intro hd
              have := (h3 hd).1
              simp at this
          · rw [dependencyLayer_false] at hsl
            obtain ⟨hq1, hp1⟩ := hwrite K w ws n hq hws ⟨v, hfind, hv⟩ hsl
            rw [hsc] at h
            simp only [Bool.and_true] at h
            obtain ⟨h1, h2, h3⟩ := ih hnd2 _ done K2 done2 hq1 h
            have hlen := entry_of_absent_layer hfind
            refine ⟨h1, ?_, ?_⟩
            · intro r2 key hne
              rw [h2 r2 key (by
                rcases hne with hne | hne | hne
                · exact Or.inl hne
                · exact Or.inr (Or.inl hne)
                · exact Or.inr (Or.inr (fun hm => hne (List.mem_cons_of_mem _ hm))))]
              exact entry_setEntry_other _ (by
                rcases hne with hne | hne | hne
                · exact Or.inl hne
                · right
                  intro hk
                  rw [hk] at hne
                  simp at hne
                · right
                  intro hk
                  exact hne (by rw [hk]; exact List.mem_cons_self _ _))
            · intro hd
              refine ⟨(h3 hd).1, ?_⟩
              intro w2 hm v2 hv2
              rcases List.mem_cons.1 hm with hm | hm
              · simp only [Prod.mk.injEq, and_true] at hm
                subst hm
                rw [h2 i (w2, false) (Or.inr (Or.inr hnotin)),
                  entry_setEntry_self _ _ hlen] at hv2
                simp only [Option.some.injEq] at hv2
                rw [← hv2]
                exact hp1
              · exact (h3 hd).2 w2 hm v2 hv2


theorem backFillIntermediateLoop_final {wallgraph : wallgraphvector} (Q : memoize → Prop)
    (P : Nat → keypair → Int → Prop) (i : Nat)
    (hsorted : ∀ K, Q K → ∀ r, MapSorted (layerAt K r))
    (hskip : ∀ K r key v, Q K → mapFind (layerAt K r) key = some v → v ≠ -1 → P r key v)
    (hwrite : ∀ (K : memoize) (w : Nat) (ws : wallStruct) (n : Nat), Q K →
      wallgraph[w]? = some ws →
      (∃ v, mapFind (layerAt K i) (w, false) = some v ∧ v ≤ -1) →
      sumLoop 3 (layerAt K i) ws.outedges 0 = .total n →
      Q (setEntry K i (w, false) (toInt64 n)) ∧ P i (w, false) (toInt64 n))
    (numiterations fuel : Nat) :
    ∀ (count : Nat) (done : Bool) (K K2 : memoize), Q K →
      backFillIntermediateLoop wallgraph i 3 numiterations fuel count done K
        = some (.value K2) →
      (done = true → ∀ w v, mapFind (layerAt K i) (w, false) = some v → P i (w, false) v) →
      Q K2 ∧
        (∀ r2 key, (r2 ≠ i ∨ key.2 = true) →
          mapFind (layerAt K2 r2) key = mapFind (layerAt K r2) key) ∧
        (∀ w v, mapFind (layerAt K2 i) (w, false) = some v → P i (w, false) v) := by
  induction fuel with
  | zero =>
    intro count done K K2 _ h
    simp [backFillIntermediateLoop] at h
  | succ fuel ih =>
    intro count done K K2 hq h hdone
    unfold backFillIntermediateLoop at h
    split at h
    · split at h
      · simp at h
      · next r hs =>
        obtain ⟨K1, done1⟩ := r
        obtain ⟨h1, h2, h3⟩ :=
          intermediateSweep_final Q P i hskip hwrite _ (mapSorted_nodup (hsorted K hq i))
            K true K1 done1 hq hs
        have hdone1 : done1 = true →
            ∀ w v, mapFind (layerAt K1 i) (w, false) = some v → P i (w, false) v := by
          intro hd w v hv
          by_cases hk : (w, false) ∈ (layerAt K i).map Prod.fst
          · exact (h3 hd).2 w hk v hv
          · exfalso
            rw [h2 i (w, false) (Or.inr (Or.inr hk))] at hv
            rw [← mapFind_ne_none_iff] at hk
            exact hk (by rw [hv]; simp)
        obtain ⟨h5, h6, h7⟩ := ih (count + 1) done1 K1 K2 h1 h hdone1
        refine ⟨h5, ?_, h7⟩
        intro r2 key hne
        rw [h6 r2 key hne, h2 r2 key (by
          rcases hne with hne | hne
          · exact Or.inl hne
          · exact Or.inr (Or.inl hne))]
    · next hc =>
      simp only [Option.some.injEq, Outcome.value.injEq] at h
      subst h
      have hd : done = true := by
        cases done with
        | true => rfl
        | false => exact absurd (Or.inl rfl) hc
      exact ⟨hq, fun _ _ _ => rfl, hdone hd⟩

theorem extremumPass_final {wallgraph : wallgraphvector} (Q : memoize → Prop)
    (P : Nat → keypair → Int → Prop) (i : Nat) (hi : 2 ≤ i)
    (hskip : ∀ K r key v, Q K → mapFind (layerAt K r) key = some v → v ≠ -1 → P r key v)
    (hwrite : ∀ (K : memoize) (w : Nat) (ws : wallStruct) (n : Nat), Q K →
      wallgraph[w]? = some ws → mapFind (layerAt K i) (w, true) = some (-1) →
      sumLoop 3 (layerAt K (i - 1)) ws.outedges 0 = .total n →
      Q (setEntry K i (w, true) (toInt64 n)) ∧ P i (w, true) (toInt64 n))
    (hblock : ∀ (K : memoize) (w : Nat) (ws : wallStruct), Q K →
      wallgraph[w]? = some ws → mapFind (layerAt K i) (w, true) = some (-1) →
      (∀ key v, mapFind (layerAt K (i - 1)) key = some v → P (i - 1) key v) →
      sumLoop 3 (layerAt K (i - 1)) ws.outedges 0 = .pending → P i (w, true) (-1))
    (keys : List keypair) (hnd : keys.Nodup) :
    ∀ (K K2 : memoize), Q K → extremumPass wallgraph i 3 keys K = .value K2 →
      (∀ key v, mapFind (layerAt K (i - 1)) key = some v → P (i - 1) key v) →
      Q K2 ∧
        (∀ r2 key, (r2 ≠ i ∨ key.2 = false ∨ key ∉ keys) →
          mapFind (layerAt K2 r2) key = mapFind (layerAt K r2) key) ∧
        (∀ w, (w, true) ∈ keys → ∀ v, mapFind (layerAt K2 i) (w, true) = some v →
          P i (w, true) v) := by
  induction keys with
  | nil =>
    intro K K2 hq h _
    simp only [extremumPass, Outcome.value.injEq] at h
    subst h
    exact ⟨hq, fun _ _ _ => rfl, by simp⟩
  | cons key rest ih =>
    intro K K2 hq h hlow
    obtain ⟨w, flag⟩ := key
    have hnd2 := (List.nodup_cons.1 hnd).2
    have hnotin := (List.nodup_cons.1 hnd).1
    cases hws : wallgraph[w]? with
    | none =>
      exfalso
      unfold extremumPass at h
      simp [hws] at h
    | some ws =>
      have hskipcase :
          (∀ v, mapFind (layerAt K i) (w, flag) = some v → flag = true → P i (w, true) v) →
          extremumPass wallgraph i 3 rest K = .value K2 →
          Q K2 ∧
            (∀ r2 key, (r2 ≠ i ∨ key.2 = false ∨ key ∉ (w, flag) :: rest) →
              mapFind (layerAt K2 r2) key = mapFind (layerAt K r2) key) ∧
            (∀ w2, (w2, true) ∈ (w, flag) :: rest →
              ∀ v, mapFind (layerAt K2 i) (w2, true) = some v → P i (w2, true) v) := by
        intro hnp hrest
        obtain ⟨h1, h2, h3⟩ := ih hnd2 K K2 hq hrest hlow
        refine ⟨h1, ?_, ?_⟩
        · intro r2 key hne
          refine h2 r2 key ?_
          rcases hne with hne | hne | hne
          · exact Or.inl hne
          · exact Or.inr (Or.inl hne)
          · exact Or.inr (Or.inr (fun hm => hne (List.mem_cons_of_mem _ hm)))
        · intro w2 hm v hv
          rcases List.mem_cons.1 hm with hm | hm
          · simp only [Prod.mk.injEq] at hm
            obtain ⟨hm1, hm2⟩ := hm
            subst hm1 hm2
            rw [h2 i (w2, true) (Or.inr (Or.inr hnotin))] at hv
            exact hnp v hv rfl
          · exact h3 w2 hm v hv
      cases hfind : mapFind (layerAt K i) (w, flag) with
      | none =>
        refine hskipcase (fun v hv => by rw [hfind] at hv; simp at hv) ?_
        rw [← h]
        conv_rhs => unfold extremumPass
        simp only [hws, hfind]
      | some v =>
        by_cases hc : flag = true ∧ v = -1
        · obtain ⟨hflag, hv⟩ := hc
          subst hflag hv
          have hunf : extremumPass wallgraph i 3 ((w, true) :: rest) K
              = extremumPass wallgraph i 3 rest
                  (_sumcounts (w, true) ws.outedges i 3 K).2 := by
            conv_lhs => unfold extremumPass
            simp only [hws, hfind, and_self, if_true]
          rw [hunf] at h
          rcases sumcounts_three_cases (w, true) ws.outedges i K with
            ⟨hsc, hsl⟩ | ⟨n, hsl, hsc⟩
          · rw [dependencyLayer_true w (by omega)] at hsl
            rw [hsc] at h
            simp only at h
            refine hskipcase ?_ h
            intro v hv _
            rw [hfind] at hv
            simp only [Option.some.injEq] at hv
            rw [← hv]
            exact hblock K w ws hq hws hfind hlow hsl
          · rw [dependencyLayer_true w (by omega)] at hsl
            obtain ⟨hq1, hp1⟩ := hwrite K w ws n hq hws hfind hsl
            rw [hsc] at h
            simp only at h
            have hK1 : ∀ r2 key, (r2 ≠ i ∨ key ≠ (w, true)) →
                mapFind (layerAt (setEntry K i (w, true) (toInt64 n)) r2) key
                  = mapFind (layerAt K r2) key := fun r2 key hne => entry_setEntry_other _ hne
            have hlen := entry_of_absent_layer hfind
            obtain ⟨h1, h2, h3⟩ := ih hnd2 _ K2 hq1 h (fun key v hv => by
              rw [hK1 (i - 1) key (Or.inl (by omega))] at hv
              exact hlow key v hv)
            refine ⟨h1, ?_, ?_⟩
            · intro r2 key hne
              rw [h2 r2 key (by
                rcases hne with hne | hne | hne
                · exact Or.inl hne
                · exact Or.inr (Or.inl hne)
                · exact Or.inr (Or.inr (fun hm => hne (List.mem_cons_of_mem _ hm))))]
              exact hK1 r2 key (by
                rcases hne with hne | hne | hne
                · exact Or.inl hne
                · right
                  intro hk
                  rw [hk] at hne
                  simp at hne
                · right
                  intro hk
                  exact hne (by rw [hk]; exact List.mem_cons_self _ _))
            · intro w2 hm v2 hv2
              rcases List.mem_cons.1 hm with hm | hm
              · simp only [Prod.mk.injEq, and_true] at hm
                subst hm
                rw [h2 i (w2, true) (Or.inr (Or.inr hnotin)),
                  entry_setEntry_self _ _ hlen] at hv2
                simp only [Option.some.injEq] at hv2
                rw [← hv2]
                exact hp1
              · exact h3 w2 hm v2 hv2
        · refine hskipcase ?_ ?_
          · intro v2 hv2 hflag
            rw [hfind] at hv2
            simp only [Option.some.injEq] at hv2
            subst hv2
            exact hskip K i (w, true) v hq (by rw [← hflag]; exact hfind)
              (fun hv => hc ⟨hflag, hv⟩)
          · rw [← h]
            conv_rhs => unfold extremumPass
            simp only [hws, hfind]
            rw [if_neg hc]

/-- What the layers `i .. i + todo - 1` hold when the loop of `_backFill`
returns in mode 3: every entry satisfies `P`, for a predicate `P` that holds of
every entry other than `-1`, of every sum written, and of an extremum entry
left at `-1` above a layer satisfying `P`. -/
theorem backFillLayers_final {wallgraph : wallgraphvector} (Q : memoize → Prop)
    (P : Nat → keypair → Int → Prop)
    (hsorted : ∀ K, Q K → ∀ r, MapSorted (layerAt K r))
    (hskip : ∀ K r key v, Q K → mapFind (layerAt K r) key = some v → v ≠ -1 → P r key v)
    (hwrite : ∀ (K : memoize) (w : Nat) (flag : Bool) (ws : wallStruct) (r n : Nat), Q K →
      wallgraph[w]? = some ws → 1 ≤ r → (flag = true → 2 ≤ r) →
      (∃ v, mapFind (layerAt K r) (w, flag) = some v ∧ v ≤ -1 ∧ (flag = true → v = -1)) →
      sumLoop 3 (layerAt K (if flag = true then r - 1 else r)) ws.outedges 0 = .total n →
      Q (setEntry K r (w, flag) (toInt64 n)) ∧ P r (w, flag) (toInt64 n))
    (hblock : ∀ (K : memoize) (w : Nat) (ws : wallStruct) (r : Nat), Q K →
      wallgraph[w]? = some ws → 2 ≤ r → mapFind (layerAt K r) (w, true) = some (-1) →
      (∀ key v, mapFind (layerAt K (r - 1)) key = some v → P (r - 1) key v) →
      sumLoop 3 (layerAt K (r - 1)) ws.outedges 0 = .pending → P r (w, true) (-1))
    (fuel todo : Nat) :
    ∀ (i : Nat) (K K2 : memoize), 2 ≤ i → Q K →
      backFillLayers wallgraph fuel 3 todo i K = some (.value K2) →
      (∀ r2 key v, 1 ≤ r2 → r2 < i → mapFind (layerAt K r2) key = some v → P r2 key v) →
      Q K2 ∧
        ∀ r2 key v, 1 ≤ r2 → r2 < i + todo → mapFind (layerAt K2 r2) key = some v →
          P r2 key v := by
  induction todo with
  | zero =>
    intro i K K2 _ hq h hlow
    simp only [backFillLayers, Option.some.injEq, Outcome.value.injEq] at h
    subst h
    exact ⟨hq, fun r2 key v h1 h2 => hlow r2 key v h1 (by omega)⟩
  | succ todo ih =>
    intro i K K2 hi hq h hlow
    unfold backFillLayers at h
    split at h
    · simp at h
    · next K1 hs =>
      split at h
      · simp at h
      · simp at h
      · next K3 hb =>
        obtain ⟨h1, h2, h3⟩ := extremumPass_final Q P i hi hskip
          (fun K w ws n hq2 hws hp hsl =>
            hwrite K w true ws i n hq2 hws (by omega) (fun _ => hi)
              ⟨-1, hp, le_refl _, fun _ => rfl⟩ (by simpa using hsl))
          (fun K w ws hq2 hws hp hl hsl => hblock K w ws i hq2 hws hi hp hl hsl)
          _ (mapSorted_nodup (hsorted K hq i)) K K1 hq hs
          (fun key v hv => hlow (i - 1) key v (by omega) (by omega) hv)
        have hT1 : ∀ w v, mapFind (layerAt K1 i) (w, true) = some v → P i (w, true) v := by
          intro w v hv
          by_cases hk : (w, true) ∈ (layerAt K i).map Prod.fst
          · exact h3 w hk v hv
          · exfalso
            rw [h2 i (w, true) (Or.inr (Or.inr hk))] at hv
            rw [← mapFind_ne_none_iff] at hk
            exact hk (by rw [hv]; simp)
        obtain ⟨h5, h6, h7⟩ := backFillIntermediateLoop_final Q P i hsorted hskip
          (fun K w ws n hq2 hws hp hsl => by
            obtain ⟨v, hv1, hv2⟩ := hp
            exact hwrite K w false ws i n hq2 hws (by omega) (fun hf => by simp at hf)
              ⟨v, hv1, hv2, fun hf => by simp at hf⟩ (by simpa using hsl))
          _ fuel 0 false K1 K3 h1 hb (fun hd => by simp at hd)
        have hlow3 : ∀ r2 key v, 1 ≤ r2 → r2 < i + 1 →
            mapFind (layerAt K3 r2) key = some v → P r2 key v := by
          intro r2 key v hr1 hr2 hv
          by_cases hr : r2 = i
          · subst hr
            obtain ⟨w, flag⟩ := key
            cases flag with
            | false => exact h7 w v hv
            | true =>
              rw [h6 r2 (w, true) (Or.inr rfl)] at hv
              exact hT1 w v hv
          · rw [h6 r2 key (Or.inl hr), h2 r2 key (Or.inl hr)] at hv
            exact hlow r2 key v hr1 (by omega) hv
        obtain ⟨h8, h9⟩ := ih (i + 1) K3 K2 (by omega) h5 h hlow3
        exact ⟨h8, fun r2 key v hr1 hr2 hv => h9 r2 key v hr1 (by omega) hv⟩

/-- What the layers `1 .. N` hold when `_backFill` returns in mode 3. -/
theorem backFill_final {wallgraph : wallgraphvector} (Q : memoize → Prop)
    (P : Nat → keypair → Int → Prop)
    (hsorted : ∀ K, Q K → ∀ r, MapSorted (layerAt K r))
    (hskip : ∀ K r key v, Q K → mapFind (layerAt K r) key = some v → v ≠ -1 → P r key v)
    (hwrite : ∀ (K : memoize) (w : Nat) (flag : Bool) (ws : wallStruct) (r n : Nat), Q K →
      wallgraph[w]? = some ws → 1 ≤ r → (flag = true → 2 ≤ r) →
      (∃ v, mapFind (layerAt K r) (w, flag) = some v ∧ v ≤ -1 ∧ (flag = true → v = -1)) →
      sumLoop 3 (layerAt K (if flag = true then r - 1 else r)) ws.outedges 0 = .total n →
      Q (setEntry K r (w, flag) (toInt64 n)) ∧ P r (w, flag) (toInt64 n))
    (hblock : ∀ (K : memoize) (w : Nat) (ws : wallStruct) (r : Nat), Q K →
      wallgraph[w]? = some ws → 2 ≤ r → mapFind (layerAt K r) (w, true) = some (-1) →
      (∀ key v, mapFind (layerAt K (r - 1)) key = some v → P (r - 1) key v) →
      sumLoop 3 (layerAt K (r - 1)) ws.outedges 0 = .pending → P r (w, true) (-1))
    {fuel N : Nat} {K K2 : memoize} (hN : 1 ≤ N) (hq : Q K)
    (h : _backFill wallgraph fuel N 3 K = some (.value K2)) :
    Q K2 ∧ ∀ r2 key v, 1 ≤ r2 → r2 ≤ N → mapFind (layerAt K2 r2) key = some v →
      P r2 key v := by
  unfold _backFill at h
  split at h
  · simp at h
  · simp at h
  · next K1 hb =>
    split at h
    · next hleaves =>
      obtain ⟨h1, h2, h3⟩ := backFillIntermediateLoop_final Q P 1 hsorted hskip
        (fun K w ws n hq2 hws hp hsl => by
          obtain ⟨v, hv1, hv2⟩ := hp
          exact hwrite K w false ws 1 n hq2 hws (le_refl 1) (fun hf => by simp at hf)
            ⟨v, hv1, hv2, fun hf => by simp at hf⟩ (by simpa using hsl))
        _ fuel 0 false K K1 hq hb (fun hd => by simp at hd)
      have hlow : ∀ r2 key v, 1 ≤ r2 → r2 < 2 → mapFind (layerAt K1 r2) key = some v →
          P r2 key v := by
        intro r2 key v hr1 hr2 hv
        have hr : r2 = 1 := by omega
        subst hr
        obtain ⟨w, flag⟩ := key
        cases flag with
        | false => exact h3 w v hv
        | true =>
          refine hskip K1 1 (w, true) v h1 hv ?_
          intro hp
          rw [hp] at hv
          have hmem := mapFind_mem hv
          unfold leavesAssigned at hleaves
          rw [List.all_eq_true] at hleaves
          have := hleaves _ hmem
          simp at this
      obtain ⟨h4, h5⟩ :=
        backFillLayers_final Q P hsorted hskip hwrite hblock fuel (N - 1) 2 K1 K2 (le_refl 2)
          h1 h hlow
      exact ⟨h4, fun r2 key v hr1 hr2 hv => h5 r2 key v hr1 (by omega) hv⟩
    · simp at h

/-! ## The backward fill on a store that satisfies the invariant -/

theorem searchInv_settle {wallgraph : wallgraphvector} {pattern : patternvector}
    {V : Nat → Nat → Bool → Int} {K : memoize} {r w : Nat} {flag : Bool} {v : Int}
    (hinv : SearchInv wallgraph pattern V [] K) (hr1 : 1 ≤ r) (hr2 : r ≤ pattern.length)
    (hw : w < wallgraph.length) (hv : EntryOk wallgraph pattern V w r flag v)
    (hold : ∃ v0, mapFind (layerAt K r) (w, flag) = some v0 ∧ v0 ≤ -1 ∧
      (flag = true → v0 = -1))
    (hflag : flag = true → 2 ≤ r) :
    SearchInv wallgraph pattern V [] (setEntry K r (w, flag) v) := by
  obtain ⟨v0, hv0, hle0, hT0⟩ := hold
  have hclose : ∀ r2 x, (presentAt K r2 x ∨ (x, r2) ∈ ([] : List node)) →
      (presentAt (setEntry K r (w, flag) v) r2 x ∨ (x, r2) ∈ ([] : List node)) := by
    intro r2 x h
    rcases h with h | h
    · exact Or.inl (presentAt_setEntry _ _ h)
    · simp at h
  refine ⟨storeOk_setEntry hinv.store hr1 hr2 hw hv, by simp, ?_, ?_, ?_, ?_⟩
  · intro w2 h
    rcases entry_setEntry_cases h with ⟨h1, h2, _⟩ | h1
    · simp only [Prod.mk.injEq] at h2
      have := hflag h2.2.symm
      omega
    · exact hinv.leaves w2 h1
  · intro r2 w2 v2 h hle x hx
    rcases entry_setEntry_cases h with ⟨h1, h2, _⟩ | h1
    · simp only [Prod.mk.injEq] at h2
      obtain ⟨h2a, h2b⟩ := h2
      subst h1 h2a
      rw [← h2b] at hv0
      exact hclose r2 x (hinv.closureF r2 w2 v0 hv0 hle0 x hx)
    · exact hclose r2 x (hinv.closureF r2 w2 v2 h1 hle x hx)
  · intro r2 w2 h x hx
    rcases entry_setEntry_cases h with ⟨h1, h2, _⟩ | h1
    · simp only [Prod.mk.injEq] at h2
      obtain ⟨h2a, h2b⟩ := h2
      subst h1 h2a
      rw [← h2b] at hv0 hT0
      rw [hT0 rfl] at hv0
      exact hclose (r2 - 1) x (hinv.closureT r2 w2 hv0 x hx)
    · exact hclose (r2 - 1) x (hinv.closureT r2 w2 h1 x hx)
  · intro w2 hw2
    exact hclose pattern.length w2 (hinv.cover w2 hw2)

theorem sumcounts_present {wallgraph : wallgraphvector} {pattern : patternvector}
    {V : Nat → Nat → Bool → Int} {K : memoize}
    (hinv : SearchInv wallgraph pattern V [] K) {w r : Nat} {ws : wallStruct}
    (hws : wallgraph[w]? = some ws) (flag : Bool)
    (hold : ∃ v0, mapFind (layerAt K r) (w, flag) = some v0 ∧ v0 ≤ -1 ∧
      (flag = true → v0 = -1)) :
    ∀ x ∈ ws.outedges,
      mapFind (layerAt K (if flag = true then r - 1 else r)) (x, true) ≠ none ∧
        mapFind (layerAt K (if flag = true then r - 1 else r)) (x, false) ≠ none := by
  obtain ⟨v0, hv0, hle0, hT0⟩ := hold
  have hout := outedgesOf_eq hws
  intro x hx
  rw [← hout] at hx
  cases flag with
  | true =>
    rw [hT0 rfl] at hv0
    rcases hinv.closureT r w hv0 x hx with h | h
    · exact h
    · simp at h
  | false =>
    rcases hinv.closureF r w v0 hv0 hle0 x hx with h | h
    · exact h
    · simp at h

/-- A sum written by `_sumcounts` on a store that satisfies the invariant is the
value of the entry, and the store still satisfies the invariant. -/
theorem sumcounts_write {wallgraph : wallgraphvector} {pattern : patternvector}
    {V : Nat → Nat → Bool → Int} (hV : Settles wallgraph pattern V) {K : memoize}
    (hinv : SearchInv wallgraph pattern V [] K) {w r : Nat} {ws : wallStruct}
    (hws : wallgraph[w]? = some ws) (flag : Bool) (hflag : flag = true → 2 ≤ r)
    (hold : ∃ v0, mapFind (layerAt K r) (w, flag) = some v0 ∧ v0 ≤ -1 ∧
      (flag = true → v0 = -1))
    {n : Nat}
    (hsl : sumLoop 3 (layerAt K (if flag = true then r - 1 else r)) ws.outedges 0
      = .total n) :
    SearchInv wallgraph pattern V [] (setEntry K r (w, flag) (toInt64 n)) ∧
      toInt64 n = V w r flag ∧
      ∀ x ∈ ws.outedges, resolvedAt (layerAt K (if flag = true then r - 1 else r)) x := by
  have hw := lt_of_getElem hws
  have hout := outedgesOf_eq hws
  obtain ⟨v0, hv0, hle0, hT0⟩ := hold
  obtain ⟨⟨hr1, hr2, _⟩, hok⟩ := hinv.store.entries r w flag v0 hv0
  have hmatch := entryOk_match hV hw hr1 hr2 hok (by omega)
  have hpres := sumcounts_present hinv hws flag ⟨v0, hv0, hle0, hT0⟩
  rcases sumLoop_three (layerAt K (if flag = true then r - 1 else r)) ws.outedges 0
    (by unfold u64; norm_num) hpres with ⟨h1, _⟩ | ⟨m, h1, h2, h3⟩
  · rw [h1] at hsl
    cases hsl
  · rw [h1] at hsl
    simp only [SumResult.total.injEq] at hsl
    subst hsl
    have hguard : ∀ x ∈ outedgesOf wallgraph w, x < wallgraph.length := by
      intro x hx
      rw [hout] at hx
      exact resolved_in_range hinv.store (h3 x hx)
    have hval : toInt64 m = V w r flag := by
      cases flag with
      | true =>
        simp only [if_true] at hmatch h2 h3
        rw [val_extremum hV hw (hflag rfl) hr2 hmatch hguard, hout]
        exact settled_value hinv.store (r - 1) ws.outedges h3 h2
      | false =>
        simp only [Bool.false_eq_true, if_false] at hmatch h2 h3
        rw [val_intermediate hV hw hr1 hmatch.2 hmatch.1 hguard, hout]
        exact settled_value hinv.store r ws.outedges h3 h2
    exact ⟨searchInv_settle hinv hr1 hr2 hw (Or.inl hval) ⟨v0, hv0, hle0, hT0⟩ hflag,
      hval, h3⟩

theorem combine_blocked (t f : Nat → Int) (outs : List Nat) {x : Nat} (hx : x ∈ outs)
    (h : t x = -1 ∨ f x = -1) : combine t f outs = -1 := by
  unfold combine
  rw [if_pos]
  rw [List.any_eq_true]
  exact ⟨x, hx, by simpa using h⟩

/-- When `_backFill` returns in mode 3 on a store that satisfies the invariant,
every entry holds its value. -/
theorem backFill_values {wallgraph : wallgraphvector} {pattern : patternvector}
    {V : Nat → Nat → Bool → Int} (hV : Settles wallgraph pattern V)
    (hN : 1 ≤ pattern.length) {fuel : Nat} {K K2 : memoize}
    (hinv : SearchInv wallgraph pattern V [] K)
    (h : _backFill wallgraph fuel pattern.length 3 K = some (.value K2)) :
    SearchInv wallgraph pattern V [] K2 ∧
      ∀ r w flag v, mapFind (layerAt K2 r) (w, flag) = some v → v = V w r flag := by
  obtain ⟨h1, h2⟩ := backFill_final (fun K => SearchInv wallgraph pattern V [] K)
    (fun r key v => v = V key.1 r key.2)
    (fun K hq => hq.store.sorted)
    (fun K r key v hq hv hne => entryOk_settled (hq.store.entries r key.1 key.2 v hv).2 hne)
    (fun K w flag ws r n hq hws _ hflag hold hsl =>
      ⟨(sumcounts_write hV hq hws flag hflag hold hsl).1,
        (sumcounts_write hV hq hws flag hflag hold hsl).2.1⟩)
    (fun K w ws r hq hws hr hp hlow hsl => by
      have hw := lt_of_getElem hws
      have hout := outedgesOf_eq hws
      obtain ⟨⟨hr1, hr2, _⟩, hok⟩ := hq.store.entries r w true (-1) hp
      have hmatch := entryOk_pending hV hw hr1 hr2 hok
      simp only [if_true] at hmatch
      have hpres := sumcounts_present hq hws true ⟨-1, hp, le_refl _, fun _ => rfl⟩
      simp only [if_true] at hpres
      have hguard : ∀ x ∈ outedgesOf wallgraph w, x < wallgraph.length := by
        intro x hx
        rw [hout] at hx
        cases hx1 : mapFind (layerAt K (r - 1)) (x, true) with
        | none => exact absurd hx1 (hpres x hx).1
        | some t => exact (hq.store.entries (r - 1) x true t hx1).1.2.2
      rcases sumLoop_three_cases (layerAt K (r - 1)) ws.outedges 0 with
        ⟨_, x, hx, flag2, hx2⟩ | ⟨m, hm⟩
      · have hvx := hlow (x, flag2) (-1) hx2
        simp only at hvx
        show (-1 : Int) = V w r true
        rw [val_extremum hV hw hr hr2 hmatch hguard, hout]
        symm
        apply combine_blocked _ _ _ hx
        cases flag2 with
        | true => exact Or.inl hvx.symm
        | false => exact Or.inr hvx.symm
      · rw [hm] at hsl
        cases hsl)
    hN hinv h
  refine ⟨h1, ?_⟩
  intro r w flag v hv
  obtain ⟨⟨hr1, hr2, _⟩, _⟩ := h1.store.entries r w flag v hv
  exact h2 r (w, flag) v hr1 hr2 hv

/-! ## Runs in mode 3 from any store -/

theorem extremumPart_three_ne_found (wallgraph : wallgraphvector) (thisnode : node)
    (S : List node) (K : memoize) (b : Bool) (K2 : memoize) :
    extremumPart wallgraph 3 thisnode S K ≠ .found b K2 := by
  unfold extremumPart
  simp only
  intro h
  split at h
  · split at h
    · split at h
      · simp at h
      · rw [if_neg (by omega)] at h
        simp at h
    · rw [if_neg (by decide), if_neg (by decide)] at h
      simp at h
  · simp at h

theorem expandNode_three_ne_found (wallgraph : wallgraphvector)
    (pattern intermediates : patternvector) (N : Nat) (thisnode : node)
    (S : List node) (K : memoize) (b : Bool) (K2 : memoize) :
    expandNode wallgraph pattern intermediates N 3 thisnode S K ≠ .found b K2 := by
  unfold expandNode
  simp only
  intro h
  split at h
  · simp at h
  · split at h
    · simp at h
    · split at h
      · simp at h
      · split at h
        · simp at h
        · split at h
          · split at h
            · simp at h
            · rw [if_neg (by omega)] at h
              exact extremumPart_three_ne_found _ _ _ _ _ _ h
          · exact extremumPart_three_ne_found _ _ _ _ _ _ h

theorem searchStep_three_ne_found (wallgraph : wallgraphvector)
    (pattern intermediates : patternvector) (N : Nat) (thisnode : node)
    (S : List node) (K : memoize) (b : Bool) (K2 : memoize) :
    searchStep wallgraph pattern intermediates N 3 thisnode S K ≠ .found b K2 := by
  unfold searchStep
  simp only
  intro h
  split at h
  · split at h
    · rw [if_neg (by decide), if_neg (by decide)] at h
      exact expandNode_three_ne_found _ _ _ _ _ _ _ _ _ h
    · split at h
      · simp at h
      · exact expandNode_three_ne_found _ _ _ _ _ _ _ _ _ h
  · exact expandNode_three_ne_found _ _ _ _ _ _ _ _ _ h

theorem searchLoop_three_invariant {wallgraph : wallgraphvector} {pattern : patternvector}
    (J : List node → memoize → Prop)
    (hJ : ∀ thisnode S K S2 K2, J (thisnode :: S) K →
      searchStep wallgraph pattern (intermediatesOf pattern) pattern.length 3 thisnode S K
        = .next S2 K2 → J S2 K2)
    (bfuel fuel : Nat) :
    ∀ (S : List node) (K : memoize) (c : Nat) (K3 : memoize), J S K →
      searchLoop wallgraph pattern (intermediatesOf pattern) pattern.length 3 bfuel fuel S K
        = some (.value (c, K3)) →
      ∃ K2, J [] K2 ∧ _backFill wallgraph bfuel pattern.length 3 K2 = some (.value K3) ∧
        c = countLayer (layerAt K3 pattern.length) := by
  induction fuel with
  | zero =>
    intro S K c K3 _ h
    simp [searchLoop] at h
  | succ fuel ih =>
    intro S K c K3 hj h
    cases S with
    | nil =>
      simp only [searchLoop] at h
      unfold finishSearch at h
      split at h
      · simp at h
      · simp at h
      · next k hk =>
        rw [if_neg (by decide)] at h
        simp only [Option.some.injEq, Outcome.value.injEq, Prod.mk.injEq] at h
        refine ⟨K, hj, ?_, ?_⟩
        · rw [hk, h.2]
        · rw [← h.2, h.1]
    | cons thisnode rest =>
      simp only [searchLoop] at h
      split at h
      · simp at h
      · next k hk => exact absurd hk (searchStep_three_ne_found _ _ _ _ _ _ _ _ _)
      · next k hk => exact absurd hk (searchStep_three_ne_found _ _ _ _ _ _ _ _ _)
      · next S2 K2 hk => exact ih S2 K2 c K3 (hJ thisnode rest K S2 K2 hj hk) h

/-! ## The count returned in mode 3 -/

theorem countLayer_foldl (layer : pathElementMap) (acc : Nat) (hacc : acc < u64) :
    ((layer.foldl (fun count kvp => addU64 count kvp.2) acc : Nat) : Int)
      = ((acc : Int) + (layer.map Prod.snd).sum) % u64 := by
  induction layer generalizing acc with
  | nil =>
    simp only [List.foldl_nil, List.map_nil, List.sum_nil, add_zero]
    rw [Int.emod_eq_of_lt (by omega) (by exact_mod_cast hacc)]
  | cons kv rest ih =>
    rw [List.foldl_cons, ih _ (addU64_lt _ _), addU64_cast, Int.emod_add_emod]
    simp only [List.map_cons, List.sum_cons]
    congr 1
    ring

theorem layer_values {m : pathElementMap} (h : MapSorted m) :
    m.map Prod.snd = (m.map Prod.fst).map (fun k => (mapFind m k).getD 0) := by
  rw [List.map_map]
  apply List.map_congr_left
  intro kv hkv
  obtain ⟨k, v⟩ := kv
  simp [mapFind_of_mem h hkv]

theorem top_layer_sum {wallgraph : wallgraphvector} {pattern : patternvector}
    {V : Nat → Nat → Bool → Int} (hV : Settles wallgraph pattern V) {K : memoize}
    (hinv : SearchInv wallgraph pattern V [] K)
    (hval : ∀ r w flag v, mapFind (layerAt K r) (w, flag) = some v → v = V w r flag) :
    ((layerAt K pattern.length).map Prod.snd).sum = valueTotal wallgraph pattern V := by
  have hsorted := hinv.store.sorted pattern.length
  have hget : ∀ w, w < wallgraph.length → ∀ flag,
      (mapFind (layerAt K pattern.length) (w, flag)).getD 0 = V w pattern.length flag := by
    intro w hw flag
    rcases hinv.cover w hw with hp | hp
    · cases hfind : mapFind (layerAt K pattern.length) (w, flag) with
      | none =>
        cases flag with
        | true => exact absurd hfind hp.1
        | false => exact absurd hfind hp.2
      | some v => simpa using hval _ w flag v hfind
    · simp at hp
  have hkeys : ((layerAt K pattern.length).map Prod.fst).toFinset
      = (Finset.range wallgraph.length) ×ˢ (Finset.univ : Finset Bool) := by
    ext k
    obtain ⟨w, flag⟩ := k
    simp only [List.mem_toFinset, Finset.mem_product, Finset.mem_range, Finset.mem_univ,
      and_true]
    rw [← mapFind_ne_none_iff]
    constructor
    · intro h
      cases hfind : mapFind (layerAt K pattern.length) (w, flag) with
      | none => exact absurd hfind h
      | some v => exact (hinv.store.entries _ w flag v hfind).1.2.2
    · intro hw
      rcases hinv.cover w hw with hp | hp
      · cases flag with
        | true => exact hp.1
        | false => exact hp.2
      · simp at hp
  rw [layer_values hsorted, ← List.sum_toFinset _ (mapSorted_nodup hsorted), hkeys,
    Finset.sum_product]
  have hinner : ∀ w ∈ Finset.range wallgraph.length,
      (∑ flag : Bool, (mapFind (layerAt K pattern.length) (w, flag)).getD 0)
        = V w pattern.length true := by
    intro w hw
    rw [Fintype.sum_bool, hget w (Finset.mem_range.1 hw) true,
      hget w (Finset.mem_range.1 hw) false, val_top_false hV (Finset.mem_range.1 hw)]
    simp
  rw [Finset.sum_congr rfl hinner]
  unfold valueTotal
  have hrange : (List.range wallgraph.length).toFinset = Finset.range wallgraph.length := by
    ext w
    simp
  rw [← List.sum_toFinset _ (List.nodup_range _), hrange]

theorem countLayer_values {wallgraph : wallgraphvector} {pattern : patternvector}
    {V : Nat → Nat → Bool → Int} (hV : Settles wallgraph pattern V) {K : memoize}
    (hinv : SearchInv wallgraph pattern V [] K)
    (hval : ∀ r w flag v, mapFind (layerAt K r) (w, flag) = some v → v = V w r flag) :
    countLayer (layerAt K pattern.length)
      = (valueTotal wallgraph pattern V % (u64 : Int)).toNat := by
  have h := countLayer_foldl (layerAt K pattern.length) 0 (by unfold u64; norm_num)
  simp only [Nat.cast_zero, zero_add] at h
  rw [top_layer_sum hV hinv hval] at h
  unfold countLayer
  rw [← h]
  simp

theorem exists_rank_bound (rank : Nat → Nat) (n : Nat) : ∃ R, ∀ w, w < n → rank w < R := by
  induction n with
  | zero => exact ⟨0, fun w h => absurd h (Nat.not_lt_zero w)⟩
  | succ n ih =>
    obtain ⟨R, hR⟩ := ih
    refine ⟨max R (rank n + 1), ?_⟩
    intro w hw
    by_cases h : w = n
    · subst h
      exact lt_of_lt_of_le (Nat.lt_succ_self _) (le_max_right _ _)
    · exact lt_of_lt_of_le (hR w (by omega)) (le_max_left _ _)

theorem intermediateSweep_total {wallgraph : wallgraphvector} {pattern : patternvector}
    {V : Nat → Nat → Bool → Int} {rank : Nat → Nat} (hac : Acyclic wallgraph rank)
    (hV : Settles wallgraph pattern V) (i j : Nat)
    (hns : ∀ w, w < wallgraph.length → V w i false ≠ -1) (keys : List keypair) :
    ∀ (K : memoize) (done : Bool), SearchInv wallgraph pattern V [] K →
      (∀ w, mapFind (layerAt K i) (w, true) ≠ some (-1)) →
      (∀ w, mapFind (layerAt K i) (w, false) = some (-1) → j ≤ rank w) →
      ∃ K2 done2, intermediateSweep wallgraph i 3 keys K done = .value (K2, done2) ∧
        SearchInv wallgraph pattern V [] K2 ∧
        (∀ w, mapFind (layerAt K2 i) (w, true) ≠ some (-1)) ∧
        (∀ w, mapFind (layerAt K2 i) (w, false) = some (-1) →
          mapFind (layerAt K i) (w, false) = some (-1)) ∧
        (∀ w, (w, false) ∈ keys → mapFind (layerAt K2 i) (w, false) = some (-1) →
          j < rank w) ∧
        ((∀ w, mapFind (layerAt K i) (w, false) ≠ some (-1)) → done2 = done) := by
  induction keys with
  | nil =>
    intro K done hinv hT _
    exact ⟨K, done, rfl, hinv, hT, fun _ h => h, by simp, fun _ => rfl⟩
  | cons key rest ih =>
    intro K done hinv hT hrank
    obtain ⟨w, flag⟩ := key
    have hskip : (mapFind (layerAt K i) (w, flag) ≠ some (-1) ∨ flag = true) →
        intermediateSweep wallgraph i 3 ((w, flag) :: rest) K done
          = intermediateSweep wallgraph i 3 rest K done →
        ∃ K2 done2, intermediateSweep wallgraph i 3 ((w, flag) :: rest) K done
            = .value (K2, done2) ∧
          SearchInv wallgraph pattern V [] K2 ∧
          (∀ w, mapFind (layerAt K2 i) (w, true) ≠ some (-1)) ∧
          (∀ w, mapFind (layerAt K2 i) (w, false) = some (-1) →
            mapFind (layerAt K i) (w, false) = some (-1)) ∧
          (∀ w2, (w2, false) ∈ (w, flag) :: rest →
            mapFind (layerAt K2 i) (w2, false) = some (-1) → j < rank w2) ∧
          ((∀ w, mapFind (layerAt K i) (w, false) ≠ some (-1)) → done2 = done) := by
      intro hnp heq
      obtain ⟨K2, done2, h1, h2, h3, h4, h5, h6⟩ := ih K done hinv hT hrank
      refine ⟨K2, done2, by rw [heq, h1], h2, h3, h4, ?_, h6⟩
      intro w2 hm hp
      rcases List.mem_cons.1 hm with hm | hm
      · simp only [Prod.mk.injEq] at hm
        obtain ⟨hm1, hm2⟩ := hm
        subst hm1 hm2
        rcases hnp with hnp | hnp
        · exact absurd (h4 w2 hp) hnp
        · simp at hnp
      · exact h5 w2 hm hp
    cases hfind : mapFind (layerAt K i) (w, flag) with
    | none =>
      refine hskip (Or.inl (by rw [hfind]; simp)) ?_
      conv_lhs => unfold intermediateSweep
      simp only [hfind]
    | some v =>
      by_cases hc : flag = true ∨ v > -1
      · refine hskip ?_ ?_
        · rcases hc with hc | hc
          · exact Or.inr hc
          · left
            rw [hfind]
            simp only [ne_eq, Option.some.injEq]
            omega
        · conv_lhs => unfold intermediateSweep
          simp only [hfind]
          rw [if_pos hc]
      · have hflag : flag = false := by
          cases flag with
          | true => exact absurd (Or.inl rfl) hc
          | false => rfl
        subst hflag
        have hv : v ≤ -1 := by
          by_contra hne
          exact hc (Or.inr (by omega))
        obtain ⟨⟨hi1, hi2, hw⟩, _⟩ := hinv.store.entries i w false v hfind
        obtain ⟨ws, hws⟩ := getElem_of_lt hw
        have hunf : intermediateSweep wallgraph i 3 ((w, false) :: rest) K done
            = intermediateSweep wallgraph i 3 rest
                (_sumcounts (w, false) ws.outedges i 3 K).2
                (done && (_sumcounts (w, false) ws.outedges i 3 K).1) := by
          conv_lhs => unfold intermediateSweep
          simp only [hfind, hws]
          rw [if_neg hc]
        rcases sumcounts_three_cases (w, false) ws.outedges i K with
          ⟨hsc, hsl⟩ | ⟨n, hsl, hsc⟩
        · -- a neighbour is pending: the entry stays as it is
          rw [dependencyLayer_false] at hsl
          rw [hsc] at hunf
          simp only [Bool.and_false] at hunf
          obtain ⟨K2, done2, h1, h2, h3, h4, h5, h6⟩ := ih K false hinv hT hrank
          obtain ⟨x, hx, hxp⟩ : ∃ x ∈ ws.outedges,
              mapFind (layerAt K i) (x, false) = some (-1) := by
            rcases sumLoop_three_cases (layerAt K i) ws.outedges 0 with
              ⟨_, x, hx, flag2, hx2⟩ | ⟨m, hm⟩
            · cases flag2 with
              | true => exact absurd hx2 (hT x)
              | false => exact ⟨x, hx, hx2⟩
            · rw [hm] at hsl
              cases hsl
          have hjw : j < rank w := by
            have hxo : x ∈ outedgesOf wallgraph w := by rw [outedgesOf_eq hws]; exact hx
            have hlt := hac w hw x hxo
            have := hrank x hxp
            omega
          refine ⟨K2, done2, by rw [hunf, h1], h2, h3, h4, ?_, ?_⟩
          · intro w2 hm hp
            rcases List.mem_cons.1 hm with hm | hm
            · simp only [Prod.mk.injEq, and_true] at hm
              rw [hm]; exact hjw
            · exact h5 w2 hm hp
          · intro hno
            exact absurd hxp (hno x)
        · -- the sum is written
          rw [dependencyLayer_false] at hsl
          obtain ⟨hinv1, hval, _⟩ := sumcounts_write hV hinv hws false (by simp)
            ⟨v, hfind, hv, fun hf => by simp at hf⟩ (by simpa using hsl)
          have hne1 : toInt64 n ≠ -1 := by rw [hval]; exact hns w hw
          rw [hsc] at hunf
          simp only [Bool.and_true] at hunf
          have hK1 : ∀ r2 key, (r2 ≠ i ∨ key ≠ (w, false)) →
              mapFind (layerAt (setEntry K i (w, false) (toInt64 n)) r2) key
                = mapFind (layerAt K r2) key := fun r2 key hne => entry_setEntry_other _ hne
          have hpend1 : ∀ r2 key,
              mapFind (layerAt (setEntry K i (w, false) (toInt64 n)) r2) key = some (-1) →
              mapFind (layerAt K r2) key = some (-1) := by
            intro r2 key h
            rcases entry_setEntry_cases h with ⟨_, _, h3⟩ | h1
            · exact absurd h3.symm hne1
            · exact h1
          obtain ⟨K2, done2, h1, h2, h3, h4, h5, h6⟩ :=
            ih (setEntry K i (w, false) (toInt64 n)) done hinv1
              (fun w2 h => hT w2 (hpend1 i _ h))
              (fun w2 h => hrank w2 (hpend1 i _ h))
          refine ⟨K2, done2, by rw [hunf, h1], h2, h3, ?_, ?_, ?_⟩
          · intro w2 hp
            exact hpend1 i _ (h4 w2 hp)
          · intro w2 hm hp
            rcases List.mem_cons.1 hm with hm | hm
            · simp only [Prod.mk.injEq, and_true] at hm
              subst hm
              have := h4 w2 hp
              rw [entry_setEntry_self _ _ (entry_of_absent_layer hfind)] at this
              simp only [Option.some.injEq] at this
              exact absurd this hne1
            · exact h5 w2 hm hp
          · intro hno
            exact h6 (fun w2 h => hno w2 (hpend1 i _ h))

theorem backFillIntermediateLoop_settled {wallgraph : wallgraphvector}
    {pattern : patternvector} {V : Nat → Nat → Bool → Int} {rank : Nat → Nat}
    (hac : Acyclic wallgraph rank) (hV : Settles wallgraph pattern V) (i numiterations : Nat)
    (hns : ∀ w, w < wallgraph.length → V w i false ≠ -1) (m : Nat) :
    ∀ (K : memoize) (count : Nat) (done : Bool), numiterations + 1 ≤ count + m →
      SearchInv wallgraph pattern V [] K →
      (∀ w, mapFind (layerAt K i) (w, true) ≠ some (-1)) →
      (∀ w, mapFind (layerAt K i) (w, false) ≠ some (-1)) →
      ∃ fuel K2, backFillIntermediateLoop wallgraph i 3 numiterations fuel count done K
        = some (.value K2) := by
  induction m with
  | zero =>
    intro K count done hle hinv hT hF
    by_cases hc : done = false ∨ count < numiterations + 1
    · rcases hc with hc | hc
      · obtain ⟨K1, done1, h1, h2, h3, h4, _, h6⟩ :=
          intermediateSweep_total hac hV i 0 hns ((layerAt K i).map Prod.fst) K true hinv hT
            (fun _ _ => Nat.zero_le _)
        have hd1 : done1 = true := h6 hF
        subst hd1
        refine ⟨2, K1, ?_⟩
        unfold backFillIntermediateLoop
        rw [if_pos (Or.inl hc), h1]
        simp only
        unfold backFillIntermediateLoop
        rw [if_neg (by simp; omega)]
      · omega
    · exact ⟨1, K, by unfold backFillIntermediateLoop; rw [if_neg hc]⟩
  | succ m ih =>
    intro K count done hle hinv hT hF
    by_cases hc : done = false ∨ count < numiterations + 1
    · obtain ⟨K1, done1, h1, h2, h3, h4, _, h6⟩ :=
        intermediateSweep_total hac hV i 0 hns ((layerAt K i).map Prod.fst) K true hinv hT
          (fun _ _ => Nat.zero_le _)
      have hd1 : done1 = true := h6 hF
      subst hd1
      obtain ⟨fuel, K2, hfuel⟩ := ih K1 (count + 1) true (by omega) h2 h3
        (fun w h => hF w (h4 w h))
      refine ⟨fuel + 1, K2, ?_⟩
      unfold backFillIntermediateLoop
      rw [if_pos hc, h1]
      exact hfuel
    · exact ⟨1, K, by unfold backFillIntermediateLoop; rw [if_neg hc]⟩

theorem backFillIntermediateLoop_total {wallgraph : wallgraphvector} {pattern : patternvector}
    {V : Nat → Nat → Bool → Int} {rank : Nat → Nat} (hac : Acyclic wallgraph rank)
    (hV : Settles wallgraph pattern V) (i numiterations R : Nat)
    (hns : ∀ w, w < wallgraph.length → V w i false ≠ -1)
    (hR : ∀ w, w < wallgraph.length → rank w < R) (d : Nat) :
    ∀ (j : Nat) (K : memoize) (count : Nat) (done : Bool), R ≤ j + d →
      SearchInv wallgraph pattern V [] K →
      (∀ w, mapFind (layerAt K i) (w, true) ≠ some (-1)) →
      (∀ w, mapFind (layerAt K i) (w, false) = some (-1) → j ≤ rank w) →
      ∃ fuel K2, backFillIntermediateLoop wallgraph i 3 numiterations fuel count done K
          = some (.value K2) := by
  induction d with
  | zero =>
    intro j K count done hle hinv hT hrank
    have hF : ∀ w, mapFind (layerAt K i) (w, false) ≠ some (-1) := by
      intro w h
      have hw := (hinv.store.entries i w false (-1) h).1.2.2
      have h1 := hrank w h
      have h2 := hR w hw
      omega
    exact backFillIntermediateLoop_settled hac hV i numiterations hns (numiterations + 1) K
      count done (by omega) hinv hT hF
  | succ d ih =>
    intro j K count done hle hinv hT hrank
    by_cases hc : done = false ∨ count < numiterations + 1
    · obtain ⟨K1, done1, h1, h2, h3, h4, h5, _⟩ :=
        intermediateSweep_total hac hV i j hns ((layerAt K i).map Prod.fst) K true hinv hT
          hrank
      have hkeys : ∀ w, mapFind (layerAt K1 i) (w, false) = some (-1) →
          (w, false) ∈ (layerAt K i).map Prod.fst := by
        intro w h
        rw [← mapFind_ne_none_iff, h4 w h]
        simp
      obtain ⟨fuel, K2, hfuel⟩ :=
        ih (j + 1) K1 (count + 1) done1 (by omega) h2 h3 (fun w h => h5 w (hkeys w h) h)
      refine ⟨fuel + 1, K2, ?_⟩
      unfold backFillIntermediateLoop
      rw [if_pos hc, h1]
      exact hfuel
    · exact ⟨1, K, by unfold backFillIntermediateLoop; rw [if_neg hc]⟩

theorem backFillIntermediate_total {wallgraph : wallgraphvector} {pattern : patternvector}
    {V : Nat → Nat → Bool → Int} {rank : Nat → Nat} (hac : Acyclic wallgraph rank)
    (hV : Settles wallgraph pattern V) (i : Nat)
    (hns : ∀ w, w < wallgraph.length → V w i false ≠ -1) {K : memoize}
    (hinv : SearchInv wallgraph pattern V [] K)
    (hT : ∀ w, mapFind (layerAt K i) (w, true) ≠ some (-1)) :
    ∃ fuel K2, _backFillIntermediate wallgraph fuel i 3 K = some (.value K2) := by
  obtain ⟨R, hR⟩ := exists_rank_bound rank wallgraph.length
  exact backFillIntermediateLoop_total hac hV i (layerAt K i).length R hns hR R 0 K 0 false
    (by omega) hinv hT (fun _ _ => Nat.zero_le _)

/-! ## The values left by one layer of the backward fill -/

theorem sumcounts_blocked {wallgraph : wallgraphvector} {pattern : patternvector}
    {V : Nat → Nat → Bool → Int} (hV : Settles wallgraph pattern V) {K : memoize}
    (hq : SearchInv wallgraph pattern V [] K) {w r : Nat} {ws : wallStruct}
    (hws : wallgraph[w]? = some ws) (hr : 2 ≤ r)
    (hp : mapFind (layerAt K r) (w, true) = some (-1))
    (hlow : ∀ key v, mapFind (layerAt K (r - 1)) key = some v → v = V key.1 (r - 1) key.2)
    (hsl : sumLoop 3 (layerAt K (r - 1)) ws.outedges 0 = .pending) :
    (-1 : Int) = V w r true := by
  have hw := lt_of_getElem hws
  have hout := outedgesOf_eq hws
  obtain ⟨⟨hr1, hr2, _⟩, hok⟩ := hq.store.entries r w true (-1) hp
  have hmatch := entryOk_pending hV hw hr1 hr2 hok
  simp only [if_true] at hmatch
  have hpres := sumcounts_present hq hws true ⟨-1, hp, le_refl _, fun _ => rfl⟩
  simp only [if_true] at hpres
  have hguard : ∀ x ∈ outedgesOf wallgraph w, x < wallgraph.length := by
    intro x hx
    rw [hout] at hx
    cases hx1 : mapFind (layerAt K (r - 1)) (x, true) with
    | none => exact absurd hx1 (hpres x hx).1
    | some t => exact (hq.store.entries (r - 1) x true t hx1).1.2.2
  rcases sumLoop_three_cases (layerAt K (r - 1)) ws.outedges 0 with
    ⟨_, x, hx, flag2, hx2⟩ | ⟨m, hm⟩
  · have hvx := hlow (x, flag2) (-1) hx2
    simp only at hvx
    rw [val_extremum hV hw hr hr2 hmatch hguard, hout]
    symm
    apply combine_blocked _ _ _ hx
    cases flag2 with
    | true => exact Or.inl hvx.symm
    | false => exact Or.inr hvx.symm
  · rw [hm] at hsl
    cases hsl

theorem extremumPass_values {wallgraph : wallgraphvector} {pattern : patternvector}
    {V : Nat → Nat → Bool → Int} (hV : Settles wallgraph pattern V) {i : Nat} (hi : 2 ≤ i)
    {keys : List keypair} (hnd : keys.Nodup) {K K2 : memoize}
    (hinv : SearchInv wallgraph pattern V [] K)
    (h : extremumPass wallgraph i 3 keys K = .value K2)
    (hlow : ∀ key v, mapFind (layerAt K (i - 1)) key = some v → v = V key.1 (i - 1) key.2) :
    SearchInv wallgraph pattern V [] K2 ∧
      (∀ r2 key, (r2 ≠ i ∨ key.2 = false ∨ key ∉ keys) →
        mapFind (layerAt K2 r2) key = mapFind (layerAt K r2) key) ∧
      (∀ w, (w, true) ∈ keys → ∀ v, mapFind (layerAt K2 i) (w, true) = some v →
        v = V w i true) :=
  extremumPass_final (fun K => SearchInv wallgraph pattern V [] K)
    (fun r key v => v = V key.1 r key.2) i hi
    (fun K r key v hq hv hne => entryOk_settled (hq.store.entries r key.1 key.2 v hv).2 hne)
    (fun K w ws n hq hws hp hsl =>
      ⟨(sumcounts_write hV hq hws true (fun _ => hi) ⟨-1, hp, le_refl _, fun _ => rfl⟩
          (by simpa using hsl)).1,
        (sumcounts_write hV hq hws true (fun _ => hi) ⟨-1, hp, le_refl _, fun _ => rfl⟩
          (by simpa using hsl)).2.1⟩)
    (fun K w ws hq hws hp hlow2 hsl => sumcounts_blocked hV hq hws hi hp hlow2 hsl)
    keys hnd K K2 hinv h hlow

theorem backFillIntermediate_values {wallgraph : wallgraphvector} {pattern : patternvector}
    {V : Nat → Nat → Bool → Int} (hV : Settles wallgraph pattern V) {i fuel : Nat}
    {K K2 : memoize} (hinv : SearchInv wallgraph pattern V [] K)
    (h : _backFillIntermediate wallgraph fuel i 3 K = some (.value K2)) :
    SearchInv wallgraph pattern V [] K2 ∧
      (∀ r2 key, (r2 ≠ i ∨ key.2 = true) →
        mapFind (layerAt K2 r2) key = mapFind (layerAt K r2) key) ∧
      (∀ w v, mapFind (layerAt K2 i) (w, false) = some v → v = V w i false) :=
  backFillIntermediateLoop_final (fun K => SearchInv wallgraph pattern V [] K)
    (fun r key v => v = V key.1 r key.2) i (fun K hq => hq.store.sorted)
    (fun K r key v hq hv hne => entryOk_settled (hq.store.entries r key.1 key.2 v hv).2 hne)
    (fun K w ws n hq hws hp hsl => by
      obtain ⟨v, hv1, hv2⟩ := hp
      have := sumcounts_write hV hq hws false (by simp) ⟨v, hv1, hv2, fun hf => by simp at hf⟩
        (by simpa using hsl)
      exact ⟨this.1, this.2.1⟩)
    _ fuel 0 false K K2 hinv h (fun hd => by simp at hd)

/-! ## Termination of `_backFill` -/

theorem extremumPass_total {wallgraph : wallgraphvector} (i : Nat) (keys : List keypair)
    (hk : ∀ key ∈ keys, key.1 < wallgraph.length) :
    ∀ K, ∃ K2, extremumPass wallgraph i 3 keys K = .value K2 := by
  induction keys with
  | nil => exact fun K => ⟨K, rfl⟩
  | cons key rest ih =>
    intro K
    obtain ⟨ws, hws⟩ := getElem_of_lt (hk key (List.mem_cons_self _ _))
    have ih2 := ih (fun k hk2 => hk k (List.mem_cons_of_mem _ hk2))
    unfold extremumPass
    simp only [hws]
    split
    · exact ih2 K
    · split
      · exact ih2 _
      · exact ih2 K

theorem intermediateSweep_idle {wallgraph : wallgraphvector} (i : Nat) (keys : List keypair)
    (K : memoize) (done : Bool)
    (h : ∀ w v, mapFind (layerAt K i) (w, false) = some v → v > -1) :
    intermediateSweep wallgraph i 3 keys K done = .value (K, done) := by
  induction keys with
  | nil => rfl
  | cons key rest ih =>
    obtain ⟨w, flag⟩ := key
    unfold intermediateSweep
    split
    · exact ih
    · next v hv =>
      rw [if_pos]
      · exact ih
      · cases flag with
        | true => exact Or.inl rfl
        | false => exact Or.inr (h w v hv)

theorem backFillIntermediate_idle {wallgraph : wallgraphvector} (i : Nat) (K : memoize)
    (h : ∀ w v, mapFind (layerAt K i) (w, false) = some v → v > -1) :
    ∃ fuel, _backFillIntermediate wallgraph fuel i 3 K = some (.value K) := by
  have hloop : ∀ (numiterations m count : Nat) (done : Bool),
      numiterations + 1 ≤ count + m →
      ∃ fuel, backFillIntermediateLoop wallgraph i 3 numiterations fuel count done K
        = some (.value K) := by
    intro numiterations m
    induction m with
    | zero =>
      intro count done hle
      by_cases hc : done = false ∨ count < numiterations + 1
      · rcases hc with hc | hc
        · refine ⟨2, ?_⟩
          unfold backFillIntermediateLoop
          rw [if_pos (Or.inl hc), intermediateSweep_idle i _ K true h]
          simp only
          unfold backFillIntermediateLoop
          rw [if_neg (by simp; omega)]
        · omega
      · exact ⟨1, by unfold backFillIntermediateLoop; rw [if_neg hc]⟩
    | succ m ih =>
      intro count done hle
      by_cases hc : done = false ∨ count < numiterations + 1
      · obtain ⟨fuel, hfuel⟩ := ih (count + 1) true (by omega)
        refine ⟨fuel + 1, ?_⟩
        unfold backFillIntermediateLoop
        rw [if_pos hc, intermediateSweep_idle i _ K true h]
        exact hfuel
      · exact ⟨1, by unfold backFillIntermediateLoop; rw [if_neg hc]⟩
  unfold _backFillIntermediate
  exact hloop _ ((layerAt K i).length + 1) 0 false (by omega)

theorem leavesAssigned_three {wallgraph : wallgraphvector} {pattern : patternvector}
    {V : Nat → Nat → Bool → Int} (hV : Settles wallgraph pattern V) {K : memoize}
    (hinv : SearchInv wallgraph pattern V [] K) :
    leavesAssigned (layerAt K 1) = true := by
  unfold leavesAssigned
  rw [List.all_eq_true]
  intro kvp hk
  obtain ⟨⟨w, flag⟩, v⟩ := kvp
  have hfind := mapFind_of_mem (hinv.store.sorted 1) hk
  cases flag with
  | false => simp
  | true =>
    obtain ⟨⟨_, _, hw⟩, hok⟩ := hinv.store.entries 1 w true v hfind
    have hne : v ≠ -1 := by
      intro hv
      rw [hv] at hfind
      exact hinv.leaves w hfind
    have hv := entryOk_settled hok hne
    rcases val_leaf_cases hV hw with h0 | h1
    · have : v = 0 := by rw [hv, h0]
      simp [this]
    · have : v = 1 := by rw [hv, h1]
      simp [this]

theorem top_intermediate_zero {wallgraph : wallgraphvector} {pattern : patternvector}
    {V : Nat → Nat → Bool → Int} (hV : Settles wallgraph pattern V) {S : List node}
    {K : memoize} (hinv : SearchInv wallgraph pattern V S K) {w : Nat} {v : Int}
    (h : mapFind (layerAt K pattern.length) (w, false) = some v) : v = 0 := by
  obtain ⟨⟨_, _, hw⟩, hok⟩ := hinv.store.entries _ w false v h
  rcases hok with hok | hok
  · rw [hok, val_top_false hV hw]
  · have := hok.2
    simp only [Bool.false_eq_true, if_false] at this
    omega

theorem backFillLayers_total {wallgraph : wallgraphvector} {pattern : patternvector}
    {V : Nat → Nat → Bool → Int} {rank : Nat → Nat} (hac : Acyclic wallgraph rank)
    (hV : Settles wallgraph pattern V)
    (hns : ∀ w, w < wallgraph.length → ∀ r, 1 ≤ r → r < pattern.length →
      ∀ flag, V w r flag ≠ -1) (todo : Nat) :
    ∀ (i : Nat) (K : memoize), 2 ≤ i → i + todo = pattern.length + 1 →
      SearchInv wallgraph pattern V [] K →
      (∀ r2 key v, 1 ≤ r2 → r2 < i → mapFind (layerAt K r2) key = some v →
        v = V key.1 r2 key.2) →
      ∃ fuel K2, backFillLayers wallgraph fuel 3 todo i K = some (.value K2) := by
  induction todo with
  | zero =>
    intro i K _ _ _ _
    exact ⟨0, K, rfl⟩
  | succ todo ih =>
    intro i K hi hsum hinv hlow
    have hnd := mapSorted_nodup (hinv.store.sorted i)
    obtain ⟨K1, h1⟩ := extremumPass_total i ((layerAt K i).map Prod.fst)
      (fun key hk => by
        have hne := mapFind_ne_none_iff.2 hk
        cases hf : mapFind (layerAt K i) key with
        | none => exact absurd hf hne
        | some v => exact (hinv.store.entries i key.1 key.2 v hf).1.2.2) K
    obtain ⟨hinv1, hfr1, hval1⟩ := extremumPass_values hV hi hnd hinv h1
      (fun key v hv => hlow (i - 1) key v (by omega) (by omega) hv)
    have hT1 : ∀ w v, mapFind (layerAt K1 i) (w, true) = some v → v = V w i true := by
      intro w v hv
      by_cases hk : (w, true) ∈ (layerAt K i).map Prod.fst
      · exact hval1 w hk v hv
      · exfalso
        rw [hfr1 i (w, true) (Or.inr (Or.inr hk))] at hv
        rw [← mapFind_ne_none_iff] at hk
        exact hk (by rw [hv]; simp)
    obtain ⟨fuel1, K2, h2⟩ : ∃ fuel K2,
        _backFillIntermediate wallgraph fuel i 3 K1 = some (.value K2) := by
      by_cases htop : i = pattern.length
      · subst htop
        obtain ⟨fuel, hfuel⟩ := @backFillIntermediate_idle wallgraph
          pattern.length K1 (fun w v hv => by
            have := top_intermediate_zero hV hinv1 hv
            omega)
        exact ⟨fuel, K1, hfuel⟩
      · refine backFillIntermediate_total hac hV i ?_ hinv1 ?_
        · intro w hw
          exact hns w hw i (by omega) (by omega) false
        · intro w hp
          have hw := (hinv1.store.entries i w true (-1) hp).1.2.2
          exact hns w hw i (by omega) (by omega) true (hT1 w (-1) hp).symm
    obtain ⟨hinv2, hfr2, hval2⟩ := backFillIntermediate_values hV hinv1 h2
    have hlow2 : ∀ r2 key v, 1 ≤ r2 → r2 < i + 1 → mapFind (layerAt K2 r2) key = some v →
        v = V key.1 r2 key.2 := by
      intro r2 key v hr1 hr2 hv
      by_cases hr : r2 = i
      · subst hr
        obtain ⟨w, flag⟩ := key
        cases flag with
        | false => exact hval2 w v hv
        | true =>
          rw [hfr2 r2 (w, true) (Or.inr rfl)] at hv
          exact hT1 w v hv
      · rw [hfr2 r2 key (Or.inl hr), hfr1 r2 key (Or.inl hr)] at hv
        exact hlow r2 key v hr1 (by omega) hv
    obtain ⟨fuel2, K3, h3⟩ := ih (i + 1) K2 (by omega) (by omega) hinv2 hlow2
    refine ⟨max fuel1 fuel2, K3, ?_⟩
    unfold backFillLayers
    rw [h1]
    simp only
    rw [backFillIntermediate_mono (le_max_left fuel1 fuel2) h2]
    simp only
    exact backFillLayers_mono (le_max_right fuel1 fuel2) h3

theorem backFill_total {wallgraph : wallgraphvector} {pattern : patternvector}
    {V : Nat → Nat → Bool → Int} {rank : Nat → Nat} (hac : Acyclic wallgraph rank)
    (hV : Settles wallgraph pattern V)
    (hns : ∀ w, w < wallgraph.length → ∀ r, 1 ≤ r → r < pattern.length →
      ∀ flag, V w r flag ≠ -1)
    (hN : 1 ≤ pattern.length) {K : memoize}
    (hinv : SearchInv wallgraph pattern V [] K) :
    ∃ fuel K2, _backFill wallgraph fuel pattern.length 3 K = some (.value K2) := by
  obtain ⟨fuel1, K1, h1⟩ := backFillIntermediate_total hac hV 1 (fun w hw => by
      by_cases h1 : 1 = pattern.length
      · rw [h1, val_top_false hV hw]
        decide
      · exact hns w hw 1 (le_refl 1) (by omega) false) hinv hinv.leaves
  obtain ⟨hinv1, hfr1, hval1⟩ := backFillIntermediate_values hV hinv h1
  obtain ⟨fuel2, K2, h2⟩ :=
    backFillLayers_total hac hV hns (pattern.length - 1) 2 K1 (le_refl 2) (by omega) hinv1
      (fun r2 key v hr1 hr2 hv => by
        have hr : r2 = 1 := by omega
        subst hr
        obtain ⟨w, flag⟩ := key
        cases flag with
        | false => exact hval1 w v hv
        | true =>
          refine entryOk_settled (hinv1.store.entries 1 w true v hv).2 ?_
          intro hp
          rw [hp] at hv
          exact hinv1.leaves w hv)
  refine ⟨max fuel1 fuel2, K2, ?_⟩
  unfold _backFill
  rw [backFillIntermediate_mono (le_max_left fuel1 fuel2) h1]
  simp only
  rw [if_pos (leavesAssigned_three hV hinv1)]
  exact backFillLayers_mono (le_max_right fuel1 fuel2) h2

/-- On a well-formed acyclic graph whose values below the top layer are never
`-1`, the mode-3 search from a store satisfying the invariant returns, for all
large enough fuel, the sum of the top-layer values modulo `2 ^ 64`. -/
theorem patternMatch_inner_three {wallgraph : wallgraphvector} {pattern : patternvector}
    {L : Nat} {V : Nat → Nat → Bool → Int} {rank : Nat → Nat}
    (hwf : WellFormed wallgraph pattern L) (hac : Acyclic wallgraph rank)
    (hV : Settles wallgraph pattern V)
    (hns : ∀ w, w < wallgraph.length → ∀ r, 1 ≤ r → r < pattern.length →
      ∀ flag, V w r flag ≠ -1)
    (hN : 1 ≤ pattern.length) {K0 : memoize}
    (hinv0 : SearchInv wallgraph pattern V (initialStack wallgraph pattern.length) K0) :
    ∃ fuel K, (∀ n, _patternMatch wallgraph (fuel + n) pattern 3 K0
        = some (.value ((valueTotal wallgraph pattern V % (u64 : Int)).toNat, K))) ∧
      SearchInv wallgraph pattern V [] K ∧
      ∀ r w flag v, mapFind (layerAt K r) (w, flag) = some v → v = V w r flag := by
  obtain ⟨n1, K1, hdrain, hinv1, _⟩ :=
    drain_list (fun S K => SearchInv wallgraph pattern V S K ∧
        ∀ n ∈ S, n.1 < wallgraph.length) (initialStack wallgraph pattern.length)
      (fun c _ S K hinv => drain_node hwf hac hV c.2 c.1 S K hinv) [] K0
      ⟨by simpa using hinv0, fun n hn => by
        simp only [List.append_nil] at hn
        exact (mem_initialStack.1 hn).1⟩
  obtain ⟨fuel2, K2, hfill⟩ := backFill_total hac hV hns hN hinv1
  obtain ⟨hinv2, hval2⟩ := backFill_values hV hN hinv1 hfill
  refine ⟨n1 + 1 + fuel2, K2, ?_, hinv2, hval2⟩
  intro n
  have hcount := countLayer_values hV hinv2 hval2
  unfold _patternMatch
  have h1 := hdrain (n1 + 1 + fuel2 + n) (1 + fuel2 + n)
  simp only [List.append_nil] at h1
  rw [show n1 + (1 + fuel2 + n) = n1 + 1 + fuel2 + n by omega] at h1
  rw [h1, show 1 + fuel2 + n = (fuel2 + n) + 1 by omega]
  simp only [searchLoop, finishSearch]
  rw [backFill_mono (by omega) hfill]
  simp only
  rw [if_neg (by decide), hcount]

/-! ## From the recurrences of the walk count to the stored values -/

theorem toInt64_eq_add (n : Nat) : ∃ k : Int, toInt64 n = (n : Int) + k * (u64 : Int) := by
  unfold toInt64
  split
  · refine ⟨-((n / u64 : Nat) : Int), ?_⟩
    have := Nat.div_add_mod n u64
    have h2 : ((u64 * (n / u64) + n % u64 : Nat) : Int) = (n : Int) := by rw [this]
    push_cast at h2 ⊢
    linarith
  · refine ⟨-((n / u64 : Nat) : Int) - 1, ?_⟩
    have := Nat.div_add_mod n u64
    have h2 : ((u64 * (n / u64) + n % u64 : Nat) : Int) = (n : Int) := by rw [this]
    push_cast at h2 ⊢
    linarith

theorem sum_toInt64_pairs (a b : Nat → Nat) (l : List Nat) :
    ∃ k : Int, (l.map (fun x => toInt64 (a x) + toInt64 (b x))).sum
      = (((l.map (fun x => a x + b x)).sum : Nat) : Int) + k * (u64 : Int) := by
  induction l with
  | nil => exact ⟨0, by simp⟩
  | cons x rest ih =>
    obtain ⟨k, hk⟩ := ih
    obtain ⟨k1, h1⟩ := toInt64_eq_add (a x)
    obtain ⟨k2, h2⟩ := toInt64_eq_add (b x)
    refine ⟨k + k1 + k2, ?_⟩
    simp only [List.map_cons, List.sum_cons]
    rw [hk, h1, h2]
    push_cast
    ring

theorem sum_toInt64 (a : Nat → Nat) (l : List Nat) :
    ∃ k : Int, (l.map (fun x => toInt64 (a x))).sum
      = (((l.map a).sum : Nat) : Int) + k * (u64 : Int) := by
  induction l with
  | nil => exact ⟨0, by simp⟩
  | cons x rest ih =>
    obtain ⟨k, hk⟩ := ih
    obtain ⟨k1, h1⟩ := toInt64_eq_add (a x)
    refine ⟨k + k1, ?_⟩
    simp only [List.map_cons, List.sum_cons]
    rw [hk, h1]
    push_cast
    ring

theorem toNat_emod_add_mul (n : Nat) (k : Int) :
    ((((n : Nat) : Int) + k * (u64 : Int)) % (u64 : Int)).toNat = n % u64 := by
  rw [Int.add_mul_emod_self]
  have : ((n : Int) % (u64 : Int)) = ((n % u64 : Nat) : Int) := by
    push_cast
    rfl
  rw [this, Int.toNat_ofNat]

theorem combine_counts (a b : Nat → Nat) (outs : List Nat)
    (hns : ∀ x ∈ outs, toInt64 (a x) ≠ -1 ∧ toInt64 (b x) ≠ -1) :
    combine (fun x => toInt64 (a x)) (fun x => toInt64 (b x)) outs
      = toInt64 ((outs.map (fun x => a x + b x)).sum) := by
  unfold combine
  rw [if_neg]
  · obtain ⟨k, hk⟩ := sum_toInt64_pairs a b outs
    rw [hk, toNat_emod_add_mul, toInt64_mod]
  · intro hany
    rw [List.any_eq_true] at hany
    obtain ⟨x, hx, hx2⟩ := hany
    have := hns x hx
    simp only [Bool.or_eq_true, decide_eq_true_eq] at hx2
    rcases hx2 with h | h
    · exact this.1 h
    · exact this.2 h

theorem storedValue_ne_sentinel {wallgraph : wallgraphvector} {pattern : patternvector}
    {E I : Nat → Nat → Nat} (hsf : SentinelFree wallgraph pattern E I) {w r : Nat}
    (hw : w < wallgraph.length) (hr1 : 1 ≤ r) (hr2 : r < pattern.length) (flag : Bool) :
    storedValue E I pattern.length w r flag ≠ -1 := by
  unfold storedValue targetValue
  intro h
  rw [toInt64_eq_neg_one] at h
  have := hsf w hw r hr1 hr2
  cases flag with
  | true =>
    simp only [if_true] at h
    exact this.1 h
  | false =>
    simp only [Bool.false_eq_true, if_false] at h
    rw [if_neg (by omega)] at h
    exact this.2 h

/-- The stored counts of walk counts without a collision with the placeholder
satisfy the recurrences of the values. -/
theorem settles_of_walkCounts {wallgraph : wallgraphvector} {pattern : patternvector}
    {E I : Nat → Nat → Nat} (hrec : WalkCounts wallgraph pattern E I)
    (hsf : SentinelFree wallgraph pattern E I) :
    Settles wallgraph pattern (storedValue E I pattern.length) := by
  intro w hw
  have hsum : ∀ r, 1 ≤ r → r < pattern.length →
      (∀ x ∈ outedgesOf wallgraph w, x < wallgraph.length) →
      combine (fun x => storedValue E I pattern.length x r true)
          (fun x => storedValue E I pattern.length x r false) (outedgesOf wallgraph w)
        = toInt64 (((outedgesOf wallgraph w).map (fun x => E x r + I x r)).sum) := by
    intro r hr1 hr2 hout
    have hE : (fun x => storedValue E I pattern.length x r true)
        = fun x => toInt64 (E x r) := by
      funext x
      simp [storedValue, targetValue]
    have hI : (fun x => storedValue E I pattern.length x r false)
        = fun x => toInt64 (I x r) := by
      funext x
      simp only [storedValue, targetValue, Bool.false_eq_true, if_false]
      rw [if_neg (by omega)]
    rw [hE, hI]
    apply combine_counts
    intro x hx
    have h1 := storedValue_ne_sentinel hsf (hout x hx) hr1 hr2 true
    have h2 := storedValue_ne_sentinel hsf (hout x hx) hr1 hr2 false
    rw [show storedValue E I pattern.length x r true = toInt64 (E x r) from congrFun hE x] at h1
    rw [show storedValue E I pattern.length x r false = toInt64 (I x r) from congrFun hI x] at h2
    exact ⟨h1, h2⟩
  refine ⟨?_, ?_, ?_⟩
  · simp only [storedValue, targetValue, if_true]
    rw [(hrec w hw).1]
    split
    · exact toInt64_one
    · exact toInt64_zero
  · simp only [storedValue, targetValue, Bool.false_eq_true, if_false, if_true]
    exact toInt64_zero
  · intro r hr1 hr2
    obtain ⟨hE, hI⟩ := (hrec w hw).2 r hr2 hr1
    refine ⟨?_, ?_, ?_⟩
    · intro hm
      simp only [storedValue, targetValue, if_true]
      rw [hE, hm]
      simp only [Bool.false_eq_true, if_false]
      exact toInt64_zero
    · intro hm
      simp only [storedValue, targetValue, Bool.false_eq_true, if_false]
      rw [if_neg (by omega), hI, hm]
      simp only [Bool.false_eq_true, if_false]
      exact toInt64_zero
    · intro hout
      refine ⟨?_, ?_⟩
      · intro hm
        rw [hsum r hr1 hr2 hout]
        simp only [storedValue, targetValue, if_true]
        rw [hE, hm]
        simp
      · intro hm
        rw [hsum r hr1 hr2 hout]
        simp only [storedValue, targetValue, Bool.false_eq_true, if_false]
        rw [if_neg (by omega), hI, hm]
        simp

theorem valueTotal_counts (wallgraph : wallgraphvector) (pattern : patternvector)
    (E I : Nat → Nat → Nat) :
    (valueTotal wallgraph pattern (storedValue E I pattern.length) % (u64 : Int)).toNat
      = walkTotal wallgraph pattern E % u64 := by
  unfold valueTotal walkTotal
  have hE : (fun w => storedValue E I pattern.length w pattern.length true)
      = fun w => toInt64 (E w pattern.length) := by
    funext x
    simp [storedValue, targetValue]
  rw [hE]
  obtain ⟨k, hk⟩ := sum_toInt64 (fun w => E w pattern.length) (List.range wallgraph.length)
  rw [hk, toNat_emod_add_mul]

theorem patternMatch_single_inner {wallgraph : wallgraphvector} {pattern : patternvector}
    {findoption : Int} {fuel : Nat} {res : Nat × memoize} (hN : 1 ≤ pattern.length)
    (h : _patternMatch wallgraph fuel pattern findoption
      (List.replicate (pattern.length + 1) []) = some (.value res)) :
    patternMatch wallgraph [pattern] findoption fuel
      = (if findoption = 1 ∨ findoption = 2 ∨ findoption = 3 then
          some (.value [(pattern, res.1)]) else some (.fault .invalidFindoption)) := by
  unfold patternMatch
  split
  · next hbad =>
    rw [if_neg]
    intro hc
    rcases hc with hc | hc | hc <;> simp [hc] at hbad
  · next hok =>
    rw [if_pos]
    · simp only [patternMatchLoop]
      rw [if_neg (by omega), pruneRegister_fresh, h]
      simp
    · by_contra hc
      apply hok
      push_neg at hc
      simpa using hc

/-- Mode 3 on one pattern: on a well-formed acyclic graph whose walk counts
never collide with the placeholder below the top layer, the run returns the
number of matching walks modulo `2 ^ 64`. -/
theorem patternMatch_single_three {wallgraph : wallgraphvector} {pattern : patternvector}
    {L : Nat} {E I : Nat → Nat → Nat} {rank : Nat → Nat}
    (hwf : WellFormed wallgraph pattern L) (hac : Acyclic wallgraph rank)
    (hrec : WalkCounts wallgraph pattern E I) (hsf : SentinelFree wallgraph pattern E I)
    (hN : 1 ≤ pattern.length) :
    ∃ fuel, ∀ n, patternMatch wallgraph [pattern] 3 (fuel + n)
      = some (.value [(pattern, walkTotal wallgraph pattern E % u64)]) := by
  obtain ⟨fuel, K, hrun, _, _⟩ :=
    patternMatch_inner_three hwf hac (settles_of_walkCounts hrec hsf)
      (fun w hw r hr1 hr2 flag => storedValue_ne_sentinel hsf hw hr1 hr2 flag) hN
      (searchInv_initial wallgraph pattern (storedValue E I pattern.length) hN)
  refine ⟨fuel, fun n => ?_⟩
  rw [patternMatch_single_inner hN (hrun n), if_pos (by decide), valueTotal_counts]

/-- C1 (amended). On an acyclic wall graph with out-edge targets in range and
label vectors of length `L`, for a single non-empty pattern of words of length
`L`, and for any `E`, `I` satisfying the recurrences of the walk count such
that no count `E w r`, `I w r` below the top layer (`1 ≤ r < N`) is
`2 ^ 64 - 1` modulo `2 ^ 64` (stored in an `int64_t` entry such a count is the
placeholder `-1`), `patternMatch([P], 3)` returns (for every sufficiently large
fuel) exactly one entry `(P, c mod 2 ^ 64)` where `c` is the sum over all walls
of `E w N`; the entry is `(P, c)` whenever `c < 2 ^ 64`. -/
theorem patternMatch_counts_walks (wallgraph : wallgraphvector) (pattern : patternvector)
    (L : Nat) (E I : Nat → Nat → Nat) (rank : Nat → Nat)
    (hwf : WellFormed wallgraph pattern L) (hac : Acyclic wallgraph rank)
    (hrec : WalkCounts wallgraph pattern E I) (hsf : SentinelFree wallgraph pattern E I)
    (hN : 1 ≤ pattern.length) :
    ∃ fuel, ∀ n, patternMatch wallgraph [pattern] 3 (fuel + n)
      = some (.value [(pattern, walkTotal wallgraph pattern E % 2 ^ 64)]) :=
  patternMatch_single_three hwf hac hrec hsf hN

/-- Witness for C1: `detourGraph` with the pattern `M`, `M`, counted once. -/
theorem patternMatch_counts_walks_witness :
    WellFormed detourGraph [['M'], ['M']] 1 ∧
      Acyclic detourGraph (fun w => 3 - w) ∧
      WalkCounts detourGraph [['M'], ['M']] detourE detourI ∧
      SentinelFree detourGraph [['M'], ['M']] detourE detourI ∧
      1 ≤ ([['M'], ['M']] : patternvector).length ∧
      ∃ fuel, ∀ n, patternMatch detourGraph [[['M'], ['M']]] 3 (fuel + n)
        = some (.value [([['M'], ['M']],
            walkTotal detourGraph [['M'], ['M']] detourE % 2 ^ 64)]) :=
  ⟨by unfold WellFormed; decide, by unfold Acyclic; decide, by unfold WalkCounts; decide,
   by unfold SentinelFree; decide, by decide,
   patternMatch_counts_walks detourGraph [['M'], ['M']] 1 detourE detourI (fun w => 3 - w)
     (by unfold WellFormed; decide) (by unfold Acyclic; decide)
     (by unfold WalkCounts; decide) (by unfold SentinelFree; decide) (by decide)⟩

set_option maxRecDepth 100000 in
/-- C1 as stated fails, in two ways. (1) `wideChain` is acyclic and well
formed, the recurrences give `2 ^ 64` matching walks for the pattern of 17
steps (no count below the top layer being `2 ^ 64 - 1`), and `patternMatch`
returns the count 0: the `uint64_t` accumulators wrap around. (2)
`sentinelGraph 2` is acyclic and well formed, the recurrences give
`2 * (2 ^ 64 - 1)` matching walks for the pattern `M`, `M`, that is
`2 ^ 64 - 2` modulo `2 ^ 64`, and `patternMatch` returns `2 ^ 64 - 1`: the
count `2 ^ 64 - 1` of wall 1 is stored as `-1`, which the sum for wall 0 takes
for the placeholder, so the entry of wall 0 stays at `-1` and is added as such. -/
theorem count_differs_from_walks :
    (WellFormed wideChain wideChainPattern 2 ∧
      Acyclic wideChain (fun w => 17 - w) ∧
      WalkCounts wideChain wideChainPattern wideChainE wideChainI ∧
      SentinelFree wideChain wideChainPattern wideChainE wideChainI ∧
      walkTotal wideChain wideChainPattern wideChainE = 2 ^ 64 ∧
      ∃ fuel, ∀ n, patternMatch wideChain [wideChainPattern] 3 (fuel + n)
        = some (.value [(wideChainPattern, 0)])) ∧
    (WellFormed (sentinelGraph 2) [['M'], ['M']] 1 ∧
      Acyclic (sentinelGraph 2) (fun w => 17 - w) ∧
      WalkCounts (sentinelGraph 2) [['M'], ['M']] (sentinelE 2) sentinelI ∧
      sentinelI 1 1 = 2 ^ 64 - 1 ∧
      walkTotal (sentinelGraph 2) [['M'], ['M']] (sentinelE 2) % 2 ^ 64 = 2 ^ 64 - 2 ∧
      patternMatch (sentinelGraph 2) [[['M'], ['M']]] 3 1000
        = some (.value [([['M'], ['M']], 2 ^ 64 - 1)])) := by
  have hwf : WellFormed wideChain wideChainPattern 2 := by unfold WellFormed; decide
  have hac : Acyclic wideChain (fun w => 17 - w) := by unfold Acyclic; decide
  have hrec : WalkCounts wideChain wideChainPattern wideChainE wideChainI := by
    unfold WalkCounts; decide
  have hsf : SentinelFree wideChain wideChainPattern wideChainE wideChainI := by
    unfold SentinelFree; decide
  have htotal : walkTotal wideChain wideChainPattern wideChainE = 2 ^ 64 := by decide
  refine ⟨⟨hwf, hac, hrec, hsf, htotal, ?_⟩, ?_, ?_, ?_, ?_, ?_, ?_⟩
  · obtain ⟨fuel, hfuel⟩ := patternMatch_single_three hwf hac hrec hsf (by decide)
    refine ⟨fuel, fun n => ?_⟩
    rw [hfuel n, htotal]
    rfl
  · unfold WellFormed; decide
  · unfold Acyclic; decide
  · unfold WalkCounts; decide
  · decide
  · decide
  · rfl

/-! ## Stores on an arbitrary wall graph -/

theorem genStore_setEntry {ok : Nat → Nat → Bool → Int → Prop} {K : memoize} {r w : Nat}
    {flag : Bool} {v : Int} (h : GenStore ok K) (hv : ok w r flag v) :
    GenStore ok (setEntry K r (w, flag) v) := by
  refine ⟨sorted_setEntry r _ v h.sorted, ?_⟩
  intro r2 w2 flag2 v2 hf
  rcases entry_setEntry_cases hf with ⟨h1, h2, h3⟩ | h1
  · simp only [Prod.mk.injEq] at h2
    obtain ⟨h2a, h2b⟩ := h2
    subst h1 h2a h2b h3
    exact hv
  · exact h.entries r2 w2 flag2 v2 h1

theorem genStore_replicate (ok : Nat → Nat → Bool → Int → Prop) (m : Nat) :
    GenStore ok (List.replicate m []) := by
  refine ⟨?_, ?_⟩
  · intro r
    rw [layerAt_replicate]
    exact List.Pairwise.nil
  · intro r w flag v h
    rw [layerAt_replicate] at h
    simp [mapFind] at h

theorem assignPlaceholders_general {ok : Nat → Nat → Bool → Int → Prop} {K : memoize}
    (N w r : Nat) (ext int : Bool) (hs : GenStore ok K) (hrlt : r < K.length)
    (hsome : ¬ (ext = false ∧ int = false))
    (hF0 : int = false → ok w r false 0) (hT0 : ext = false → ok w r true 0)
    (hFtop : r = N → ok w r false 0) (hTp : ext = true → ok w r true (-1))
    (hFp : int = true → r ≠ N → ok w r false (-1)) :
    GenStore ok (assignPlaceholders N (w, r) ext int K) ∧
      (∀ r2 w2 flag, (r2 ≠ r ∨ w2 ≠ w) →
        mapFind (layerAt (assignPlaceholders N (w, r) ext int K) r2) (w2, flag)
          = mapFind (layerAt K r2) (w2, flag)) ∧
      presentAt (assignPlaceholders N (w, r) ext int K) r w ∧
      (assignPlaceholders N (w, r) ext int K).length = K.length := by
  have hstage : ∀ (K1 : memoize) (flag : Bool) (v : Int),
      (GenStore ok K1 ∧ ∀ r2 w2 flag2, (r2 ≠ r ∨ w2 ≠ w) →
        mapFind (layerAt K1 r2) (w2, flag2) = mapFind (layerAt K r2) (w2, flag2)) →
      ok w r flag v →
      (GenStore ok (setEntry K1 r (w, flag) v) ∧
        ∀ r2 w2 flag2, (r2 ≠ r ∨ w2 ≠ w) →
          mapFind (layerAt (setEntry K1 r (w, flag) v) r2) (w2, flag2)
            = mapFind (layerAt K r2) (w2, flag2)) := by
    intro K1 flag v hq hv
    refine ⟨genStore_setEntry hq.1 hv, ?_⟩
    intro r2 w2 flag2 hne
    rw [entry_setEntry_other v (by
      rcases hne with h | h
      · exact Or.inl h
      · exact Or.inr (by intro heq; simp only [Prod.mk.injEq] at heq; exact h heq.1))]
    exact hq.2 r2 w2 flag2 hne
  obtain ⟨k1, hk1⟩ : ∃ k1, k1 =
      (if int = false then setEntry K r (w, false) 0
       else if ext = false then setEntry K r (w, true) 0
       else K) := ⟨_, rfl⟩
  obtain ⟨k2, hk2⟩ : ∃ k2, k2 =
      (if int = true ∧ r = N then setEntry k1 r (w, false) 0 else k1) := ⟨_, rfl⟩
  obtain ⟨k3, hk3⟩ : ∃ k3, k3 =
      (if mapFind (layerAt k2 r) (w, true) = none then setEntry k2 r (w, true) (-1) else k2) :=
    ⟨_, rfl⟩
  obtain ⟨k4, hk4⟩ : ∃ k4, k4 =
      (if mapFind (layerAt k3 r) (w, false) = none then setEntry k3 r (w, false) (-1) else k3) :=
    ⟨_, rfl⟩
  have hfinal : assignPlaceholders N (w, r) ext int K = k4 := by
    subst hk1 hk2 hk3 hk4
    rfl
  rw [hfinal]
  have hlen1 : k1.length = K.length := by
    rw [hk1]; split
    · exact length_setEntry _ _ _ _
    · split
      · exact length_setEntry _ _ _ _
      · rfl
  have hlen2 : k2.length = K.length := by
    rw [hk2]; split
    · rw [length_setEntry]; exact hlen1
    · exact hlen1
  have hlen3 : k3.length = K.length := by
    rw [hk3]; split
    · rw [length_setEntry]; exact hlen2
    · exact hlen2
  have hlen4 : k4.length = K.length := by
    rw [hk4]; split
    · rw [length_setEntry]; exact hlen3
    · exact hlen3
  have h1 : (GenStore ok k1 ∧ ∀ r2 w2 flag2, (r2 ≠ r ∨ w2 ≠ w) →
        mapFind (layerAt k1 r2) (w2, flag2) = mapFind (layerAt K r2) (w2, flag2)) ∧
      (int = false → mapFind (layerAt k1 r) (w, false) ≠ none) ∧
      (ext = false → mapFind (layerAt k1 r) (w, true) ≠ none) := by
    rw [hk1]
    split
    · next hi =>
      refine ⟨hstage K false 0 ⟨hs, fun _ _ _ _ => rfl⟩ (hF0 hi), ?_, ?_⟩
      · intro _
        rw [entry_setEntry_self _ _ hrlt]; simp
      · intro he
        exact absurd ⟨he, hi⟩ hsome
    · next hi =>
      split
      · next he =>
        refine ⟨hstage K true 0 ⟨hs, fun _ _ _ _ => rfl⟩ (hT0 he), ?_, ?_⟩
        · intro h; exact absurd h hi
        · intro _
          rw [entry_setEntry_self _ _ hrlt]; simp
      · next he =>
        exact ⟨⟨hs, fun _ _ _ _ => rfl⟩, fun h => absurd h hi, fun h => absurd h he⟩
  have h2 : (GenStore ok k2 ∧ ∀ r2 w2 flag2, (r2 ≠ r ∨ w2 ≠ w) →
        mapFind (layerAt k2 r2) (w2, flag2) = mapFind (layerAt K r2) (w2, flag2)) ∧
      ((int = false ∨ r = N) → mapFind (layerAt k2 r) (w, false) ≠ none) ∧
      (ext = false → mapFind (layerAt k2 r) (w, true) ≠ none) := by
    rw [hk2]
    split
    · next hc =>
      refine ⟨hstage k1 false 0 h1.1 (hFtop hc.2), ?_, ?_⟩
      · intro _
        rw [entry_setEntry_self _ _ (by rw [hlen1]; exact hrlt)]; simp
      · intro he
        exact entry_setEntry_ne_none _ (h1.2.2 he)
    · next hc =>
      refine ⟨h1.1, ?_, h1.2.2⟩
      intro h
      rcases h with h | h
      · exact h1.2.1 h
      · by_cases hi : int = false
        · exact h1.2.1 hi
        · exact absurd ⟨by simpa using hi, h⟩ hc
  have h3 : (GenStore ok k3 ∧ ∀ r2 w2 flag2, (r2 ≠ r ∨ w2 ≠ w) →
        mapFind (layerAt k3 r2) (w2, flag2) = mapFind (layerAt K r2) (w2, flag2)) ∧
      ((int = false ∨ r = N) → mapFind (layerAt k3 r) (w, false) ≠ none) ∧
      mapFind (layerAt k3 r) (w, true) ≠ none := by
    rw [hk3]
    split
    · next hc =>
      have he : ext = true := by
        by_contra hne
        exact h2.2.2 (by simpa using hne) hc
      refine ⟨hstage k2 true (-1) h2.1 (hTp he), ?_, ?_⟩
      · intro h
        exact entry_setEntry_ne_none _ (h2.2.1 h)
      · rw [entry_setEntry_self _ _ (by rw [hlen2]; exact hrlt)]; simp
    · next hc => exact ⟨h2.1, h2.2.1, hc⟩
  rw [hk4] at hlen4 ⊢
  split
  · next hc =>
    have hi : int = true := by
      by_contra hne
      exact h3.2.1 (Or.inl (by simpa using hne)) hc
    have hrn : r ≠ N := by
      intro hne
      exact h3.2.1 (Or.inr hne) hc
    have h4 := hstage k3 false (-1) h3.1 (hFp hi hrn)
    rw [if_pos hc] at hlen4
    refine ⟨h4.1, h4.2, ⟨entry_setEntry_ne_none _ h3.2.2, ?_⟩, hlen4⟩
    rw [entry_setEntry_self _ _ (by rw [hlen3]; exact hrlt)]; simp
  · next hc =>
    rw [if_neg hc] at hlen4
    exact ⟨h3.1.1, h3.1.2, ⟨h3.2.2, hc⟩, hlen4⟩

/-! ## Mode 3 on an arbitrary wall graph: entries other than 0 come with completions -/

theorem lt_of_mem_outedgesOf {wallgraph : wallgraphvector} {w x : Nat}
    (h : x ∈ outedgesOf wallgraph w) : w < wallgraph.length := by
  unfold outedgesOf at h
  cases hws : wallgraph[w]? with
  | none =>
    rw [hws] at h
    simp at h
  | some ws => exact lt_of_getElem hws

/-- C20. On an empty batch, in each of the modes 1, 2 and 3, `patternMatch`
does not return an empty results sequence: `allpatterns.front()` is read before
the loop, a read outside the container. -/
theorem patternMatch_empty_batch_reads_front (wallgraph : wallgraphvector) (fuel : Nat) :
    patternMatch wallgraph [] 1 fuel = some (.fault .outOfRange) ∧
      patternMatch wallgraph [] 2 fuel = some (.fault .outOfRange) ∧
      patternMatch wallgraph [] 3 fuel = some (.fault .outOfRange) := by
  refine ⟨?_, ?_, ?_⟩ <;>
  · unfold patternMatch
    rw [if_neg (by decide)]

theorem replaceWord_eq_map (t : List Char) : replaceWord t = t.map normalizeSymbol := by
  unfold replaceWord
  rw [List.map_map]
  apply List.map_congr_left
  intro c _
  unfold normalizeSymbol
  by_cases h1 : c = 'M'
  · subst h1
    decide
  · simp only [Function.comp, h1, if_false]

theorem normalizeSymbol_idem (c : Char) :
    normalizeSymbol (normalizeSymbol c) = normalizeSymbol c := by
  unfold normalizeSymbol
  by_cases h1 : c = 'M'
  · subst h1
    decide
  · by_cases h2 : c = 'm'
    · subst h2
      decide
    · simp only [h1, h2, if_false]

/-- C16. The intermediate-form pattern built at the start of `_patternMatch` is
the input with `normalizeSymbol` applied at every coordinate of every step: it
has as many steps as the input, each step as long as the input's, and deriving
it from itself changes nothing. -/
theorem intermediatesOf_normalizes (pattern : patternvector) :
    intermediatesOf pattern = pattern.map (fun word => word.map normalizeSymbol) ∧
      (intermediatesOf pattern).length = pattern.length ∧
      (∀ i, ((intermediatesOf pattern).getD i []).length = (pattern.getD i []).length) ∧
      (∀ (i j : Nat), ((intermediatesOf pattern).getD i [])[j]?
        = ((pattern.getD i [])[j]?).map normalizeSymbol) ∧
      intermediatesOf (intermediatesOf pattern) = intermediatesOf pattern := by
  have hmap : intermediatesOf pattern = pattern.map (fun word => word.map normalizeSymbol) := by
    unfold intermediatesOf
    apply List.map_congr_left
    intro word _
    exact replaceWord_eq_map word
  refine ⟨hmap, ?_, ?_, ?_, ?_⟩
  · unfold intermediatesOf
    simp
  · intro i
    rw [intermediatesOf_getD, replaceWord_length]
  · intro i j
    rw [intermediatesOf_getD, replaceWord_eq_map, List.getElem?_map]
  · unfold intermediatesOf
    rw [List.map_map]
    apply List.map_congr_left
    intro word _
    simp only [Function.comp, replaceWord_eq_map, List.map_map]
    apply List.map_congr_left
    intro c _
    exact normalizeSymbol_idem c

theorem checkForWordInLabels_mem :
    ∀ (labels : labelset) (word : List Char), word.length = labels.length →
      ∃ b, _checkForWordInLabels word labels = .value b ∧
        (b = true ↔ ∀ i, i < labels.length → word.getD i 'x' ∈ labels.getD i []) := by
  intro labels
  induction labels with
  | nil =>
    intro word _
    refine ⟨true, ?_, by simp⟩
    cases word <;> rfl
  | cons l ls ih =>
    intro word h
    cases word with
    | nil => simp at h
    | cons c w =>
      simp only [List.length_cons, Nat.add_right_cancel_iff] at h
      obtain ⟨b, hb, hiff⟩ := ih w h
      by_cases hc : c ∈ l
      · refine ⟨b, by simp only [_checkForWordInLabels, hc, if_true]; exact hb, ?_⟩
        rw [hiff]
        constructor
        · intro hall i hi
          cases i with
          | zero => simpa using hc
          | succ i =>
            have := hall i (by simpa using hi)
            simpa using this
        · intro hall i hi
          have := hall (i + 1) (by simpa using hi)
          simpa using this
      · refine ⟨false, by simp only [_checkForWordInLabels, hc, if_false], ?_⟩
        constructor
        · intro hf
          simp at hf
        · intro hall
          have := hall 0 (by simp)
          simp only [List.getD_cons_zero] at this
          exact absurd this hc

/-- C17. For a word and a label vector of the same length,
`_checkForWordInLabels` returns a value, and the value is `true` exactly when
at every coordinate the symbol of the word belongs to the label set; for an
empty label vector it returns `true`. -/
theorem checkForWordInLabels_iff (word : List Char) (labels : labelset)
    (h : word.length = labels.length) :
    (∃ b, _checkForWordInLabels word labels = .value b ∧
        (b = true ↔ ∀ i, i < labels.length → word.getD i 'x' ∈ labels.getD i [])) ∧
      _checkForWordInLabels word [] = .value true := by
  refine ⟨checkForWordInLabels_mem labels word h, ?_⟩
  cases word <;> rfl

/-- Witness for C17: the word `MD` against the label sets `{M, I}` and `{D}`. -/
theorem checkForWordInLabels_iff_witness :
    (['M', 'D'] : List Char).length = ([['M', 'I'], ['D']] : labelset).length ∧
      ((∃ b, _checkForWordInLabels ['M', 'D'] [['M', 'I'], ['D']] = .value b ∧
          (b = true ↔ ∀ i, i < ([['M', 'I'], ['D']] : labelset).length →
            (['M', 'D'] : List Char).getD i 'x' ∈ ([['M', 'I'], ['D']] : labelset).getD i [])) ∧
        _checkForWordInLabels ['M', 'D'] [] = .value true) :=
  ⟨by decide, checkForWordInLabels_iff ['M', 'D'] [['M', 'I'], ['D']] (by decide)⟩

/-! ## The neighbour sum of `_sumcounts` in mode 3 -/

theorem neighbourSum_cons (layer : pathElementMap) (oe : Nat) (rest : List Nat) :
    neighbourSum layer (oe :: rest)
      = (match mapFind layer (oe, true), mapFind layer (oe, false) with
          | some t, some f => t + f
          | _, _ => 0) + neighbourSum layer rest := by
  rfl

theorem neighbourPending_cons (layer : pathElementMap) (oe : Nat) (rest : List Nat) :
    neighbourPending layer (oe :: rest) ↔
      (∃ t f, mapFind layer (oe, true) = some t ∧ mapFind layer (oe, false) = some f ∧
        (t = -1 ∨ f = -1)) ∨ neighbourPending layer rest := by
  unfold neighbourPending
  simp only [List.mem_cons, exists_eq_or_imp]

theorem sumLoop_mode3 (layer : pathElementMap) (outedges : List Nat) :
    ∀ n : Nat, n < u64 →
      (neighbourPending layer outedges → sumLoop 3 layer outedges n = .pending) ∧
        (¬ neighbourPending layer outedges →
          sumLoop 3 layer outedges n
            = .total (((n : Int) + neighbourSum layer outedges) % (u64 : Int)).toNat) := by
  induction outedges with
  | nil =>
    intro n hn
    refine ⟨fun h => ?_, fun _ => ?_⟩
    · obtain ⟨oe, hoe, _⟩ := h
      simp at hoe
    · simp only [sumLoop, neighbourSum, List.map_nil, List.sum_nil, add_zero]
      rw [Int.emod_eq_of_lt (by omega) (by exact_mod_cast hn)]
      simp
  | cons oe rest ih =>
    intro n hn
    rw [neighbourPending_cons, neighbourSum_cons]
    have hskip : (mapFind layer (oe, true) = none ∨ mapFind layer (oe, false) = none) →
        (((∃ t f, mapFind layer (oe, true) = some t ∧ mapFind layer (oe, false) = some f ∧
            (t = -1 ∨ f = -1)) ∨ neighbourPending layer rest) →
            sumLoop 3 layer (oe :: rest) n = .pending) ∧
          (¬ ((∃ t f, mapFind layer (oe, true) = some t ∧ mapFind layer (oe, false) = some f ∧
            (t = -1 ∨ f = -1)) ∨ neighbourPending layer rest) →
            sumLoop 3 layer (oe :: rest) n
              = .total (((n : Int) + ((match mapFind layer (oe, true),
                  mapFind layer (oe, false) with
                | some t, some f => t + f
                | _, _ => 0) + neighbourSum layer rest)) % (u64 : Int)).toNat) := by
      intro habs
      have hunf : sumLoop 3 layer (oe :: rest) n = sumLoop 3 layer rest n := by
        conv_lhs => unfold sumLoop
        rcases habs with h | h
        · simp only [h]
        · cases hT : mapFind layer (oe, true) <;> simp only [h]
      have hzero : (match mapFind layer (oe, true), mapFind layer (oe, false) with
          | some t, some f => t + f
          | _, _ => 0) = (0 : Int) := by
        rcases habs with h | h
        · simp only [h]
        · cases hT : mapFind layer (oe, true) <;> simp only [h]
      rw [hunf, hzero, zero_add]
      refine ⟨fun h => ?_, fun h => ?_⟩
      · rcases h with ⟨t, f, h1, h2, _⟩ | h
        · rcases habs with h3 | h3
          · rw [h3] at h1; simp at h1
          · rw [h3] at h2; simp at h2
        · exact (ih n hn).1 h
      · exact (ih n hn).2 (fun hp => h (Or.inr hp))
    obtain ⟨ot, hT⟩ : ∃ ot, mapFind layer (oe, true) = ot := ⟨_, rfl⟩
    obtain ⟨of, hF⟩ : ∃ of, mapFind layer (oe, false) = of := ⟨_, rfl⟩
    cases ot with
    | none => exact hskip (Or.inl hT)
    | some t =>
      cases of with
      | none => exact hskip (Or.inr hF)
      | some f =>
        by_cases hp : t = -1 ∨ f = -1
        · have hunf : sumLoop 3 layer (oe :: rest) n = .pending := by
            conv_lhs => unfold sumLoop
            simp only [hT, hF]
            rw [if_neg (by omega), if_pos hp]
          refine ⟨fun _ => hunf, fun h => ?_⟩
          exact absurd (Or.inl ⟨t, f, hT, hF, hp⟩) h
        · have hunf : sumLoop 3 layer (oe :: rest) n
              = sumLoop 3 layer rest (addU64 n (t + f)) := by
            conv_lhs => unfold sumLoop
            simp only [hT, hF]
            rw [if_neg (by omega), if_neg hp]
          rw [hunf]
          refine ⟨fun h => ?_, fun h => ?_⟩
          · rcases h with ⟨t2, f2, h1, h2, h3⟩ | h
            · rw [hT] at h1
              rw [hF] at h2
              simp only [Option.some.injEq] at h1 h2
              subst h1 h2
              exact absurd h3 hp
            · exact (ih _ (addU64_lt n (t + f))).1 h
          · rw [(ih _ (addU64_lt n (t + f))).2 (fun hpend => h (Or.inr hpend))]
            simp only [hT, hF]
            congr 2
            rw [addU64_cast, Int.emod_add_emod, add_assoc]

theorem toInt64_range (n : Nat) : -(2 : Int) ^ 63 ≤ toInt64 n ∧ toInt64 n < (2 : Int) ^ 63 := by
  have hlt : n % u64 < u64 := Nat.mod_lt _ (by unfold u64; norm_num)
  unfold toInt64
  unfold u64 at hlt ⊢
  split
  · constructor
    · have : (0 : Int) ≤ ((n % 2 ^ 64 : Nat) : Int) := Int.natCast_nonneg _
      norm_num at this ⊢
      linarith
    · exact_mod_cast (by assumption : n % 2 ^ 64 < 2 ^ 63)
  · next h =>
    have h1 : (2 : Int) ^ 63 ≤ ((n % 2 ^ 64 : Nat) : Int) := by
      exact_mod_cast Nat.le_of_not_lt h
    have h2 : ((n % 2 ^ 64 : Nat) : Int) < (2 : Int) ^ 64 := by exact_mod_cast hlt
    constructor
    · push_cast at h1 h2 ⊢
      linarith
    · push_cast at h1 h2 ⊢
      linarith

/-- C11 (amended). In mode 3, for a store that has slot `patternlen` and a key
that is intermediate or has `patternlen ≥ 1` (so that the dependency layer `p`
is `patternlen` for an intermediate key and `patternlen - 1` for an extremum
key): if some out-neighbour whose pair is stored at layer `p` has a pending
entry, `_sumcounts` returns `false` and the store unchanged; otherwise it
returns `true` and the store in which the key's entry at layer `patternlen` is
the neighbour sum reduced modulo `2 ^ 64` and read as an `int64_t` (the value
`v` with `-2 ^ 63 ≤ v < 2 ^ 63` that differs from the sum by a multiple of
`2 ^ 64`), every other entry being as before. -/
theorem sumcounts_mode3 (key : keypair) (outedges : List Nat) (patternlen : Nat)
    (keepcount : memoize) (hr : patternlen < keepcount.length)
    (hp : key.2 = true → 1 ≤ patternlen) :
    dependencyLayer key patternlen = (if key.2 = true then patternlen - 1 else patternlen) ∧
      (neighbourPending (layerAt keepcount (dependencyLayer key patternlen)) outedges →
        _sumcounts key outedges patternlen 3 keepcount = (false, keepcount)) ∧
      (¬ neighbourPending (layerAt keepcount (dependencyLayer key patternlen)) outedges →
        ∃ K2 v, _sumcounts key outedges patternlen 3 keepcount = (true, K2) ∧
          mapFind (layerAt K2 patternlen) key = some v ∧
          v = toInt64 (neighbourSum (layerAt keepcount (dependencyLayer key patternlen))
                outedges % 2 ^ 64).toNat ∧
          -(2 : Int) ^ 63 ≤ v ∧ v < (2 : Int) ^ 63 ∧
          (v - neighbourSum (layerAt keepcount (dependencyLayer key patternlen)) outedges)
              % 2 ^ 64 = 0 ∧
          K2.length = keepcount.length ∧
          ∀ r2 key2, (r2 ≠ patternlen ∨ key2 ≠ key) →
            mapFind (layerAt K2 r2) key2 = mapFind (layerAt keepcount r2) key2) := by
  obtain ⟨h1, h2⟩ := sumLoop_mode3
    (layerAt keepcount (dependencyLayer key patternlen)) outedges 0
    (by unfold u64; decide)
  refine ⟨?_, fun h => ?_, fun h => ?_⟩
  · unfold dependencyLayer
    cases hk : key.2 with
    | false => simp
    | true =>
      have := hp hk
      simp only [if_true]
      rw [if_neg (by omega)]
  · unfold _sumcounts
    simp only
    rw [h1 h]
  · have hsum : (((0 : Nat) : Int) + neighbourSum
        (layerAt keepcount (dependencyLayer key patternlen)) outedges) % (u64 : Int)
        = neighbourSum (layerAt keepcount (dependencyLayer key patternlen)) outedges
          % 2 ^ 64 := by
      simp only [Nat.cast_zero, zero_add]
      rfl
    refine ⟨setEntry keepcount patternlen key (toInt64
        (neighbourSum (layerAt keepcount (dependencyLayer key patternlen)) outedges
          % 2 ^ 64).toNat), _, ?_, entry_setEntry_self _ _ hr, rfl, (toInt64_range _).1,
        (toInt64_range _).2, ?_, length_setEntry _ _ _ _,
        fun r2 key2 hne => entry_setEntry_other _ hne⟩
    · unfold _sumcounts
      simp only
      rw [h2 h, hsum]
    · have h3 := toInt64_toNat_emod
        (neighbourSum (layerAt keepcount (dependencyLayer key patternlen)) outedges)
      have h4 : ((2 : Int) ^ 64) = (u64 : Int) := by
        unfold u64
        norm_num
      rw [h4, Int.sub_emod, h3, Int.sub_self, Int.zero_emod]

/-- Witness for C11: the extremum key of wall 0 at pattern length 2 with the
single out-edge 1 on `quarterStore`. -/
theorem sumcounts_mode3_witness :
    2 < quarterStore.length ∧ (((0, true) : keypair).2 = true → 1 ≤ 2) ∧
      (dependencyLayer (0, true) 2 = (if ((0, true) : keypair).2 = true then 2 - 1 else 2) ∧
        (neighbourPending (layerAt quarterStore (dependencyLayer (0, true) 2)) [1] →
          _sumcounts (0, true) [1] 2 3 quarterStore = (false, quarterStore)) ∧
        (¬ neighbourPending (layerAt quarterStore (dependencyLayer (0, true) 2)) [1] →
          ∃ K2 v, _sumcounts (0, true) [1] 2 3 quarterStore = (true, K2) ∧
            mapFind (layerAt K2 2) (0, true) = some v ∧
            v = toInt64 (neighbourSum (layerAt quarterStore (dependencyLayer (0, true) 2))
                  [1] % 2 ^ 64).toNat ∧
            -(2 : Int) ^ 63 ≤ v ∧ v < (2 : Int) ^ 63 ∧
            (v - neighbourSum (layerAt quarterStore (dependencyLayer (0, true) 2)) [1])
                % 2 ^ 64 = 0 ∧
            K2.length = quarterStore.length ∧
            ∀ r2 key2, (r2 ≠ 2 ∨ key2 ≠ (0, true)) →
              mapFind (layerAt K2 r2) key2 = mapFind (layerAt quarterStore r2) key2)) :=
  ⟨by decide, fun _ => by decide,
   sumcounts_mode3 (0, true) [1] 2 quarterStore (by decide) (fun _ => by decide)⟩

/-- C11 as stated fails, in two ways. On `quarterStore` no entry of the
dependency layer is pending. (1) With the out-edge list `1, 1, 1, 1` the
neighbour sum is `2 ^ 64`, but `_sumcounts` stores 0: the `uint64_t`
accumulator wraps around. (2) With the out-edge list `1, 1` the neighbour sum
is `2 ^ 63`, but `_sumcounts` stores `-2 ^ 63`: the `uint64_t` sum is assigned
to an `int64_t` entry. -/
theorem sumcounts_sum_wraps :
    (∀ kvp ∈ layerAt quarterStore 1, kvp.2 ≠ -1) ∧
      (neighbourSum (layerAt quarterStore 1) [1, 1, 1, 1] = 2 ^ 64 ∧
        (_sumcounts (0, true) [1, 1, 1, 1] 2 3 quarterStore).1 = true ∧
        mapFind (layerAt (_sumcounts (0, true) [1, 1, 1, 1] 2 3 quarterStore).2 2) (0, true)
          = some 0) ∧
      (neighbourSum (layerAt quarterStore 1) [1, 1] = 2 ^ 63 ∧
        (_sumcounts (0, true) [1, 1] 2 3 quarterStore).1 = true ∧
        mapFind (layerAt (_sumcounts (0, true) [1, 1] 2 3 quarterStore).2 2) (0, true)
          = some (-2 ^ 63)) := by
  refine ⟨by decide, ⟨by decide, by decide, by decide⟩, by decide, by decide, by decide⟩

/-! ## The pruner -/

theorem tailmatchLoop_le :
    ∀ a b : patternvector, tailmatchLoop a b ≤ a.length ∧ tailmatchLoop a b ≤ b.length := by
  intro a
  induction a with
  | nil => intro b; simp [tailmatchLoop]
  | cons x xs ih =>
    intro b
    cases b with
    | nil => simp [tailmatchLoop]
    | cons y ys =>
      unfold tailmatchLoop
      by_cases h : x = y
      · rw [if_pos h]
        have := ih ys
        simp only [List.length_cons]
        omega
      · rw [if_neg h]
        simp

theorem tailmatchLoop_take :
    ∀ a b : patternvector, a.take (tailmatchLoop a b) = b.take (tailmatchLoop a b) := by
  intro a
  induction a with
  | nil => intro b; simp [tailmatchLoop]
  | cons x xs ih =>
    intro b
    cases b with
    | nil => simp [tailmatchLoop]
    | cons y ys =>
      unfold tailmatchLoop
      by_cases h : x = y
      · rw [if_pos h]
        simp only [List.take_succ_cons, h, ih ys]
      · rw [if_neg h]
        simp

theorem tailmatchLoop_max :
    ∀ (a b : patternvector) (t : Nat), t ≤ a.length → t ≤ b.length →
      a.take t = b.take t → t ≤ tailmatchLoop a b := by
  intro a
  induction a with
  | nil =>
    intro b t h1 _ _
    simp only [List.length_nil, Nat.le_zero] at h1
    omega
  | cons x xs ih =>
    intro b t h1 h2 h3
    cases b with
    | nil =>
      simp only [List.length_nil, Nat.le_zero] at h2
      omega
    | cons y ys =>
      cases t with
      | zero => omega
      | succ t =>
        simp only [List.take_succ_cons, List.cons.injEq] at h3
        unfold tailmatchLoop
        rw [if_pos h3.1]
        have := ih ys t (by simpa using h1) (by simpa using h2) h3.2
        omega

theorem take_reverse_eq_iff (a b : patternvector) (t : Nat) :
    a.reverse.take t = b.reverse.take t ↔ lastSteps a t = lastSteps b t := by
  unfold lastSteps
  rw [List.take_reverse, List.take_reverse]
  exact List.reverse_inj

theorem tailmatch_suffix (newpattern oldpattern : patternvector) :
    tailmatchLoop newpattern.reverse oldpattern.reverse ≤ newpattern.length ∧
      tailmatchLoop newpattern.reverse oldpattern.reverse ≤ oldpattern.length ∧
      lastSteps newpattern (tailmatchLoop newpattern.reverse oldpattern.reverse)
        = lastSteps oldpattern (tailmatchLoop newpattern.reverse oldpattern.reverse) ∧
      ∀ t, t ≤ newpattern.length → t ≤ oldpattern.length →
        lastSteps newpattern t = lastSteps oldpattern t →
        t ≤ tailmatchLoop newpattern.reverse oldpattern.reverse := by
  have hle := tailmatchLoop_le newpattern.reverse oldpattern.reverse
  simp only [List.length_reverse] at hle
  refine ⟨hle.1, hle.2, ?_, ?_⟩
  · rw [← take_reverse_eq_iff]
    exact tailmatchLoop_take _ _
  · intro t h1 h2 h3
    exact tailmatchLoop_max _ _ t (by simpa using h1) (by simpa using h2)
      ((take_reverse_eq_iff _ _ t).2 h3)

theorem layerAt_set (K : memoize) (i j : Nat) (m : pathElementMap) (hi : i < K.length) :
    layerAt (K.set i m) j = if i = j then m else layerAt K j := by
  unfold layerAt
  rw [List.getD_eq_getElem?_getD, List.getD_eq_getElem?_getD, List.getElem?_set]
  by_cases h : i = j
  · subst h
    simp [hi]
  · simp [h]

theorem foldl_copy_layers (K : memoize) :
    ∀ (T : Nat) (base : memoize), T < base.length →
      ((List.range T).foldl
          (fun new_keepcount j => new_keepcount.set (j + 1) (layerAt K (j + 1))) base).length
        = base.length ∧
      ∀ j, layerAt ((List.range T).foldl
          (fun new_keepcount j => new_keepcount.set (j + 1) (layerAt K (j + 1))) base) j
        = if 1 ≤ j ∧ j ≤ T then layerAt K j else layerAt base j := by
  intro T
  induction T with
  | zero =>
    intro base _
    refine ⟨rfl, fun j => ?_⟩
    rw [if_neg (by omega)]
    rfl
  | succ T ih =>
    intro base hT
    obtain ⟨h1, h2⟩ := ih base (by omega)
    rw [List.range_succ, List.foldl_append]
    simp only [List.foldl_cons, List.foldl_nil]
    refine ⟨by rw [List.length_set, h1], fun j => ?_⟩
    rw [layerAt_set _ _ _ _ (by rw [h1]; omega), h2 j]
    by_cases hj : T + 1 = j
    · subst hj
      rw [if_pos rfl, if_pos (by omega)]
    · rw [if_neg hj]
      by_cases hj2 : 1 ≤ j ∧ j ≤ T
      · rw [if_pos hj2, if_pos (by omega)]
      · rw [if_neg hj2, if_neg (by omega)]

theorem pruneRegister_layers (newpattern oldpattern : patternvector) (keepcount : memoize) :
    (_pruneRegister newpattern oldpattern keepcount).length = newpattern.length + 1 ∧
      ∀ j, layerAt (_pruneRegister newpattern oldpattern keepcount) j
        = if 1 ≤ j ∧ j ≤ tailmatchLoop newpattern.reverse oldpattern.reverse
          then layerAt keepcount j else [] := by
  have hle := (tailmatch_suffix newpattern oldpattern).1
  obtain ⟨h1, h2⟩ := foldl_copy_layers keepcount
    (tailmatchLoop newpattern.reverse oldpattern.reverse)
    (List.replicate (newpattern.length + 1) []) (by simp; omega)
  unfold _pruneRegister
  simp only
  refine ⟨by rw [h1]; simp, fun j => ?_⟩
  rw [h2 j, layerAt_replicate]

/-- C12. For a store of `|old| + 1` slots, `_pruneRegister` leaves a store of
`|new| + 1` slots; with `T` the number found by its counting loop, `T` is the
length of the longest common suffix of the two patterns (at most both lengths,
the last `T` steps are equal, and no larger `t` within both lengths has equal
last `t` steps), slot `j` is the old slot `j` for `1 ≤ j ≤ T`, every index read
or written lies inside both stores, and slot 0 and the slots above `T` are
empty. -/
theorem pruneRegister_postcondition (newpattern oldpattern : patternvector)
    (keepcount : memoize) (hlen : keepcount.length = oldpattern.length + 1) :
    ∃ T, T = tailmatchLoop newpattern.reverse oldpattern.reverse ∧
      T ≤ newpattern.length ∧ T ≤ oldpattern.length ∧
      lastSteps newpattern T = lastSteps oldpattern T ∧
      (∀ t, t ≤ newpattern.length → t ≤ oldpattern.length →
        lastSteps newpattern t = lastSteps oldpattern t → t ≤ T) ∧
      (_pruneRegister newpattern oldpattern keepcount).length = newpattern.length + 1 ∧
      (∀ j, 1 ≤ j → j ≤ T →
        layerAt (_pruneRegister newpattern oldpattern keepcount) j = layerAt keepcount j ∧
          j < keepcount.length ∧
          j < (_pruneRegister newpattern oldpattern keepcount).length) ∧
      layerAt (_pruneRegister newpattern oldpattern keepcount) 0 = [] ∧
      ∀ j, T < j → layerAt (_pruneRegister newpattern oldpattern keepcount) j = [] := by
  obtain ⟨h1, h2, h3, h4⟩ := tailmatch_suffix newpattern oldpattern
  obtain ⟨h5, h6⟩ := pruneRegister_layers newpattern oldpattern keepcount
  refine ⟨_, rfl, h1, h2, h3, h4, h5, ?_, ?_, ?_⟩
  · intro j hj1 hj2
    refine ⟨by rw [h6 j, if_pos ⟨hj1, hj2⟩], by omega, by omega⟩
  · rw [h6 0, if_neg (by omega)]
  · intro j hj
    rw [h6 j, if_neg (by omega)]

/-- Witness for C12: the patterns `a b` (new) and `c b` (old) share the last step. -/
theorem pruneRegister_postcondition_witness :
    ([[], [((0, true), 1)], [((0, true), 0)]] : memoize).length
        = ([['c'], ['b']] : patternvector).length + 1 ∧
      ∃ T, T = tailmatchLoop ([['a'], ['b']] : patternvector).reverse
          ([['c'], ['b']] : patternvector).reverse ∧
        T ≤ ([['a'], ['b']] : patternvector).length ∧
        T ≤ ([['c'], ['b']] : patternvector).length ∧
        lastSteps [['a'], ['b']] T = lastSteps [['c'], ['b']] T ∧
        (∀ t, t ≤ ([['a'], ['b']] : patternvector).length →
          t ≤ ([['c'], ['b']] : patternvector).length →
          lastSteps [['a'], ['b']] t = lastSteps [['c'], ['b']] t → t ≤ T) ∧
        (_pruneRegister [['a'], ['b']] [['c'], ['b']]
            [[], [((0, true), 1)], [((0, true), 0)]]).length
          = ([['a'], ['b']] : patternvector).length + 1 ∧
        (∀ j, 1 ≤ j → j ≤ T →
          layerAt (_pruneRegister [['a'], ['b']] [['c'], ['b']]
              [[], [((0, true), 1)], [((0, true), 0)]]) j
            = layerAt [[], [((0, true), 1)], [((0, true), 0)]] j ∧
            j < ([[], [((0, true), 1)], [((0, true), 0)]] : memoize).length ∧
            j < (_pruneRegister [['a'], ['b']] [['c'], ['b']]
              [[], [((0, true), 1)], [((0, true), 0)]]).length) ∧
        layerAt (_pruneRegister [['a'], ['b']] [['c'], ['b']]
            [[], [((0, true), 1)], [((0, true), 0)]]) 0 = [] ∧
        ∀ j, T < j → layerAt (_pruneRegister [['a'], ['b']] [['c'], ['b']]
            [[], [((0, true), 1)], [((0, true), 0)]]) j = [] :=
  ⟨by decide, pruneRegister_postcondition [['a'], ['b']] [['c'], ['b']]
    [[], [((0, true), 1)], [((0, true), 0)]] (by decide)⟩

/-! ## Anatomy of one turn of the search loop, in every mode -/

theorem addToStackLoop_pushed (findoption : Int) (layer : pathElementMap) (p : Nat)
    (outs : List Nat) :
    ∀ (assign : Bool) (n : Nat) (stack : List node),
      ∃ pushed, (addToStackLoop findoption layer p outs assign n stack).stack = pushed ++ stack ∧
        ∀ y ∈ pushed, y.2 = p ∧ y.1 ∈ outs := by
  induction outs with
  | nil =>
    intro assign n stack
    exact ⟨[], rfl, by simp⟩
  | cons x rest ih =>
    intro assign n stack
    have hpush : ∀ (a : Bool) (m : Nat),
        ∃ pushed, (addToStackLoop findoption layer p rest a m ((x, p) :: stack)).stack
            = pushed ++ stack ∧ ∀ y ∈ pushed, y.2 = p ∧ y.1 ∈ x :: rest := by
      intro a m
      obtain ⟨pushed, h1, h2⟩ := ih a m ((x, p) :: stack)
      refine ⟨pushed ++ [(x, p)], by simp [h1], ?_⟩
      intro y hy
      rcases List.mem_append.1 hy with hy | hy
      · exact ⟨(h2 y hy).1, List.mem_cons_of_mem _ (h2 y hy).2⟩
      · simp only [List.mem_singleton] at hy
        subst hy
        exact ⟨rfl, List.mem_cons_self _ _⟩
    have hkeep : ∀ (a : Bool) (m : Nat),
        ∃ pushed, (addToStackLoop findoption layer p rest a m stack).stack
            = pushed ++ stack ∧ ∀ y ∈ pushed, y.2 = p ∧ y.1 ∈ x :: rest := by
      intro a m
      obtain ⟨pushed, h1, h2⟩ := ih a m stack
      exact ⟨pushed, h1, fun y hy => ⟨(h2 y hy).1, List.mem_cons_of_mem _ (h2 y hy).2⟩⟩
    unfold addToStackLoop
    split
    · split
      · exact ⟨[], rfl, by simp⟩
      · split
        · exact hpush _ _
        · split
          · exact hkeep _ _
          · exact hkeep _ _
    · exact hpush _ _

theorem addToStack_any {wallgraph : wallgraphvector} {w : Nat} {ws : wallStruct}
    (hws : wallgraph[w]? = some ws) (flag : Bool) (p r : Nat) (findoption : Int)
    (K : memoize) (S : List node) :
    ∃ K2 pushed, _addToStack wallgraph flag p (w, r) findoption K S = .value (K2, pushed ++ S) ∧
      (K2 = K ∨ ∃ v, K2 = setEntry K r (w, flag) v) ∧
      ∀ y ∈ pushed, y.2 = p ∧ y.1 ∈ outedgesOf wallgraph w := by
  obtain ⟨pushed, h1, h2⟩ :=
    addToStackLoop_pushed findoption (layerAt K p) p ws.outedges true 0 S
  rw [outedgesOf_eq hws]
  unfold _addToStack
  simp only [hws]
  split
  · exact ⟨_, pushed, by rw [h1], Or.inr ⟨1, rfl⟩, h2⟩
  · split
    · exact ⟨_, pushed, by rw [h1], Or.inr ⟨_, rfl⟩, h2⟩
    · exact ⟨_, pushed, by rw [h1], Or.inl rfl, h2⟩

theorem extremumPart_any {wallgraph : wallgraphvector} {w : Nat} {ws : wallStruct}
    (hws : wallgraph[w]? = some ws) (findoption : Int) (r : Nat) (S : List node)
    (K : memoize) :
    ∃ K2 pushed,
      (extremumPart wallgraph findoption (w, r) S K = .next (pushed ++ S) K2 ∨
        ∃ b, extremumPart wallgraph findoption (w, r) S K = .found b K2) ∧
      (K2 = K ∨ (mapFind (layerAt K r) (w, true) = some (-1) ∧
        ∃ v, K2 = setEntry K r (w, true) v)) ∧
      ∀ y ∈ pushed, y.1 ∈ outedgesOf wallgraph w ∧ y.2 + 1 = r ∧ 1 ≤ y.2 := by
  unfold extremumPart
  simp only
  by_cases hT : mapFind (layerAt K r) (w, true) = some (-1)
  · rw [if_pos hT]
    by_cases hr : r > 1
    · rw [if_pos hr]
      obtain ⟨K2, pushed, e, h1, h2⟩ := addToStack_any hws true (r - 1) r findoption K S
      rw [e]
      simp only
      have hK2 : K2 = K ∨ (mapFind (layerAt K r) (w, true) = some (-1) ∧
          ∃ v, K2 = setEntry K r (w, true) v) := by
        rcases h1 with h | h
        · exact Or.inl h
        · exact Or.inr ⟨hT, h⟩
      have hpush : ∀ y ∈ pushed, y.1 ∈ outedgesOf wallgraph w ∧ y.2 + 1 = r ∧ 1 ≤ y.2 := by
        intro y hy
        have := h2 y hy
        exact ⟨this.2, by omega, by omega⟩
      split
      · refine ⟨K2, pushed, Or.inr ?_, hK2, hpush⟩
        unfold foundIn
        split
        · exact ⟨_, rfl⟩
        · exact ⟨_, rfl⟩
      · exact ⟨K2, pushed, Or.inl rfl, hK2, hpush⟩
    · rw [if_neg hr]
      split
      · exact ⟨K, [], Or.inr ⟨_, rfl⟩, Or.inl rfl, by simp⟩
      · split
        · exact ⟨_, [], Or.inr ⟨_, rfl⟩, Or.inr ⟨hT, 1, rfl⟩, by simp⟩
        · exact ⟨_, [], Or.inl rfl, Or.inr ⟨hT, 1, rfl⟩, by simp⟩
  · rw [if_neg hT]
    exact ⟨K, [], Or.inl rfl, Or.inl rfl, by simp⟩

theorem turnEffect_assign (N w r : Nat) (ext int : Bool) (K : memoize) (hr : r < K.length)
    (hsome : ¬ (ext = false ∧ int = false)) :
    TurnEffect N w r ext int K (assignPlaceholders N (w, r) ext int K) := by
  obtain ⟨h1, h2, h3, h4⟩ := assignPlaceholders_values N w r ext int K hr hsome
  refine ⟨h1, ?_, h2, ⟨_, h3, Or.inl rfl⟩, ⟨_, h4, Or.inl rfl⟩⟩
  intro hs
  exact (@assignPlaceholders_general (fun _ _ _ _ => True) K N w r ext int
    ⟨hs, fun _ _ _ _ _ => trivial⟩ hr hsome (fun _ => trivial) (fun _ => trivial)
    (fun _ => trivial) (fun _ => trivial) (fun _ _ => trivial)).1.sorted

theorem turnEffect_none (N w r : Nat) (K : memoize) (hr : r < K.length) :
    TurnEffect N w r false false K
      (setEntry (setEntry K r (w, true) 0) r (w, false) 0) := by
  have hl1 : r < (setEntry K r (w, true) 0).length := by
    rw [length_setEntry]; exact hr
  refine ⟨by rw [length_setEntry, length_setEntry], ?_, ?_, ⟨0, ?_, Or.inl ?_⟩,
    ⟨0, ?_, Or.inl ?_⟩⟩
  · intro hs
    exact sorted_setEntry _ _ _ (sorted_setEntry _ _ _ hs)
  · intro r2 key hne
    have hk : ∀ flag, r2 ≠ r ∨ key ≠ (w, flag) := by
      intro flag
      rcases hne with h | h
      · exact Or.inl h
      · exact Or.inr (fun heq => h (by rw [heq]))
    rw [entry_setEntry_other _ (hk false), entry_setEntry_other _ (hk true)]
  · rw [entry_setEntry_other _ (Or.inr (by simp)), entry_setEntry_self _ _ hr]
  · simp [assignedValue]
  · exact entry_setEntry_self _ _ hl1
  · simp [assignedValue]

theorem turnEffect_write {N w r : Nat} {ext int : Bool} {K K4 : memoize} (flag : Bool)
    {v : Int} (hr : r < K.length) (h : TurnEffect N w r ext int K K4)
    (hpend : mapFind (layerAt K4 r) (w, flag) = some (-1)) :
    TurnEffect N w r ext int K (setEntry K4 r (w, flag) v) := by
  have hr4 : r < K4.length := by rw [h.len]; exact hr
  obtain ⟨tv, ht1, ht2⟩ := h.extremum
  obtain ⟨fv, hf1, hf2⟩ := h.intermediate
  refine ⟨by rw [length_setEntry, h.len], fun hs => sorted_setEntry _ _ _ (h.sorted hs), ?_,
    ?_, ?_⟩
  · intro r2 key hne
    rw [entry_setEntry_other _ (by
      rcases hne with h1 | h1
      · exact Or.inl h1
      · exact Or.inr (fun heq => h1 (by rw [heq]))), h.frame r2 key hne]
  · cases flag with
    | true =>
      rw [ht1] at hpend
      simp only [Option.some.injEq] at hpend
      subst hpend
      refine ⟨v, entry_setEntry_self _ _ hr4, Or.inr ?_⟩
      rcases ht2 with h2 | h2
      · exact h2.symm
      · exact h2
    | false =>
      exact ⟨tv, by rw [entry_setEntry_other _ (Or.inr (by simp)), ht1], ht2⟩
  · cases flag with
    | false =>
      rw [hf1] at hpend
      simp only [Option.some.injEq] at hpend
      subst hpend
      refine ⟨v, entry_setEntry_self _ _ hr4, Or.inr ?_⟩
      rcases hf2 with h2 | h2
      · exact h2.symm
      · exact h2
    | true =>
      exact ⟨fv, by rw [entry_setEntry_other _ (Or.inr (by simp)), hf1], hf2⟩

theorem expandNode_any (wallgraph : wallgraphvector) (pattern : patternvector)
    (findoption : Int) (w r : Nat) (S : List node) (K : memoize) (hr : r < K.length) :
    (∃ f, expandNode wallgraph pattern (intermediatesOf pattern) pattern.length findoption
        (w, r) S K = .fault f) ∨
      ∃ ws ext int K2 pushed, wallgraph[w]? = some ws ∧
        _checkForWordInLabels (pattern.getD (pattern.length - r) []) ws.labels = .value ext ∧
        _checkForWordInLabels ((intermediatesOf pattern).getD (pattern.length - r) [])
          ws.labels = .value int ∧
        (expandNode wallgraph pattern (intermediatesOf pattern) pattern.length findoption
            (w, r) S K = .next (pushed ++ S) K2 ∨
          ∃ b, expandNode wallgraph pattern (intermediatesOf pattern) pattern.length
            findoption (w, r) S K = .found b K2) ∧
        (∀ y ∈ pushed, y.1 ∈ outedgesOf wallgraph w ∧ (y.2 = r ∨ (y.2 + 1 = r ∧ 1 ≤ y.2))) ∧
        TurnEffect pattern.length w r ext int K K2 := by
  unfold expandNode
  simp only
  cases hws : wallgraph[w]? with
  | none => exact Or.inl ⟨_, rfl⟩
  | some ws =>
    simp only
    cases hext : _checkForWordInLabels (pattern.getD (pattern.length - r) []) ws.labels with
    | fault f => exact Or.inl ⟨_, rfl⟩
    | value ext =>
      simp only
      cases hint : _checkForWordInLabels
          ((intermediatesOf pattern).getD (pattern.length - r) []) ws.labels with
      | fault f => exact Or.inl ⟨_, rfl⟩
      | value int =>
        simp only
        right
        by_cases hboth : ext = false ∧ int = false
        · rw [if_pos hboth]
          obtain ⟨he, hi⟩ := hboth
          subst he hi
          exact ⟨ws, false, false, _, [], rfl, hext, hint, Or.inl rfl, by simp,
            turnEffect_none _ w r K hr⟩
        · rw [if_neg hboth]
          have h4 := turnEffect_assign pattern.length w r ext int K hr hboth
          generalize assignPlaceholders pattern.length (w, r) ext int K = K4 at h4 ⊢
          have hfinish : ∀ (K5 : memoize) (pushed1 : List node),
              TurnEffect pattern.length w r ext int K K5 →
              (∀ y ∈ pushed1, y.1 ∈ outedgesOf wallgraph w ∧ y.2 = r) →
              ∃ K2 pushed,
                (extremumPart wallgraph findoption (w, r) (pushed1 ++ S) K5
                    = .next (pushed ++ S) K2 ∨
                  ∃ b, extremumPart wallgraph findoption (w, r) (pushed1 ++ S) K5
                    = .found b K2) ∧
                (∀ y ∈ pushed, y.1 ∈ outedgesOf wallgraph w ∧
                  (y.2 = r ∨ (y.2 + 1 = r ∧ 1 ≤ y.2))) ∧
                TurnEffect pattern.length w r ext int K K2 := by
            intro K5 pushed1 h5 hp1
            obtain ⟨K6, pushed2, e, h6, hp2⟩ :=
              extremumPart_any hws findoption r (pushed1 ++ S) K5
            refine ⟨K6, pushed2 ++ pushed1, ?_, ?_, ?_⟩
            · rw [List.append_assoc]
              exact e
            · intro y hy
              rcases List.mem_append.1 hy with hy | hy
              · exact ⟨(hp2 y hy).1, Or.inr (hp2 y hy).2⟩
              · exact ⟨(hp1 y hy).1, Or.inl (hp1 y hy).2⟩
            · rcases h6 with h6 | ⟨hT, v, h6⟩
              · rw [h6]; exact h5
              · rw [h6]
                exact turnEffect_write true hr h5 hT
          by_cases hF : mapFind (layerAt K4 r) (w, false) = some (-1)
          · rw [if_pos hF]
            obtain ⟨K5, pushed1, e, h5, hp1⟩ := addToStack_any hws false r r findoption K4 S
            rw [e]
            simp only
            have h5e : TurnEffect pattern.length w r ext int K K5 := by
              rcases h5 with h5 | ⟨v, h5⟩
              · rw [h5]; exact h4
              · rw [h5]
                exact turnEffect_write false hr h4 hF
            split
            · refine ⟨ws, ext, int, K5, [], rfl, hext, hint, Or.inr ?_, by simp, h5e⟩
              unfold foundIn
              split
              · exact ⟨_, rfl⟩
              · exact ⟨_, rfl⟩
            · obtain ⟨K2, pushed, e2, hp, h2⟩ := hfinish K5 pushed1 h5e
                (fun y hy => ⟨(hp1 y hy).2, (hp1 y hy).1⟩)
              exact ⟨ws, ext, int, K2, pushed, rfl, hext, hint, e2, hp, h2⟩
          · rw [if_neg hF]
            obtain ⟨K2, pushed, e2, hp, h2⟩ := hfinish K4 [] h4 (by simp)
            exact ⟨ws, ext, int, K2, pushed, rfl, hext, hint, by simpa using e2, hp, h2⟩

theorem searchStep_any (wallgraph : wallgraphvector) (pattern : patternvector)
    (findoption : Int) (w r : Nat) (S : List node) (K : memoize) (hr : r < K.length) :
    (∃ f, searchStep wallgraph pattern (intermediatesOf pattern) pattern.length findoption
        (w, r) S K = .fault f) ∨
      (∃ t f, mapFind (layerAt K r) (w, true) = some t ∧
        mapFind (layerAt K r) (w, false) = some f ∧
        ((¬ (t > 0 ∨ f > 0) ∧ t > -1 ∧ f > -1 ∧
            searchStep wallgraph pattern (intermediatesOf pattern) pattern.length findoption
              (w, r) S K = .next S K) ∨
          ((t > 0 ∨ f > 0) ∧ (findoption = 1 ∨ findoption = 2) ∧
            ∃ b, searchStep wallgraph pattern (intermediatesOf pattern) pattern.length
              findoption (w, r) S K = .found b K))) ∨
      (((findoption ≠ 1 ∧ findoption ≠ 2) ∨
          ¬ ∃ t f, mapFind (layerAt K r) (w, true) = some t ∧
            mapFind (layerAt K r) (w, false) = some f ∧ (t > 0 ∨ f > 0)) ∧
        ∃ ws ext int K2 pushed, wallgraph[w]? = some ws ∧
          _checkForWordInLabels (pattern.getD (pattern.length - r) []) ws.labels
            = .value ext ∧
          _checkForWordInLabels ((intermediatesOf pattern).getD (pattern.length - r) [])
            ws.labels = .value int ∧
          (searchStep wallgraph pattern (intermediatesOf pattern) pattern.length findoption
              (w, r) S K = .next (pushed ++ S) K2 ∨
            ∃ b, searchStep wallgraph pattern (intermediatesOf pattern) pattern.length
              findoption (w, r) S K = .found b K2) ∧
          (∀ y ∈ pushed, y.1 ∈ outedgesOf wallgraph w ∧
            (y.2 = r ∨ (y.2 + 1 = r ∧ 1 ≤ y.2))) ∧
          TurnEffect pattern.length w r ext int K K2) := by
  have hcase : (∃ t f, mapFind (layerAt K r) (w, true) = some t ∧
        mapFind (layerAt K r) (w, false) = some f ∧
        ((¬ (t > 0 ∨ f > 0) ∧ t > -1 ∧ f > -1 ∧
            searchStep wallgraph pattern (intermediatesOf pattern) pattern.length findoption
              (w, r) S K = .next S K) ∨
          ((t > 0 ∨ f > 0) ∧ (findoption = 1 ∨ findoption = 2) ∧
            ∃ b, searchStep wallgraph pattern (intermediatesOf pattern) pattern.length
              findoption (w, r) S K = .found b K))) ∨
      (((findoption ≠ 1 ∧ findoption ≠ 2) ∨
          ¬ ∃ t f, mapFind (layerAt K r) (w, true) = some t ∧
            mapFind (layerAt K r) (w, false) = some f ∧ (t > 0 ∨ f > 0)) ∧
        searchStep wallgraph pattern (intermediatesOf pattern) pattern.length findoption
            (w, r) S K
          = expandNode wallgraph pattern (intermediatesOf pattern) pattern.length findoption
            (w, r) S K) := by
    obtain ⟨ot, hT⟩ : ∃ ot, mapFind (layerAt K r) (w, true) = ot := ⟨_, rfl⟩
    obtain ⟨of, hF⟩ : ∃ of, mapFind (layerAt K r) (w, false) = of := ⟨_, rfl⟩
    cases ot with
    | none =>
      refine Or.inr ⟨Or.inr ?_, ?_⟩
      · rintro ⟨t, f, h1, _⟩
        rw [hT] at h1
        simp at h1
      · unfold searchStep
        simp only [hT]
    | some t =>
      cases of with
      | none =>
        refine Or.inr ⟨Or.inr ?_, ?_⟩
        · rintro ⟨t, f, _, h2, _⟩
          rw [hF] at h2
          simp at h2
        · unfold searchStep
          simp only [hT, hF]
      | some f =>
        by_cases hpos : t > 0 ∨ f > 0
        · by_cases h1 : findoption = 1
          · refine Or.inl ⟨t, f, hT, hF, Or.inr ⟨hpos, Or.inl h1, false, ?_⟩⟩
            unfold searchStep
            simp only [hT, hF]
            rw [if_pos hpos, if_pos h1]
          · by_cases h2 : findoption = 2
            · refine Or.inl ⟨t, f, hT, hF, Or.inr ⟨hpos, Or.inr h2, true, ?_⟩⟩
              unfold searchStep
              simp only [hT, hF]
              rw [if_pos hpos, if_neg h1, if_pos h2]
            · refine Or.inr ⟨Or.inl ⟨h1, h2⟩, ?_⟩
              unfold searchStep
              simp only [hT, hF]
              rw [if_pos hpos, if_neg h1, if_neg h2]
        · by_cases hset : t > -1 ∧ f > -1
          · refine Or.inl ⟨t, f, hT, hF, Or.inl ⟨hpos, hset.1, hset.2, ?_⟩⟩
            unfold searchStep
            simp only [hT, hF]
            rw [if_neg hpos, if_pos hset]
          · refine Or.inr ⟨Or.inr ?_, ?_⟩
            · rintro ⟨t2, f2, h1, h2, h3⟩
              rw [hT] at h1
              rw [hF] at h2
              simp only [Option.some.injEq] at h1 h2
              subst h1 h2
              exact hpos h3
            · unfold searchStep
              simp only [hT, hF]
              rw [if_neg hpos, if_neg hset]
  rcases hcase with h | ⟨hcond, heq⟩
  · exact Or.inr (Or.inl h)
  · rcases expandNode_any wallgraph pattern findoption w r S K hr with h | h
    · exact Or.inl (by rw [heq]; exact h)
    · exact Or.inr (Or.inr ⟨hcond, by rw [heq]; exact h⟩)

/-! ## What `_backFill` writes, in every mode -/

theorem sumcounts_any (key : keypair) (outedges : List Nat) (r : Nat) (findoption : Int)
    (K : memoize) :
    (_sumcounts key outedges r findoption K).2 = K ∨
      ∃ v, (_sumcounts key outedges r findoption K).2 = setEntry K r key v := by
  unfold _sumcounts
  simp only
  split
  · exact Or.inr ⟨1, rfl⟩
  · exact Or.inl rfl
  · exact Or.inr ⟨_, rfl⟩

theorem intermediateSweep_any {wallgraph : wallgraphvector} (Q : memoize → Prop) (i : Nat)
    (findoption : Int)
    (hQ : ∀ (K : memoize) (w : Nat) (v : Int), Q K →
      (∃ old, mapFind (layerAt K i) (w, false) = some old ∧ old ≤ -1) →
      Q (setEntry K i (w, false) v))
    (keys : List keypair) :
    ∀ (K : memoize) (done : Bool) (K2 : memoize) (done2 : Bool), Q K →
      intermediateSweep wallgraph i findoption keys K done = .value (K2, done2) → Q K2 := by
  induction keys with
  | nil =>
    intro K done K2 done2 hq h
    simp only [intermediateSweep, Outcome.value.injEq, Prod.mk.injEq] at h
    rw [← h.1]
    exact hq
  | cons key rest ih =>
    intro K done K2 done2 hq h
    unfold intermediateSweep at h
    split at h
    · exact ih K done K2 done2 hq h
    · next v hv =>
      split at h
      · exact ih K done K2 done2 hq h
      · next hc =>
        split at h
        · simp at h
        · next ws hws =>
          simp only at h
          refine ih _ _ K2 done2 ?_ h
          obtain ⟨w, flag⟩ := key
          have hflag : flag = false := by
            cases flag with
            | false => rfl
            | true => exact absurd (Or.inl rfl) hc
          subst hflag
          rcases sumcounts_any (w, false) ws.outedges i findoption K with h1 | ⟨v2, h1⟩
          · rw [h1]; exact hq
          · rw [h1]
            exact hQ K w v2 hq ⟨v, hv, by
              have : ¬ v > -1 := fun h3 => hc (Or.inr h3)
              omega⟩

theorem backFillIntermediateLoop_any {wallgraph : wallgraphvector} (Q : memoize → Prop)
    (i : Nat) (findoption : Int)
    (hQ : ∀ (K : memoize) (w : Nat) (v : Int), Q K →
      (∃ old, mapFind (layerAt K i) (w, false) = some old ∧ old ≤ -1) →
      Q (setEntry K i (w, false) v))
    (numiterations fuel : Nat) :
    ∀ (count : Nat) (done : Bool) (K K2 : memoize), Q K →
      backFillIntermediateLoop wallgraph i findoption numiterations fuel count done K
        = some (.value K2) → Q K2 := by
  induction fuel with
  | zero =>
    intro count done K K2 _ h
    simp [backFillIntermediateLoop] at h
  | succ fuel ih =>
    intro count done K K2 hq h
    unfold backFillIntermediateLoop at h
    split at h
    · split at h
      · simp at h
      · next r hr =>
        obtain ⟨K3, d3⟩ := r
        exact ih _ _ K3 K2 (intermediateSweep_any Q i findoption hQ _ K true K3 d3 hq hr) h
    · simp only [Option.some.injEq, Outcome.value.injEq] at h
      rw [← h]
      exact hq

theorem extremumPass_any {wallgraph : wallgraphvector} (Q : memoize → Prop) (i : Nat)
    (findoption : Int)
    (hQ : ∀ (K : memoize) (w : Nat) (v : Int), Q K →
      (∃ old, mapFind (layerAt K i) (w, true) = some old ∧ old ≤ -1) →
      Q (setEntry K i (w, true) v))
    (keys : List keypair) :
    ∀ (K K2 : memoize), Q K → extremumPass wallgraph i findoption keys K = .value K2 →
      Q K2 := by
  induction keys with
  | nil =>
    intro K K2 hq h
    simp only [extremumPass, Outcome.value.injEq] at h
    rw [← h]
    exact hq
  | cons key rest ih =>
    intro K K2 hq h
    unfold extremumPass at h
    split at h
    · simp at h
    · next ws hws =>
      split at h
      · exact ih K K2 hq h
      · next v hv =>
        split at h
        · next hc =>
          refine ih _ K2 ?_ h
          obtain ⟨w, flag⟩ := key
          simp only at hc
          obtain ⟨hflag, hv1⟩ := hc
          subst hflag hv1
          rcases sumcounts_any (w, true) ws.outedges i findoption K with h1 | ⟨v2, h1⟩
          · rw [h1]; exact hq
          · rw [h1]
            exact hQ K w v2 hq ⟨-1, hv, by decide⟩
        · exact ih K K2 hq h

theorem backFillLayers_any {wallgraph : wallgraphvector} (Q : memoize → Prop)
    (findoption : Int)
    (hQ : ∀ (K : memoize) (w : Nat) (flag : Bool) (r : Nat) (v : Int), Q K → 1 ≤ r →
      (∃ old, mapFind (layerAt K r) (w, flag) = some old ∧ old ≤ -1) →
      Q (setEntry K r (w, flag) v))
    (fuel todo : Nat) :
    ∀ (i : Nat) (K K2 : memoize), 1 ≤ i → Q K →
      backFillLayers wallgraph fuel findoption todo i K = some (.value K2) → Q K2 := by
  induction todo with
  | zero =>
    intro i K K2 _ hq h
    simp only [backFillLayers, Option.some.injEq, Outcome.value.injEq] at h
    rw [← h]
    exact hq
  | succ todo ih =>
    intro i K K2 hi hq h
    unfold backFillLayers at h
    split at h
    · simp at h
    · next k1 hk1 =>
      have hq1 : Q k1 := extremumPass_any Q i findoption
        (fun K w v hK hold => hQ K w true i v hK hi hold) _ K k1 hq hk1
      split at h
      · simp at h
      · simp at h
      · next k2 hk2 =>
        have hq2 : Q k2 := backFillIntermediateLoop_any Q i findoption
          (fun K w v hK hold => hQ K w false i v hK hi hold) _ fuel 0 false k1 k2 hq1 hk2
        exact ih (i + 1) k2 K2 (by omega) hq2 h

theorem backFill_any {wallgraph : wallgraphvector} (Q : memoize → Prop) (findoption : Int)
    (hQ : ∀ (K : memoize) (w : Nat) (flag : Bool) (r : Nat) (v : Int), Q K → 1 ≤ r →
      (∃ old, mapFind (layerAt K r) (w, flag) = some old ∧ old ≤ -1) →
      Q (setEntry K r (w, flag) v))
    {fuel N : Nat} {K K2 : memoize} (hq : Q K)
    (h : _backFill wallgraph fuel N findoption K = some (.value K2)) : Q K2 := by
  unfold _backFill at h
  split at h
  · simp at h
  · simp at h
  · next k1 hk1 =>
    have hq1 : Q k1 := backFillIntermediateLoop_any Q 1 findoption
      (fun K w v hK hold => hQ K w false 1 v hK (le_refl 1) hold) _ fuel 0 false K k1
      hq hk1
    split at h
    · exact backFillLayers_any Q findoption hQ fuel (N - 1) 2 k1 K2 (by omega) hq1 h
    · simp at h

/-! ## Bounds of the worklist and the reserved slot 0 -/

theorem searchStep_top {wallgraph : wallgraphvector} {pattern : patternvector}
    {findoption : Int} {w r : Nat} {S S2 : List node} {K K2 : memoize}
    (hr : r < K.length)
    (h : searchStep wallgraph pattern (intermediatesOf pattern) pattern.length findoption
      (w, r) S K = .next S2 K2) :
    K2.length = K.length ∧
      ((∀ r2, MapSorted (layerAt K r2)) → ∀ r2, MapSorted (layerAt K2 r2)) ∧
      (∀ n ∈ S2, n ∈ S ∨
        (n.1 ∈ outedgesOf wallgraph w ∧ (n.2 = r ∨ (n.2 + 1 = r ∧ 1 ≤ n.2)))) ∧
      (∀ n ∈ S, n ∈ S2) ∧
      (∀ r2 key, (r2 ≠ r ∨ key.1 ≠ w) →
        mapFind (layerAt K2 r2) key = mapFind (layerAt K r2) key) ∧
      (∃ tv fv, mapFind (layerAt K2 r) (w, true) = some tv ∧
        mapFind (layerAt K2 r) (w, false) = some fv ∧ (r = pattern.length → fv = 0)) ∧
      (∀ flag, mapFind (layerAt K r) (w, flag) ≠ none ∨ w < wallgraph.length) := by
  rcases searchStep_any wallgraph pattern findoption w r S K hr with
    ⟨f, e⟩ | ⟨t, f, hT, hF, ⟨hpos, _, hf, e⟩ | ⟨_, _, b, e⟩⟩ |
    ⟨_, ws, ext, int, K3, pushed, hws, _, _, e, hp, heff⟩
  · rw [e] at h
    simp at h
  · rw [e] at h
    simp only [StepResult.next.injEq] at h
    rw [← h.1, ← h.2]
    refine ⟨rfl, fun hs => hs, fun n hn => Or.inl hn, fun n hn => hn, fun _ _ _ => rfl,
      ⟨t, f, hT, hF, fun _ => ?_⟩, fun flag => Or.inl ?_⟩
    · have : ¬ f > 0 := fun h2 => hpos (Or.inr h2)
      omega
    · cases flag with
      | true => rw [hT]; simp
      | false => rw [hF]; simp
  · rw [e] at h
    simp at h
  · rcases e with e | ⟨b, e⟩
    · rw [e] at h
      simp only [StepResult.next.injEq] at h
      rw [← h.1, ← h.2]
      obtain ⟨tv, ht1, _⟩ := heff.extremum
      obtain ⟨fv, hf1, hf2⟩ := heff.intermediate
      refine ⟨heff.len, heff.sorted, ?_, fun n hn => List.mem_append_right _ hn, heff.frame,
        ⟨tv, fv, ht1, hf1, fun hrN => ?_⟩, fun _ => Or.inr (lt_of_getElem hws)⟩
      · intro n hn
        rcases List.mem_append.1 hn with hn | hn
        · exact Or.inr (hp n hn)
        · exact Or.inl hn
      · have hz : assignedValue int (decide (r = pattern.length))
            (mapFind (layerAt K r) (w, false)) = 0 := by
          unfold assignedValue
          simp [hrN]
        rw [hz] at hf2
        rcases hf2 with h2 | h2
        · exact h2
        · omega
    · rw [e] at h
      simp at h

theorem top_layer_complete {wallgraph : wallgraphvector} {pattern : patternvector}
    {K0 : memoize} {fuel c : Nat} {K : memoize} (hN : 1 ≤ pattern.length)
    (hlen : K0.length = pattern.length + 1)
    (h : _patternMatch wallgraph fuel pattern 3 K0 = some (.value (c, K))) :
    ∃ K2, _backFill wallgraph fuel pattern.length 3 K2 = some (.value K) ∧
      c = countLayer (layerAt K pattern.length) ∧
      K2.length = pattern.length + 1 ∧
      ((∀ r2, MapSorted (layerAt K0 r2)) → ∀ r2, MapSorted (layerAt K2 r2)) ∧
      ((∀ w flag, mapFind (layerAt K0 pattern.length) (w, flag) ≠ none →
          w < wallgraph.length) →
        ∀ w flag, mapFind (layerAt K2 pattern.length) (w, flag) ≠ none →
          w < wallgraph.length) ∧
      ∀ w, w < wallgraph.length →
        presentAt K2 pattern.length w ∧
          mapFind (layerAt K2 pattern.length) (w, false) = some 0 := by
  unfold _patternMatch at h
  obtain ⟨K2, hj, hfill, hc⟩ := searchLoop_three_invariant
    (fun S K1 => K1.length = pattern.length + 1 ∧
      ((∀ r2, MapSorted (layerAt K0 r2)) → ∀ r2, MapSorted (layerAt K1 r2)) ∧
      ((∀ w flag, mapFind (layerAt K0 pattern.length) (w, flag) ≠ none →
          w < wallgraph.length) →
        ∀ w flag, mapFind (layerAt K1 pattern.length) (w, flag) ≠ none →
          w < wallgraph.length) ∧
      (∀ n ∈ S, 1 ≤ n.2 ∧ n.2 ≤ pattern.length) ∧
      ∀ w, w < wallgraph.length →
        (presentAt K1 pattern.length w ∧
          mapFind (layerAt K1 pattern.length) (w, false) = some 0) ∨
        (w, pattern.length) ∈ S)
    (by
      intro thisnode S K1 S2 K3 hj hstep
      obtain ⟨w0, r0⟩ := thisnode
      obtain ⟨h1, h2, h3, h4, h5⟩ := hj
      have hb := h4 (w0, r0) (List.mem_cons_self _ _)
      simp only at hb
      obtain ⟨g1, g2, g3, g4, g5, ⟨tv, fv, g6, g7, g8⟩, g9⟩ :=
        searchStep_top (by rw [h1]; omega) hstep
      refine ⟨by rw [g1, h1], fun hs => g2 (h2 hs), ?_, ?_, ?_⟩
      · intro hk w flag hne
        by_cases hsame : pattern.length = r0 ∧ w = w0
        · obtain ⟨hs1, hs2⟩ := hsame
          subst hs2
          rcases g9 flag with h9 | h9
          · rw [← hs1] at h9
            exact h3 hk w flag h9
          · exact h9
        · rw [g5 _ _ (by
            by_cases hh : pattern.length = r0
            · exact Or.inr (fun hw => hsame ⟨hh, hw⟩)
            · exact Or.inl hh)] at hne
          exact h3 hk w flag hne
      · intro n hn
        rcases g3 n hn with hn2 | hn2
        · exact h4 n (List.mem_cons_of_mem _ hn2)
        · have := hn2.2
          omega
      · intro w hw
        by_cases hsame : pattern.length = r0 ∧ w = w0
        · obtain ⟨hs1, hs2⟩ := hsame
          subst hs1 hs2
          left
          refine ⟨⟨by rw [g6]; simp, by rw [g7]; simp⟩, ?_⟩
          rw [g7, g8 rfl]
        · have hfr : ∀ key : keypair, key.1 = w →
              mapFind (layerAt K3 pattern.length) key
                = mapFind (layerAt K1 pattern.length) key := by
            intro key hkey
            apply g5
            by_cases hh : pattern.length = r0
            · exact Or.inr (fun hw2 => hsame ⟨hh, by rw [← hkey, hw2]⟩)
            · exact Or.inl hh
          rcases h5 w hw with hp | hp
          · left
            unfold presentAt
            rw [hfr (w, true) rfl, hfr (w, false) rfl]
            exact hp
          · rcases List.mem_cons.1 hp with hp | hp
            · simp only [Prod.mk.injEq] at hp
              exact absurd ⟨hp.2, hp.1⟩ hsame
            · exact Or.inr (g4 _ hp))
    fuel fuel _ K0 c K
    ⟨hlen, fun hs => hs, fun hk => hk, fun n hn => by
        rw [mem_initialStack] at hn
        omega,
      fun w hw => Or.inr (mem_initialStack.2 ⟨hw, rfl⟩)⟩ h
  obtain ⟨h1, h2, h3, _, h5⟩ := hj
  refine ⟨K2, hfill, hc, h1, h2, h3, fun w hw => ?_⟩
  rcases h5 w hw with hp | hp
  · exact hp
  · simp at hp

theorem layer_sum_pairs {m : pathElementMap} {W : Nat} (hs : MapSorted m)
    (hkeys : ∀ w flag, mapFind m (w, flag) ≠ none ↔ w < W) :
    (m.map Prod.snd).sum
      = ((List.range W).map (fun w =>
          (mapFind m (w, true)).getD 0 + (mapFind m (w, false)).getD 0)).sum := by
  have hk : (m.map Prod.fst).toFinset
      = (Finset.range W) ×ˢ (Finset.univ : Finset Bool) := by
    ext k
    obtain ⟨w, flag⟩ := k
    simp only [List.mem_toFinset, Finset.mem_product, Finset.mem_range, Finset.mem_univ,
      and_true]
    rw [← mapFind_ne_none_iff]
    exact hkeys w flag
  have hrange : (List.range W).toFinset = Finset.range W := by
    ext w
    simp
  rw [layer_values hs, ← List.sum_toFinset _ (mapSorted_nodup hs), hk, Finset.sum_product,
    ← List.sum_toFinset _ (List.nodup_range _), hrange]
  apply Finset.sum_congr rfl
  intro w _
  rw [Fintype.sum_bool]

set_option maxRecDepth 100000 in
/-- C15 fails on an acyclic, well-formed input. On `sentinelGraph 1` with the
pattern `M`, `M`, from the empty store, the mode-3 search `_patternMatch`
returns (with the count `2 ^ 64 - 1`) and the store it leaves holds `-1` in
the intermediate entry of wall 1 at remaining length 1 and in the extremum
entry of wall 0 at remaining length 2: the `2 ^ 64 - 1` walks from wall 1 are
stored in an `int64_t` entry as `-1`, the value of the placeholder, so the sum
for wall 0 finds its neighbour pending and the entry of wall 0 is never
resolved. -/
theorem backfill_leaves_pending :
    WellFormed (sentinelGraph 1) [['M'], ['M']] 1 ∧
      Acyclic (sentinelGraph 1) (fun w => 17 - w) ∧
      WalkCounts (sentinelGraph 1) [['M'], ['M']] (sentinelE 1) sentinelI ∧
      sentinelI 1 1 = 2 ^ 64 - 1 ∧
      sentinelProbe (_patternMatch (sentinelGraph 1) 1000 [['M'], ['M']] 3
          (List.replicate 3 []))
        = some (2 ^ 64 - 1, some (-1), some (-1)) := by
  refine ⟨?_, ?_, ?_, ?_, ?_⟩
  · unfold WellFormed; decide
  · unfold Acyclic; decide
  · unfold WalkCounts; decide
  · decide
  · rfl

/-- C14 (amended). Whenever a mode-3 search `_patternMatch` on a non-empty
pattern of length `N` returns, having started on a store of `N + 1` slots
whose keys at remaining length `N` are walls of the graph, the intermediate
entry of every wall at remaining length `N` is present and equal to 0, and the
returned count is the sum over all walls of the extremum entries at remaining
length `N`, reduced modulo `2 ^ 64`. -/
theorem first_step_rule (wallgraph : wallgraphvector) (pattern : patternvector)
    (K0 : memoize) (fuel c : Nat) (K : memoize) (hN : 1 ≤ pattern.length)
    (hlen : K0.length = pattern.length + 1)
    (hsorted : ∀ r, MapSorted (layerAt K0 r))
    (hkeys : ∀ w flag, mapFind (layerAt K0 pattern.length) (w, flag) ≠ none →
      w < wallgraph.length)
    (h : _patternMatch wallgraph fuel pattern 3 K0 = some (.value (c, K))) :
    (∀ w, w < wallgraph.length →
        mapFind (layerAt K pattern.length) (w, false) = some 0) ∧
      (c : Int) = extremumTotal K pattern.length wallgraph.length % 2 ^ 64 := by
  obtain ⟨K2, hfill, hc, _, hs2, hk2, htop⟩ := top_layer_complete hN hlen h
  obtain ⟨hs, hk, hp⟩ := backFill_any
    (fun K1 => (∀ r2, MapSorted (layerAt K1 r2)) ∧
      (∀ w flag, mapFind (layerAt K1 pattern.length) (w, flag) ≠ none →
        w < wallgraph.length) ∧
      ∀ w, w < wallgraph.length → presentAt K1 pattern.length w ∧
        mapFind (layerAt K1 pattern.length) (w, false) = some 0) 3
    (by
      intro K1 w flag r v hq _ hold
      obtain ⟨q1, q2, q3⟩ := hq
      obtain ⟨old, ho1, ho2⟩ := hold
      refine ⟨sorted_setEntry _ _ _ q1, ?_, ?_⟩
      · intro w2 flag2 hne
        by_cases hsame : pattern.length = r ∧ (w2, flag2) = (w, flag)
        · obtain ⟨e1, e2⟩ := hsame
          simp only [Prod.mk.injEq] at e2
          obtain ⟨e3, e4⟩ := e2
          subst e1 e3 e4
          exact q2 w2 flag2 (by rw [ho1]; simp)
        · rw [entry_setEntry_other _ (by
            by_cases hh : pattern.length = r
            · exact Or.inr (fun hw => hsame ⟨hh, hw⟩)
            · exact Or.inl hh)] at hne
          exact q2 w2 flag2 hne
      · intro w2 hw2
        refine ⟨presentAt_setEntry _ _ (q3 w2 hw2).1, ?_⟩
        by_cases hsame : pattern.length = r ∧ ((w2, false) : keypair) = (w, flag)
        · obtain ⟨e1, e2⟩ := hsame
          simp only [Prod.mk.injEq] at e2
          obtain ⟨e3, e4⟩ := e2
          subst e1 e3 e4
          have := (q3 w2 hw2).2
          rw [ho1] at this
          simp only [Option.some.injEq] at this
          omega
        · rw [entry_setEntry_other _ (by
            by_cases hh : pattern.length = r
            · exact Or.inr (fun hw => hsame ⟨hh, hw⟩)
            · exact Or.inl hh)]
          exact (q3 w2 hw2).2)
    ⟨hs2 hsorted, hk2 hkeys, htop⟩ hfill
  refine ⟨fun w hw => (hp w hw).2, ?_⟩
  have hcount := countLayer_foldl (layerAt K pattern.length) 0 (by unfold u64; norm_num)
  simp only [Nat.cast_zero, zero_add] at hcount
  rw [hc]
  unfold countLayer
  rw [hcount, layer_sum_pairs (hs pattern.length) (fun w flag =>
    ⟨hk w flag, fun hw => by
      cases flag with
      | true => exact (hp w hw).1.1
      | false => exact (hp w hw).1.2⟩)]
  unfold extremumTotal u64
  congr 2
  apply List.map_congr_left
  intro w hw
  rw [(hp w (List.mem_range.1 hw)).2]
  simp

/-- Witness for C14: the search for `M`, `M` on `detourGraph` from the empty store. -/
theorem first_step_rule_witness :
    1 ≤ ([['M'], ['M']] : patternvector).length ∧
      (List.replicate 3 [] : memoize).length = ([['M'], ['M']] : patternvector).length + 1 ∧
      (∀ r, MapSorted (layerAt (List.replicate 3 []) r)) ∧
      (∀ w flag, mapFind (layerAt (List.replicate 3 [])
          ([['M'], ['M']] : patternvector).length) (w, flag) ≠ none →
        w < detourGraph.length) ∧
      _patternMatch detourGraph 50 [['M'], ['M']] 3 (List.replicate 3 [])
        = some (.value (1, detourFinal)) ∧
      ((∀ w, w < detourGraph.length →
          mapFind (layerAt detourFinal ([['M'], ['M']] : patternvector).length) (w, false)
            = some 0) ∧
        ((1 : Nat) : Int) = extremumTotal detourFinal ([['M'], ['M']] : patternvector).length
          detourGraph.length % 2 ^ 64) :=
  ⟨by decide, by decide, (genStore_replicate (fun _ _ _ _ => True) 3).sorted,
   fun w flag hne => absurd (by rw [layerAt_replicate]; rfl) hne, by rfl,
   first_step_rule detourGraph [['M'], ['M']] (List.replicate 3 []) 50 1 detourFinal
     (by decide) (by decide) (genStore_replicate (fun _ _ _ _ => True) 3).sorted
     (fun w flag hne => absurd (by rw [layerAt_replicate]; rfl) hne) (by rfl)⟩

theorem final_top_entry {wallgraph : wallgraphvector} {pattern : patternvector}
    {V : Nat → Nat → Bool → Int} {K : memoize}
    (hinv : SearchInv wallgraph pattern V [] K)
    (hval : ∀ r w flag v, mapFind (layerAt K r) (w, flag) = some v → v = V w r flag)
    {w : Nat} (hw : w < wallgraph.length) (flag : Bool) :
    mapFind (layerAt K pattern.length) (w, flag) = some (V w pattern.length flag) := by
  rcases hinv.cover w hw with hp | hp
  · cases hfind : mapFind (layerAt K pattern.length) (w, flag) with
    | none =>
      cases flag with
      | true => exact absurd hfind hp.1
      | false => exact absurd hfind hp.2
    | some v => rw [hval _ w flag v hfind]
  · simp at hp

/-- C14 as stated fails. On `fanChain` with the pattern of 17 steps, from the
empty store, the mode-3 search returns the count 0 while the extremum entries
at remaining length 17 (`2 ^ 62` for each of the four start walls) sum to
`2 ^ 64`: the `uint64_t` accumulator of the final sum wraps around. -/
theorem fanChain_count_below_sum :
    ∃ fuel K, _patternMatch fanChain fuel wideChainPattern 3
        (List.replicate (wideChainPattern.length + 1) []) = some (.value (0, K)) ∧
      (∀ w, w < 4 → mapFind (layerAt K wideChainPattern.length) (w, true)
        = some (2 ^ 62)) ∧
      extremumTotal K wideChainPattern.length fanChain.length = 2 ^ 64 := by
  have hwf : WellFormed fanChain wideChainPattern 2 := by unfold WellFormed; decide
  have hac : Acyclic fanChain (fun w => 20 - w) := by unfold Acyclic; decide
  have hrec : WalkCounts fanChain wideChainPattern fanE wideChainI := by
    unfold WalkCounts; decide
  have hsf : SentinelFree fanChain wideChainPattern fanE wideChainI := by
    unfold SentinelFree; decide
  have htotal : walkTotal fanChain wideChainPattern fanE = 2 ^ 64 := by decide
  obtain ⟨fuel, K, hrun, hinv, hval⟩ :=
    patternMatch_inner_three hwf hac (settles_of_walkCounts hrec hsf)
      (fun w hw r hr1 hr2 flag => storedValue_ne_sentinel hsf hw hr1 hr2 flag) (by decide)
      (searchInv_initial fanChain wideChainPattern
        (storedValue fanE wideChainI wideChainPattern.length) (by decide))
  have hentry : ∀ w, w < fanChain.length →
      mapFind (layerAt K wideChainPattern.length) (w, true)
        = some (toInt64 (fanE w wideChainPattern.length)) := by
    intro w hw
    have := final_top_entry hinv hval hw true
    simpa [storedValue, targetValue] using this
  refine ⟨fuel, K, ?_, ?_, ?_⟩
  · have := hrun 0
    rw [valueTotal_counts, htotal] at this
    exact this
  · intro w hw
    rw [hentry w (by
      have : fanChain.length = 20 := by decide
      omega)]
    have h4 : w = 0 ∨ w = 1 ∨ w = 2 ∨ w = 3 := by omega
    rcases h4 with h | h | h | h <;> subst h <;> decide
  · unfold extremumTotal
    rw [List.map_congr_left (fun w hw => by rw [hentry w (List.mem_range.1 hw)])]
    decide

/-! ## Write-once entries -/

theorem kept_refl (findoption : Int) (N : Nat) (K : memoize) : Kept findoption N K K :=
  fun _ _ _ h _ => Or.inl h

theorem kept_trans {findoption : Int} {N : Nat} {K1 K2 K3 : memoize}
    (h12 : Kept findoption N K1 K2) (h23 : Kept findoption N K2 K3) :
    Kept findoption N K1 K3 := by
  intro r key v hv hv0
  rcases h12 r key v hv hv0 with h | ⟨h1, h2, h3, h4, h5⟩
  · exact h23 r key v h hv0
  · rcases h23 r key 0 h5 (le_refl 0) with h | ⟨_, _, _, h6, _⟩
    · exact Or.inr ⟨h1, h2, h3, h4, h⟩
    · omega

theorem tidy_kept_setEntry {wallgraph : wallgraphvector} {pattern : patternvector}
    {findoption : Int} {K0 K : memoize} {r w : Nat} {flag : Bool} {v : Int}
    (ht : Tidy wallgraph pattern K) (hk : Kept findoption pattern.length K0 K)
    (hold : ∃ old, mapFind (layerAt K r) (w, flag) = some old ∧ old ≤ -1) :
    Tidy wallgraph pattern (setEntry K r (w, flag) v) ∧
      Kept findoption pattern.length K0 (setEntry K r (w, flag) v) := by
  obtain ⟨old, ho1, ho2⟩ := hold
  have hpres : ∀ r2 key2, mapFind (layerAt (setEntry K r (w, flag) v) r2) key2 ≠ none ↔
      mapFind (layerAt K r2) key2 ≠ none := by
    intro r2 key2
    constructor
    · intro h
      cases hf : mapFind (layerAt (setEntry K r (w, flag) v) r2) key2 with
      | none => exact absurd hf h
      | some v2 =>
        rcases entry_setEntry_cases hf with ⟨e1, e2, _⟩ | h2
        · rw [e1, e2, ho1]; simp
        · rw [h2]; simp
    · exact entry_setEntry_ne_none v
  have hlabel : ∀ r2 w2 flag2 v2,
      mapFind (layerAt (setEntry K r (w, flag) v) r2) (w2, flag2) = some v2 → v2 ≠ 0 →
      ∃ v3, mapFind (layerAt K r2) (w2, flag2) = some v3 ∧ v3 ≠ 0 := by
    intro r2 w2 flag2 v2 hf hne
    rcases entry_setEntry_cases hf with ⟨e1, e2, _⟩ | h2
    · rw [e1, e2]
      exact ⟨old, ho1, by omega⟩
    · exact ⟨v2, h2, hne⟩
  refine ⟨⟨by rw [length_setEntry]; exact ht.len, ?_, ?_, ?_⟩, ?_⟩
  · intro r2 w2
    rw [hpres, hpres]
    exact ht.paired r2 w2
  · intro r2 w2 v2 hf hne
    obtain ⟨v3, h3, h4⟩ := hlabel r2 w2 true v2 hf hne
    exact ht.extremum r2 w2 v3 h3 h4
  · intro r2 w2 v2 hf hne
    obtain ⟨v3, h3, h4⟩ := hlabel r2 w2 false v2 hf hne
    exact ht.intermediate r2 w2 v3 h3 h4
  · intro r2 key2 v2 hf hv2
    have hne : r2 ≠ r ∨ key2 ≠ (w, flag) := by
      by_contra hcon
      have hsame : r2 = r ∧ key2 = (w, flag) := by
        constructor
        · by_contra h1
          exact hcon (Or.inl h1)
        · by_contra h1
          exact hcon (Or.inr h1)
      obtain ⟨e1, e2⟩ := hsame
      subst e1 e2
      rcases hk r2 (w, flag) v2 hf hv2 with h | ⟨_, _, _, _, h⟩
      · rw [ho1] at h
        simp only [Option.some.injEq] at h
        omega
      · rw [ho1] at h
        simp only [Option.some.injEq] at h
        omega
    rw [entry_setEntry_other v hne]
    exact hk r2 key2 v2 hf hv2

theorem backFill_kept {wallgraph : wallgraphvector} {pattern : patternvector}
    {findoption : Int} {bfuel : Nat} {K K2 : memoize} (ht : Tidy wallgraph pattern K)
    (h : _backFill wallgraph bfuel pattern.length findoption K = some (.value K2)) :
    Tidy wallgraph pattern K2 ∧ Kept findoption pattern.length K K2 :=
  backFill_any
    (fun K1 => Tidy wallgraph pattern K1 ∧ Kept findoption pattern.length K K1) findoption
    (fun _ _ _ _ _ hq _ hold => tidy_kept_setEntry hq.1 hq.2 hold)
    ⟨ht, kept_refl _ _ _⟩ h

theorem turnEffect_kept {wallgraph : wallgraphvector} {pattern : patternvector}
    {findoption : Int} {w r : Nat} {ws : wallStruct} {ext int : Bool} {K K2 : memoize}
    (ht : Tidy wallgraph pattern K) (hws : wallgraph[w]? = some ws)
    (hext : _checkForWordInLabels (pattern.getD (pattern.length - r) []) ws.labels
      = .value ext)
    (hint : _checkForWordInLabels ((intermediatesOf pattern).getD (pattern.length - r) [])
      ws.labels = .value int)
    (hcond : findoption = 3 ∨
      ¬ ∃ t f, mapFind (layerAt K r) (w, true) = some t ∧
        mapFind (layerAt K r) (w, false) = some f ∧ (t > 0 ∨ f > 0))
    (heff : TurnEffect pattern.length w r ext int K K2) :
    Tidy wallgraph pattern K2 ∧ Kept findoption pattern.length K K2 := by
  have hE := extremumMatch_of_check hws hext
  have hI := intermediateMatch_of_check hws hint
  obtain ⟨tv, ht1, ht2⟩ := heff.extremum
  obtain ⟨fv, hf1, hf2⟩ := heff.intermediate
  have hother : ∀ r2 w2 flag2, ¬ (r2 = r ∧ w2 = w) →
      mapFind (layerAt K2 r2) (w2, flag2) = mapFind (layerAt K r2) (w2, flag2) := by
    intro r2 w2 flag2 hne
    apply heff.frame
    by_cases h1 : r2 = r
    · exact Or.inr (fun h2 => hne ⟨h1, h2⟩)
    · exact Or.inl h1
  refine ⟨⟨by rw [heff.len]; exact ht.len, ?_, ?_, ?_⟩, ?_⟩
  · intro r2 w2
    by_cases hsame : r2 = r ∧ w2 = w
    · obtain ⟨e1, e2⟩ := hsame
      subst e1 e2
      rw [ht1, hf1]
      simp
    · rw [hother r2 w2 true hsame, hother r2 w2 false hsame]
      exact ht.paired r2 w2
  · intro r2 w2 v2 hf hne
    by_cases hsame : r2 = r ∧ w2 = w
    · obtain ⟨e1, e2⟩ := hsame
      subst e1 e2
      rw [ht1] at hf
      simp only [Option.some.injEq] at hf
      subst hf
      rw [hE]
      cases ext with
      | true => rfl
      | false =>
        exfalso
        simp only [assignedValue, true_or, if_true] at ht2
        omega
    · rw [hother r2 w2 true hsame] at hf
      exact ht.extremum r2 w2 v2 hf hne
  · intro r2 w2 v2 hf hne
    by_cases hsame : r2 = r ∧ w2 = w
    · obtain ⟨e1, e2⟩ := hsame
      subst e1 e2
      rw [hf1] at hf
      simp only [Option.some.injEq] at hf
      subst hf
      rw [hI]
      cases int with
      | true => rfl
      | false =>
        exfalso
        simp only [assignedValue, true_or, if_true] at hf2
        omega
    · rw [hother r2 w2 false hsame] at hf
      exact ht.intermediate r2 w2 v2 hf hne
  · intro r2 key v hv hv0
    obtain ⟨w2, flag⟩ := key
    by_cases hsame : r2 = r ∧ w2 = w
    · obtain ⟨e1, e2⟩ := hsame
      subst e1 e2
      cases flag with
      | true =>
        left
        rw [ht1]
        congr 1
        rw [hv] at ht2
        cases ext with
        | false =>
          have hz : v = 0 := by
            by_contra hne
            have := ht.extremum r2 w2 v hv hne
            rw [hE] at this
            simp at this
          simp only [assignedValue, true_or, if_true] at ht2
          omega
        | true =>
          simp only [assignedValue, Bool.true_eq_false, Bool.false_eq_true, or_self, if_false,
            Option.getD_some] at ht2
          omega
      | false =>
        rw [hv] at hf2
        by_cases hz : int = false ∨ r2 = pattern.length
        · have ha : assignedValue int (decide (r2 = pattern.length)) (some v) = 0 := by
            unfold assignedValue
            rcases hz with h | h
            · simp [h]
            · simp [h]
          rw [ha] at hf2
          have hfv : fv = 0 := by omega
          by_cases hv1 : v = 0
          · left
            rw [hf1, hfv, hv1]
          · have hint2 := ht.intermediate r2 w2 v hv hv1
            rw [hI] at hint2
            have hN : r2 = pattern.length := by
              rcases hz with h | h
              · rw [hint2] at h
                simp at h
              · exact h
            right
            refine ⟨?_, hN, rfl, by omega, by rw [hf1, hfv]⟩
            rcases hcond with h | h
            · exact h
            · exfalso
              apply h
              have hT : mapFind (layerAt K r2) (w2, true) ≠ none :=
                (ht.paired r2 w2).2 (by rw [hv]; simp)
              cases hTv : mapFind (layerAt K r2) (w2, true) with
              | none => exact absurd hTv hT
              | some t => exact ⟨t, v, rfl, hv, Or.inr (by omega)⟩
        · left
          rw [hf1]
          congr 1
          have ha : assignedValue int (decide (r2 = pattern.length)) (some v) = v := by
            unfold assignedValue
            have h1 : ¬ int = false := fun h => hz (Or.inl h)
            have h2 : ¬ r2 = pattern.length := fun h => hz (Or.inr h)
            simp [h1, h2]
          rw [ha] at hf2
          omega
    · left
      rw [hother r2 w2 flag hsame]
      exact hv

theorem searchStep_kept {wallgraph : wallgraphvector} {pattern : patternvector}
    {findoption : Int} (hfo : findoption = 1 ∨ findoption = 2 ∨ findoption = 3)
    {w r : Nat} {S : List node} {K : memoize} (ht : Tidy wallgraph pattern K)
    (hr : r ≤ pattern.length) :
    (∀ S2 K2, searchStep wallgraph pattern (intermediatesOf pattern) pattern.length
        findoption (w, r) S K = .next S2 K2 →
      Tidy wallgraph pattern K2 ∧ Kept findoption pattern.length K K2) ∧
    ∀ b K2, searchStep wallgraph pattern (intermediatesOf pattern) pattern.length
        findoption (w, r) S K = .found b K2 →
      Tidy wallgraph pattern K2 ∧ Kept findoption pattern.length K K2 := by
  have hall : ∀ res K2, searchStep wallgraph pattern (intermediatesOf pattern)
        pattern.length findoption (w, r) S K = res →
      ((∃ S2, res = .next S2 K2) ∨ ∃ b, res = .found b K2) →
      Tidy wallgraph pattern K2 ∧ Kept findoption pattern.length K K2 := by
    intro res K2 hres hshape
    rcases searchStep_any wallgraph pattern findoption w r S K (by rw [ht.len]; omega) with
      ⟨f, e⟩ | ⟨t, f, _, _, ⟨_, _, _, e⟩ | ⟨_, _, b, e⟩⟩ |
      ⟨hcond, ws, ext, int, K3, pushed, hws, hext, hint, e, _, heff⟩
    · rw [e] at hres
      subst hres
      rcases hshape with ⟨_, h⟩ | ⟨_, h⟩ <;> simp at h
    · rw [e] at hres
      subst hres
      rcases hshape with ⟨_, h⟩ | ⟨_, h⟩
      · simp only [StepResult.next.injEq] at h
        rw [← h.2]
        exact ⟨ht, kept_refl _ _ _⟩
      · simp at h
    · rw [e] at hres
      subst hres
      rcases hshape with ⟨_, h⟩ | ⟨_, h⟩
      · simp at h
      · simp only [StepResult.found.injEq] at h
        rw [← h.2]
        exact ⟨ht, kept_refl _ _ _⟩
    · have hcond2 : findoption = 3 ∨
          ¬ ∃ t f, mapFind (layerAt K r) (w, true) = some t ∧
            mapFind (layerAt K r) (w, false) = some f ∧ (t > 0 ∨ f > 0) := by
        rcases hcond with h | h
        · left
          omega
        · exact Or.inr h
      have hk3 := turnEffect_kept ht hws hext hint hcond2 heff
      have hK : K2 = K3 := by
        rcases e with e | ⟨b, e⟩
        · rw [e] at hres
          subst hres
          rcases hshape with ⟨_, h⟩ | ⟨_, h⟩
          · simp only [StepResult.next.injEq] at h
            exact h.2.symm
          · simp at h
        · rw [e] at hres
          subst hres
          rcases hshape with ⟨_, h⟩ | ⟨_, h⟩
          · simp at h
          · simp only [StepResult.found.injEq] at h
            exact h.2.symm
      rw [hK]
      exact hk3
  exact ⟨fun S2 K2 h => hall _ K2 h (Or.inl ⟨S2, rfl⟩),
    fun b K2 h => hall _ K2 h (Or.inr ⟨b, rfl⟩)⟩

theorem visits_tidy {wallgraph : wallgraphvector} {pattern : patternvector}
    {findoption : Int} (hfo : findoption = 1 ∨ findoption = 2 ∨ findoption = 3)
    {S1 : List node} {K1 : memoize} {S2 : List node} {K2 : memoize}
    (ht : Tidy wallgraph pattern K1) (hS : ∀ n ∈ S1, n.2 ≤ pattern.length)
    (hv : Visits wallgraph pattern findoption S1 K1 S2 K2) :
    Tidy wallgraph pattern K2 ∧ (∀ n ∈ S2, n.2 ≤ pattern.length) ∧
      Kept findoption pattern.length K1 K2 := by
  induction hv with
  | start => exact ⟨ht, hS, kept_refl _ _ _⟩
  | turn thisnode S K S3 K3 _ hstep ih =>
    obtain ⟨w, r⟩ := thisnode
    obtain ⟨h1, h2, h3⟩ := ih
    have hr := h2 (w, r) (List.mem_cons_self _ _)
    simp only at hr
    obtain ⟨h4, h5⟩ := (searchStep_kept hfo h1 hr).1 S3 K3 hstep
    obtain ⟨_, _, g3, _⟩ := searchStep_top (by rw [h1.len]; omega) hstep
    refine ⟨h4, fun n hn => ?_, kept_trans h3 h5⟩
    rcases g3 n hn with h | h
    · exact h2 n (List.mem_cons_of_mem _ h)
    · have := h.2
      omega

theorem tidy_replicate (wallgraph : wallgraphvector) (pattern : patternvector) :
    Tidy wallgraph pattern (List.replicate (pattern.length + 1) []) := by
  refine ⟨by simp, ?_, ?_, ?_⟩
  · intro r w
    rw [layerAt_replicate]
    simp [mapFind]
  · intro r w v h
    rw [layerAt_replicate] at h
    simp [mapFind] at h
  · intro r w v h
    rw [layerAt_replicate] at h
    simp [mapFind] at h

theorem initialStack_bound (wallgraph : wallgraphvector) (N : Nat) :
    ∀ n ∈ initialStack wallgraph N, n.2 ≤ N := by
  intro n hn
  rw [mem_initialStack] at hn
  omega


/-! ## Tidy stores are what the batch loop hands to a search -/

theorem lastSteps_getD (pattern : patternvector) (T j : Nat) (hT : T ≤ pattern.length)
    (hj : j ≤ T) :
    pattern.getD (pattern.length - j) [] = (lastSteps pattern T).getD (T - j) [] := by
  unfold lastSteps
  rw [List.getD_eq_getElem?_getD, List.getD_eq_getElem?_getD, List.getElem?_drop]
  congr 2
  omega

theorem suffix_getD {newpattern oldpattern : patternvector} {T j : Nat}
    (h1 : T ≤ newpattern.length) (h2 : T ≤ oldpattern.length)
    (h3 : lastSteps newpattern T = lastSteps oldpattern T) (hj : j ≤ T) :
    newpattern.getD (newpattern.length - j) []
      = oldpattern.getD (oldpattern.length - j) [] := by
  rw [lastSteps_getD newpattern T j h1 hj, lastSteps_getD oldpattern T j h2 hj, h3]

theorem suffix_extremumMatch (wallgraph : wallgraphvector)
    {newpattern oldpattern : patternvector} {T j : Nat}
    (h1 : T ≤ newpattern.length) (h2 : T ≤ oldpattern.length)
    (h3 : lastSteps newpattern T = lastSteps oldpattern T) (hj : j ≤ T) (w : Nat) :
    extremumMatch wallgraph newpattern w j = extremumMatch wallgraph oldpattern w j := by
  unfold extremumMatch
  rw [suffix_getD h1 h2 h3 hj]

theorem suffix_intermediateMatch (wallgraph : wallgraphvector)
    {newpattern oldpattern : patternvector} {T j : Nat}
    (h1 : T ≤ newpattern.length) (h2 : T ≤ oldpattern.length)
    (h3 : lastSteps newpattern T = lastSteps oldpattern T) (hj : j ≤ T) (w : Nat) :
    intermediateMatch wallgraph newpattern w j
      = intermediateMatch wallgraph oldpattern w j := by
  unfold intermediateMatch
  rw [intermediatesOf_getD, intermediatesOf_getD, suffix_getD h1 h2 h3 hj]

theorem tidy_pruneRegister {wallgraph : wallgraphvector} {newpattern oldpattern : patternvector}
    {keepcount : memoize} (ht : Tidy wallgraph oldpattern keepcount) :
    Tidy wallgraph newpattern (_pruneRegister newpattern oldpattern keepcount) := by
  obtain ⟨h1, h2, h3, _⟩ := tailmatch_suffix newpattern oldpattern
  obtain ⟨h5, h6⟩ := pruneRegister_layers newpattern oldpattern keepcount
  refine ⟨h5, ?_, ?_, ?_⟩
  · intro r w
    rw [h6 r]
    split
    · exact ht.paired r w
    · simp [mapFind]
  · intro r w v hv hne
    rw [h6 r] at hv
    split at hv
    · next hr =>
      rw [suffix_extremumMatch wallgraph h1 h2 h3 hr.2 w]
      exact ht.extremum r w v hv hne
    · simp [mapFind] at hv
  · intro r w v hv hne
    rw [h6 r] at hv
    split at hv
    · next hr =>
      rw [suffix_intermediateMatch wallgraph h1 h2 h3 hr.2 w]
      exact ht.intermediate r w v hv hne
    · simp [mapFind] at hv

theorem searchLoop_tidy {wallgraph : wallgraphvector} {pattern : patternvector}
    {findoption : Int} (hfo : findoption = 1 ∨ findoption = 2 ∨ findoption = 3)
    (bfuel fuel : Nat) :
    ∀ (S : List node) (K : memoize) (c : Nat) (K3 : memoize),
      Tidy wallgraph pattern K → (∀ n ∈ S, n.2 ≤ pattern.length) →
      searchLoop wallgraph pattern (intermediatesOf pattern) pattern.length findoption
        bfuel fuel S K = some (.value (c, K3)) →
      Tidy wallgraph pattern K3 ∧ Kept findoption pattern.length K K3 := by
  induction fuel with
  | zero =>
    intro S K c K3 _ _ h
    simp [searchLoop] at h
  | succ fuel ih =>
    intro S K c K3 ht hS h
    cases S with
    | nil =>
      simp only [searchLoop] at h
      unfold finishSearch at h
      split at h
      · simp at h
      · simp at h
      · next k hk =>
        have hk3 : k = K3 := by
          split at h <;>
            (simp only [Option.some.injEq, Outcome.value.injEq, Prod.mk.injEq] at h
             exact h.2)
        rw [← hk3]
        exact backFill_kept ht hk
    | cons thisnode rest =>
      obtain ⟨w, r⟩ := thisnode
      have hr := hS (w, r) (List.mem_cons_self _ _)
      simp only at hr
      have hstep := @searchStep_kept wallgraph pattern findoption hfo w r rest K ht hr
      simp only [searchLoop] at h
      split at h
      · simp at h
      · next k hk =>
        simp only [Option.some.injEq, Outcome.value.injEq, Prod.mk.injEq] at h
        rw [← h.2]
        exact hstep.2 false k hk
      · next k hk =>
        obtain ⟨t2, k2⟩ := hstep.2 true k hk
        split at h
        · simp at h
        · simp at h
        · next k3 hk3 =>
          simp only [Option.some.injEq, Outcome.value.injEq, Prod.mk.injEq] at h
          rw [← h.2]
          obtain ⟨t3, k23⟩ := backFill_kept t2 hk3
          exact ⟨t3, kept_trans k2 k23⟩
      · next S2 K2 hk =>
        obtain ⟨t2, k2⟩ := hstep.1 S2 K2 hk
        obtain ⟨_, _, g3, _⟩ := searchStep_top (by rw [ht.len]; omega) hk
        obtain ⟨t3, k3⟩ := ih S2 K2 c K3 t2 (fun n hn => by
          rcases g3 n hn with h2 | h2
          · exact hS n (List.mem_cons_of_mem _ h2)
          · have := h2.2
            omega) h
        exact ⟨t3, kept_trans k2 k3⟩

theorem tidy_patternMatch {wallgraph : wallgraphvector} {pattern : patternvector}
    {findoption : Int} (hfo : findoption = 1 ∨ findoption = 2 ∨ findoption = 3)
    {fuel c : Nat} {K0 K : memoize} (ht : Tidy wallgraph pattern K0)
    (h : _patternMatch wallgraph fuel pattern findoption K0 = some (.value (c, K))) :
    Tidy wallgraph pattern K ∧ Kept findoption pattern.length K0 K :=
  searchLoop_tidy hfo fuel fuel _ K0 c K ht (initialStack_bound _ _) h

/-- C13 (amended). In each of the modes 1, 2 and 3, for a search started on a
tidy store: between any store `K1` the loop passes through and any later
store of the same search (a later store of the loop, the store at an early
return, the store after `_backFill`), an entry holding 0 or a positive count
keeps its value, except that in mode 3 a positive intermediate entry at
layer `N` may be reset to 0. -/
theorem write_once (wallgraph : wallgraphvector) (pattern : patternvector)
    (findoption : Int) (K0 : memoize) (S1 : List node) (K1 : memoize) (S2 : List node)
    (K2 : memoize) (hfo : findoption = 1 ∨ findoption = 2 ∨ findoption = 3)
    (hK0 : Tidy wallgraph pattern K0)
    (h1 : Visits wallgraph pattern findoption (initialStack wallgraph pattern.length) K0
      S1 K1)
    (h2 : Visits wallgraph pattern findoption S1 K1 S2 K2) :
    Kept findoption pattern.length K1 K2 ∧
      (∀ bfuel K3, _backFill wallgraph bfuel pattern.length findoption K2
          = some (.value K3) →
        Kept findoption pattern.length K2 K3 ∧ Kept findoption pattern.length K1 K3) ∧
      ∀ thisnode S b K3, S2 = thisnode :: S →
        searchStep wallgraph pattern (intermediatesOf pattern) pattern.length findoption
          thisnode S K2 = .found b K3 →
        Kept findoption pattern.length K1 K3 ∧
          ∀ bfuel K4, _backFill wallgraph bfuel pattern.length findoption K3
              = some (.value K4) →
            Kept findoption pattern.length K3 K4 ∧ Kept findoption pattern.length K1 K4 := by
  obtain ⟨t1, s1, _⟩ := visits_tidy hfo hK0 (initialStack_bound _ _) h1
  obtain ⟨t2, s2, k12⟩ := visits_tidy hfo t1 s1 h2
  refine ⟨k12, fun bfuel K3 h => ?_, ?_⟩
  · have := (backFill_kept t2 h).2
    exact ⟨this, kept_trans k12 this⟩
  · intro thisnode S b K3 hS hstep
    obtain ⟨w, r⟩ := thisnode
    subst hS
    have hr := s2 (w, r) (List.mem_cons_self _ _)
    simp only at hr
    obtain ⟨t3, k23⟩ := (searchStep_kept hfo t2 hr).2 b K3 hstep
    refine ⟨kept_trans k12 k23, fun bfuel K4 h => ?_⟩
    have := (backFill_kept t3 h).2
    exact ⟨this, kept_trans (kept_trans k12 k23) this⟩

/-- Witness for C13: mode 3 on `detourGraph` with the pattern `M`, started on
the tidy store `detourCarried` that `_pruneRegister` builds after the pattern
`M`, `M`. The store `K1` is `detourCarried` itself, which holds the settled
counts 1 (intermediate entry of wall 1, extremum entry of wall 2) and two
entries 0 at the top layer; `K2` is `detourReset`, the store after the turns
on the walls 2 and 1, in which the intermediate entry of wall 1 has been reset
to 0 and every other entry is as in `K1`. -/
theorem write_once_witness :
    ((3 : Int) = 1 ∨ (3 : Int) = 2 ∨ (3 : Int) = 3) ∧
      Tidy detourGraph [['M']] detourCarried ∧
      Visits detourGraph [['M']] 3
        (initialStack detourGraph ([['M']] : patternvector).length) detourCarried
        (initialStack detourGraph ([['M']] : patternvector).length) detourCarried ∧
      Visits detourGraph [['M']] 3
        (initialStack detourGraph ([['M']] : patternvector).length) detourCarried
        [(0, 1)] detourReset ∧
      mapFind (layerAt detourCarried 1) (1, false) = some 1 ∧
      mapFind (layerAt detourCarried 1) (1, true) = some 0 ∧
      mapFind (layerAt detourCarried 1) (2, false) = some 0 ∧
      mapFind (layerAt detourCarried 1) (2, true) = some 1 ∧
      (Kept 3 ([['M']] : patternvector).length detourCarried detourReset ∧
        (∀ bfuel K3, _backFill detourGraph bfuel ([['M']] : patternvector).length 3
            detourReset = some (.value K3) →
          Kept 3 ([['M']] : patternvector).length detourReset K3 ∧
            Kept 3 ([['M']] : patternvector).length detourCarried K3) ∧
        ∀ thisnode S b K3, ([(0, 1)] : List node) = thisnode :: S →
          searchStep detourGraph [['M']] (intermediatesOf [['M']])
            ([['M']] : patternvector).length 3 thisnode S detourReset = .found b K3 →
          Kept 3 ([['M']] : patternvector).length detourCarried K3 ∧
            ∀ bfuel K4, _backFill detourGraph bfuel ([['M']] : patternvector).length 3
                K3 = some (.value K4) →
              Kept 3 ([['M']] : patternvector).length K3 K4 ∧
                Kept 3 ([['M']] : patternvector).length detourCarried K4) :=
  ⟨by decide,
   tidy_pruneRegister
     (tidy_patternMatch (by decide) (tidy_replicate detourGraph [['M'], ['M']])
       (show _patternMatch detourGraph 50 [['M'], ['M']] 3
         (List.replicate (([['M'], ['M']] : patternvector).length + 1) [])
           = some (.value (1, detourFinal)) by rfl)).1,
   Visits.start,
   Visits.turn (1, 1) [(0, 1)] detourCarried _ _
     (Visits.turn (2, 1) [(1, 1), (0, 1)] detourCarried _ _ Visits.start (by rfl)) (by rfl),
   by decide, by decide, by decide, by decide,
   write_once detourGraph [['M']] 3 detourCarried
     (initialStack detourGraph ([['M']] : patternvector).length) detourCarried
     [(0, 1)] detourReset (by decide)
     (tidy_pruneRegister
       (tidy_patternMatch (by decide) (tidy_replicate detourGraph [['M'], ['M']])
         (show _patternMatch detourGraph 50 [['M'], ['M']] 3
           (List.replicate (([['M'], ['M']] : patternvector).length + 1) [])
             = some (.value (1, detourFinal)) by rfl)).1)
     Visits.start
     (Visits.turn (1, 1) [(0, 1)] detourCarried _ _
       (Visits.turn (2, 1) [(1, 1), (0, 1)] detourCarried _ _ Visits.start (by rfl))
       (by rfl))⟩

/-- C13 as stated fails. In mode 3 on `detourGraph`, the search for `M`, `M`
leaves `detourFinal`; the search for the next pattern `M` starts on the store
`detourCarried` built by `_pruneRegister`, whose layer 1 (now the top layer)
holds the count 1 in the intermediate entry of wall 1; after the turns on the
walls 2 and 1 that entry holds 0. -/
theorem carried_entry_overwritten :
    _patternMatch detourGraph 50 [['M'], ['M']] 3 (List.replicate 3 [])
        = some (.value (1, detourFinal)) ∧
      mapFind (layerAt detourCarried 1) (1, false) = some 1 ∧
      Visits detourGraph [['M']] 3 (initialStack detourGraph ([['M']] : patternvector).length)
        detourCarried [(0, 1)] detourReset ∧
      mapFind (layerAt detourReset 1) (1, false) = some 0 :=
  ⟨by rfl, by decide,
   Visits.turn (1, 1) [(0, 1)] detourCarried _ _
     (Visits.turn (2, 1) [(1, 1), (0, 1)] detourCarried _ _ Visits.start (by rfl)) (by rfl),
   by decide⟩

/-! ## Cleaning the top layer commutes with the writes of a turn -/

theorem walkInter_stable {wallgraph : wallgraphvector} {rank : Nat → Nat}
    (hac : Acyclic wallgraph rank) (pattern : patternvector) (r : Nat) (prev : Nat → Nat) :
    ∀ d w, rank w < d →
      walkInter wallgraph pattern r prev d w = walkInter wallgraph pattern r prev (d + 1) w := by
  intro d
  induction d with
  | zero => intro w h; omega
  | succ d ih =>
    intro w hw
    rw [walkInter, walkInter]
    split
    · congr 1
      apply List.map_congr_left
      intro x hx
      have hwl := lt_of_mem_outedgesOf hx
      have := hac w hwl x hx
      rw [ih x (by omega)]
    · rfl

/-- On an acyclic graph the recurrences of the walk count have a solution. -/
theorem walkCounts_exist {wallgraph : wallgraphvector} {rank : Nat → Nat}
    (hac : Acyclic wallgraph rank) (pattern : patternvector) :
    ∃ E I, WalkCounts wallgraph pattern E I := by
  obtain ⟨R, hR⟩ := exists_rank_bound rank wallgraph.length
  refine ⟨fun w r => walkLayer wallgraph pattern R r w,
    fun w r => walkInter wallgraph pattern r (walkLayer wallgraph pattern R r) R w, ?_⟩
  intro w hw
  refine ⟨?_, ?_⟩
  · simp only [walkLayer, if_true]
  · intro r hr hr1
    refine ⟨?_, ?_⟩
    · simp only [walkLayer]
      rw [if_neg (by omega)]
    · simp only
      have hRw := hR w hw
      obtain ⟨d, hd⟩ : ∃ d, R = d + 1 := ⟨R - 1, by omega⟩
      conv_lhs => rw [hd, walkInter]
      split
      · congr 1
        apply List.map_congr_left
        intro x hx
        have := hac w hw x hx
        rw [walkInter_stable hac pattern r _ d x (by omega), ← hd]
      · rfl

theorem lastSteps_full (pattern : patternvector) : lastSteps pattern pattern.length = pattern := by
  unfold lastSteps
  simp

theorem not_proper_suffix_iff (A B : patternvector) :
    ¬ (A.length < B.length ∧ lastSteps B A.length = A) ↔
      (tailmatchLoop B.reverse A.reverse < A.length ∨ A = B) := by
  obtain ⟨hTB, hTA, hsuf, hmax⟩ := tailmatch_suffix B A
  constructor
  · intro hns
    by_cases hT : tailmatchLoop B.reverse A.reverse < A.length
    · exact Or.inl hT
    · right
      have hTe : tailmatchLoop B.reverse A.reverse = A.length := by omega
      rw [hTe, lastSteps_full] at hsuf
      have hlen : A.length = B.length := by
        by_contra hne
        exact hns ⟨by omega, hsuf⟩
      rw [hlen, lastSteps_full] at hsuf
      exact hsuf.symm
  · rintro (hT | he) ⟨h1, h2⟩
    · have := hmax A.length (by omega) (le_refl _) (by rw [h2, lastSteps_full])
      omega
    · subst he
      omega

end PatternMatch
